import Mathlib

/-!
Verification development for the `portfolio` watcher scripts.

Shallow embedding of the decision logic of

* `src/FriendTech_Bot.js` (share sniper: Trade handler, `buy_shares`, the two-file store),
* `src/TelegramBot.js` (buy announcer: Transfer handler, reward draw),
* `src/PairSniper.js` (pair scanner: `getReserves`).

External collaborators (the chain, the disk, the chat service, `Math.random`) are
explicit oracle arguments; every effect a handler issues is recorded in a trace.
JavaScript numbers are IEEE 754 binary64 values over the rationals, and `String` of a
number is the shortest decimal numeral that reads back as the number.
-/

set_option autoImplicit false

/-! ## Definitions: `src/FriendTech_Bot.js` -/

namespace FriendTechBot

/-- An account address as ethers hands it to the handler: a `0x…` hex string. -/
abbrev Address := String

/-- A value produced by `JSON.parse`. Numbers are kept as rationals (only their
being zero or not is ever observed here). -/
inductive JsonValue where
  | null
  | bool (b : Bool)
  | number (q : ℚ)
  | string (s : String)
  | array (items : List JsonValue)
  | object (members : List (String × JsonValue))

/-- JavaScript truthiness of a parsed JSON value. -/
def JsonValue.truthy : JsonValue → Bool
  | .null => false
  | .bool b => b
  | .number q => decide (q ≠ 0)
  | .string s => decide (s ≠ "")
  | .array _ => true
  | .object _ => true

/-- Truthiness of the result of a property read (`undefined` is falsy). -/
def truthyProp : Option JsonValue → Bool
  | none => false
  | some v => v.truthy

/-- Property read `v[key]` for an address key. Outer `none`: a `TypeError` is thrown
(`v` is `null`). Inner `none`: the read yields `undefined`. Addresses never name a
member of a prototype, an array index or a string index, so only own members of an
object are found. -/
def JsonValue.getProp (v : JsonValue) (key : String) : Option (Option JsonValue) :=
  match v with
  | .null => none
  | .object members => some (members.lookup key)
  | _ => some none

/-- Own-property assignment on the member list of an object: an existing key keeps
its position, a new key is appended (insertion order). -/
def setMember (key : String) (val : JsonValue) :
    List (String × JsonValue) → List (String × JsonValue)
  | [] => [(key, val)]
  | (k, v) :: rest =>
    if k = key then (k, val) :: rest else (k, v) :: setMember key val rest

/-- Assignment `v[key] = val` as seen by a later `JSON.stringify(v)`. `none`: a
`TypeError` is thrown (`v` is `null`). On a primitive the assignment is silently
dropped (the script is not in strict mode); on an array the non-index property is
not serialised. -/
def JsonValue.setProp (v : JsonValue) (key : String) (val : JsonValue) : Option JsonValue :=
  match v with
  | .null => none
  | .object members => some (.object (setMember key val members))
  | other => some other

/-- What a file on disk is to `fs.readFileSync` followed by `JSON.parse`. -/
inductive FileState where
  /-- The file is absent (or unreadable): `readFileSync` throws. -/
  | missing
  /-- The file is read but `JSON.parse` throws on its text. -/
  | unparsable
  /-- The file holds the serialisation of `v`. -/
  | holds (v : JsonValue)

/-- The two store files. -/
structure Files where
  /-- File `subjects.json`. -/
  subjects : FileState
  /-- File `subjects_temp.json`. -/
  subjectsTemp : FileState

/-- `JSON.parse(fs.readFileSync(file, 'utf8'))`; `none` when either call throws. -/
def readJson : FileState → Option JsonValue
  | .holds v => some v
  | .missing => none
  | .unparsable => none

/-- Source lines 63-74. Any exception inside the `try` yields `false`. -/
def subjectExistsInFile (fs : Files) (subject : Address) : Bool :=
  match readJson fs.subjects with
  | none => false
  | some subjectsFromFile =>
    match readJson fs.subjectsTemp with
    | none => false
    | some subjectsFromTempFile =>
      match subjectsFromFile.getProp subject with
      | none => false
      | some inFile =>
        if truthyProp inFile then
          match subjectsFromTempFile.getProp subject with
          | none => false
          | some inTemp => if truthyProp inTemp then true else false
        else false

/-- Outcome of the two disk writes of one `writeSubjectsToFile` call. -/
structure DiskOutcome where
  /-- Whether `fs.writeFileSync` on the temporary file succeeds. -/
  writeOk : Bool
  /-- Whether `fs.renameSync` succeeds. -/
  renameOk : Bool

/-- Source lines 76-102. `none`: the assignment on line 86 throws (outside any
`try`), nothing is written. A failed `writeFileSync` is taken to leave the disk as
it was; a successful `renameSync` moves the temporary file onto `subjects.json`,
after which `subjects_temp.json` no longer exists. -/
def writeSubjectsToFile (disk : DiskOutcome) (fs : Files) (subject : Address)
    (characteristics : JsonValue) : Option Files :=
  let subjectsFromFile : JsonValue :=
    match readJson fs.subjects with
    | some v => v
    | none => .object []
  match subjectsFromFile.setProp subject characteristics with
  | none => none
  | some updated =>
    if disk.writeOk then
      if disk.renameOk then
        some { subjects := .holds updated, subjectsTemp := .missing }
      else
        some { fs with subjectsTemp := .holds updated }
    else
      some fs

/-- How a `buyShares` transaction ends. -/
inductive TxOutcome where
  /-- The call `ftech.buyShares(...)` rejects: nothing is submitted. -/
  | rejected
  /-- The transaction is submitted, `tx.wait()` rejects. -/
  | unconfirmed
  /-- The transaction is submitted and `tx.wait()` resolves. -/
  | confirmed
  deriving DecidableEq

/-- Answers of the contract `ftech` during one handler run (`none`: the call rejects). -/
structure Chain where
  getPrice : Nat → Nat → Option Nat
  protocolFeePercent : Option Nat
  subjectFeePercent : Option Nat
  getBuyPriceAfterFee : Address → Nat → Option Nat
  getSellPriceAfterFee : Address → Nat → Option Nat
  buyShares : Address → Nat → Nat → TxOutcome

/-- Observable steps of a handler run, in order. -/
inductive Action where
  /-- The store lookup `subjectExistsInFile(subject)`. -/
  | lookup (subject : Address)
  /-- The call `ftech.buyShares(subject, amount, {value})`. -/
  | buyShares (subject : Address) (amount value : Nat)
  /-- The call `writeSubjectsToFile(subject, record)`. -/
  | put (subject : Address) (record : JsonValue)

/-- Decimal digits of the fractional part of `ethers.formatEther`: 18 digits, zero
padded on the left, trailing zeros removed but one digit kept. -/
def fractionDigits (frac : Nat) : String :=
  let digits := (Nat.toDigits 10 frac)
  let padded := List.replicate (18 - digits.length) '0' ++ digits
  let stripped := (padded.reverse.dropWhile (fun c => c == '0')).reverse
  String.mk (if stripped.isEmpty then ['0'] else stripped)

/-- The function `ethers.formatEther` on a non-negative amount of wei. -/
def formatEther (wei : Nat) : String :=
  toString (wei / 1000000000000000000) ++ "." ++ fractionDigits (wei % 1000000000000000000)

/-- The record of source lines 39-43. -/
def characteristics (buy_price supply : Nat) : JsonValue :=
  .object [("buy_price", .string (formatEther buy_price)),
           ("status", .string "bought"),
           ("supply", .string (toString supply))]

/-- The divisor `BigInt(1e18)` of source lines 32-33: the integer value of the double
written `1e18`. -/
def feeScale : Nat := 1000000000000000000

/-- What `buy_shares` returns and leaves behind. -/
structure BuyResult where
  /-- The returned boolean. -/
  ok : Bool
  /-- The store files afterwards. -/
  files : Files
  /-- The steps issued. -/
  actions : List Action

/-- Source lines 28-51. Every rejection or exception is caught by the `try` and the
function returns `false`; it never throws. -/
def buy_shares (chain : Chain) (disk : DiskOutcome) (fs : Files)
    (address : Address) (amount supply : Nat) : BuyResult :=
  match chain.getPrice supply 1 with
  | none => ⟨false, fs, []⟩
  | some _bp =>
    match chain.protocolFeePercent with
    | none => ⟨false, fs, []⟩
    | some protocolFeePercent =>
      let _pf := _bp * protocolFeePercent / feeScale
      match chain.subjectFeePercent with
      | none => ⟨false, fs, []⟩
      | some subjectFeePercent =>
        let _sf := _bp * subjectFeePercent / feeScale
        let _tf := _bp + _pf + _sf
        match chain.getBuyPriceAfterFee address 1 with
        | none => ⟨false, fs, []⟩
        | some buy_price =>
          match chain.buyShares address amount _tf with
          | .rejected => ⟨false, fs, [.buyShares address amount _tf]⟩
          | .unconfirmed => ⟨false, fs, [.buyShares address amount _tf]⟩
          | .confirmed =>
            let record := characteristics buy_price supply
            match writeSubjectsToFile disk fs address record with
            | none => ⟨false, fs, [.buyShares address amount _tf, .put address record]⟩
            | some fs1 => ⟨true, fs1, [.buyShares address amount _tf, .put address record]⟩

/-- The decoded arguments of a `Trade` event. -/
structure TradeEvent where
  trader : Address
  subject : Address
  isBuy : Bool
  shareAmount : Nat
  ethAmount : Nat
  protocolEthAmount : Nat
  subjectEthAmount : Nat
  supply : Nat

/-- The two supply guards of source lines 119-120: `true` when neither returns. -/
def supplyInRange (ev : TradeEvent) : Bool :=
  !(decide (ev.supply > 12)) && !(decide (ev.supply < 10))

/-- The three guards of source lines 118-120: `true` when none returns. -/
def passesFilter (ev : TradeEvent) : Bool :=
  ev.isBuy && supplyInRange ev

/-- What one run of the `Trade` handler leaves behind. -/
structure HandlerResult where
  /-- The store files afterwards. -/
  files : Files
  /-- The steps issued. -/
  actions : List Action

/-- The `Trade` handler, source lines 108-147. A rejected sell-price query ends the
run before `buy_shares` is called. -/
def onTrade (chain : Chain) (disk : DiskOutcome) (fs : Files) (ev : TradeEvent) :
    HandlerResult :=
  if !ev.isBuy then ⟨fs, []⟩
  else if ev.supply > 12 then ⟨fs, []⟩
  else if ev.supply < 10 then ⟨fs, []⟩
  else if subjectExistsInFile fs ev.subject then ⟨fs, [.lookup ev.subject]⟩
  else
    match chain.getSellPriceAfterFee ev.subject 1 with
    | none => ⟨fs, [.lookup ev.subject]⟩
    | some _sell_price =>
      let result := buy_shares chain disk fs ev.subject 1 ev.supply
      ⟨result.files, .lookup ev.subject :: result.actions⟩

/-- Whether a step is a `buyShares` submission for `subject`. -/
def Action.isBuyOf (subject : Address) : Action → Bool
  | .buyShares s _ _ => decide (s = subject)
  | _ => false

/-- The value of a `buyShares` submission, if the step is one. -/
def Action.submittedValue? : Action → Option Nat
  | .buyShares _ _ value => some value
  | _ => none

/-- A chain on which every query answers and every purchase is confirmed, with the
5% fees and the price `supply² · 62500000000000` wei for one share. -/
def calmChain : Chain where
  getPrice := fun supply _ => some (supply * supply * 62500000000000)
  protocolFeePercent := some 50000000000000000
  subjectFeePercent := some 50000000000000000
  getBuyPriceAfterFee := fun _ _ => some 8318750000000000
  getSellPriceAfterFee := fun _ _ => some 5625000000000000
  buyShares := fun _ _ _ => .confirmed

/-- A disk on which both writes succeed. -/
def healthyDisk : DiskOutcome := ⟨true, true⟩

/-- Both store files absent: the state of a fresh checkout. -/
def freshFiles : Files := ⟨.missing, .missing⟩

/-- A chain quoting a base price of 10 wei with the usual 5% fees. -/
def pennyChain : Chain where
  getPrice := fun _ _ => some 10
  protocolFeePercent := some 50000000000000000
  subjectFeePercent := some 50000000000000000
  getBuyPriceAfterFee := fun _ _ => some 10
  getSellPriceAfterFee := fun _ _ => some 10
  buyShares := fun _ _ _ => .confirmed

/-- A chain whose price query rejects. -/
def deafChain : Chain where
  getPrice := fun _ _ => none
  protocolFeePercent := some 50000000000000000
  subjectFeePercent := some 50000000000000000
  getBuyPriceAfterFee := fun _ _ => some 8318750000000000
  getSellPriceAfterFee := fun _ _ => some 5625000000000000
  buyShares := fun _ _ _ => .confirmed

/-- Both store files present and holding the empty object. -/
def emptyStore : Files := ⟨.holds (.object []), .holds (.object [])⟩

/-- A qualifying `Trade` event: a buy that brings the supply to 11. -/
def sampleTrade : TradeEvent where
  trader := "0x1111111111111111111111111111111111111111"
  subject := "0x2222222222222222222222222222222222222222"
  isBuy := true
  shareAmount := 1
  ethAmount := 6250000000000000
  protocolEthAmount := 312500000000000
  subjectEthAmount := 312500000000000
  supply := 11

end FriendTechBot

/-! ## Definitions: JavaScript numbers (IEEE 754 binary64) -/

namespace JS

/-- A JavaScript Number. Finite values are carried as rationals; the two zeros are
not told apart (no operation used below observes the sign of a zero). A finite value
that a program can hold satisfies `IsBinary64`. -/
inductive JSNumber where
  | nan
  | posInf
  | negInf
  | fin (q : ℚ)
  deriving DecidableEq

/-- The rational `q` is a finite binary64 value: `m · 2^e` with `|m| < 2^53` and
`-1074 ≤ e ≤ 971`. -/
def IsBinary64 (q : ℚ) : Prop :=
  ∃ m e : ℤ, |m| < 2 ^ 53 ∧ -1074 ≤ e ∧ e ≤ 971 ∧ q = (m : ℚ) * (2 : ℚ) ^ e

/-- Nearest integer, ties to the even one. -/
def roundHalfEven (r : ℚ) : ℤ :=
  let f := ⌊r⌋
  if r - f < 1 / 2 then f
  else if 1 / 2 < r - f then f + 1
  else if f % 2 = 0 then f
  else f + 1

/-- Exponent of the unit in the last place around `q`: 52 below the binary exponent
of `|q|`, and `-1074` throughout the subnormal range. -/
def ulpExponent (q : ℚ) : ℤ :=
  max (Int.log 2 |q| - 52) (-1074)

/-- Rounding of an exact result to binary64, round-to-nearest ties-to-even, with
overflow to the infinities. -/
def roundToDouble (q : ℚ) : JSNumber :=
  let e := ulpExponent q
  let r : ℚ := (roundHalfEven (q / (2 : ℚ) ^ e) : ℚ) * (2 : ℚ) ^ e
  if (2 : ℚ) ^ (1024 : ℤ) ≤ r then .posInf
  else if r ≤ -(2 : ℚ) ^ (1024 : ℤ) then .negInf
  else .fin r

/-- The conversion `Number(n)` of a non-negative BigInt. -/
def ofBigInt (n : Nat) : JSNumber :=
  roundToDouble (n : ℚ)

/-- The sum `a + b`. -/
def JSNumber.add : JSNumber → JSNumber → JSNumber
  | .nan, _ => .nan
  | _, .nan => .nan
  | .posInf, .negInf => .nan
  | .negInf, .posInf => .nan
  | .posInf, _ => .posInf
  | _, .posInf => .posInf
  | .negInf, _ => .negInf
  | _, .negInf => .negInf
  | .fin a, .fin b => roundToDouble (a + b)

/-- The difference `a - b`. -/
def JSNumber.sub : JSNumber → JSNumber → JSNumber
  | .nan, _ => .nan
  | _, .nan => .nan
  | .posInf, .posInf => .nan
  | .negInf, .negInf => .nan
  | .posInf, _ => .posInf
  | _, .negInf => .posInf
  | .negInf, _ => .negInf
  | _, .posInf => .negInf
  | .fin a, .fin b => roundToDouble (a - b)

/-- An infinity of the given sign. -/
def signedInf (positive : Bool) : JSNumber :=
  if positive then .posInf else .negInf

/-- The product `a * b`. -/
def JSNumber.mul : JSNumber → JSNumber → JSNumber
  | .nan, _ => .nan
  | _, .nan => .nan
  | .posInf, .posInf => .posInf
  | .posInf, .negInf => .negInf
  | .negInf, .posInf => .negInf
  | .negInf, .negInf => .posInf
  | .posInf, .fin b => if b = 0 then .nan else signedInf (decide (0 < b))
  | .negInf, .fin b => if b = 0 then .nan else signedInf (decide (b < 0))
  | .fin a, .posInf => if a = 0 then .nan else signedInf (decide (0 < a))
  | .fin a, .negInf => if a = 0 then .nan else signedInf (decide (a < 0))
  | .fin a, .fin b => roundToDouble (a * b)

/-- The quotient `a / d` by a positive finite constant `d` (the only divisions in
the scripts are by the literals `10 ** 9`, `10 ** 18`, `100`, `2` and `4`). -/
def JSNumber.divBy (a : JSNumber) (d : ℚ) : JSNumber :=
  match a with
  | .nan => .nan
  | .posInf => .posInf
  | .negInf => .negInf
  | .fin q => roundToDouble (q / d)

/-- The comparison `a < b` (false when either side is `NaN`). -/
def JSNumber.lt : JSNumber → JSNumber → Bool
  | .nan, _ => false
  | _, .nan => false
  | .posInf, _ => false
  | _, .negInf => false
  | .negInf, _ => true
  | _, .posInf => true
  | .fin a, .fin b => decide (a < b)

/-- The comparison `a > b`. -/
def JSNumber.gt (a b : JSNumber) : Bool :=
  b.lt a

/-- The comparison `a >= b` (false when either side is `NaN`). -/
def JSNumber.ge : JSNumber → JSNumber → Bool
  | .nan, _ => false
  | _, .nan => false
  | .posInf, _ => true
  | _, .negInf => true
  | .negInf, _ => false
  | _, .posInf => false
  | .fin a, .fin b => decide (b ≤ a)

/-- The comparison `a <= b`. -/
def JSNumber.le (a b : JSNumber) : Bool :=
  b.ge a

/-- The number is one a program can hold: `NaN`, an infinity, or a finite binary64
value. -/
def JSNumber.IsValue : JSNumber → Prop
  | .fin q => IsBinary64 q
  | _ => True

/-- The function `Math.floor`. -/
def JSNumber.floor : JSNumber → JSNumber
  | .fin q => .fin (⌊q⌋ : ℤ)
  | other => other

/-- The function `Math.min` on two arguments. -/
def JSNumber.min : JSNumber → JSNumber → JSNumber
  | .nan, _ => .nan
  | _, .nan => .nan
  | .negInf, _ => .negInf
  | _, .negInf => .negInf
  | .posInf, b => b
  | a, .posInf => a
  | .fin a, .fin b => .fin (Min.min a b)

/-- A decimal numeral `s × 10^(n - k)` whose significand `s` has `k` digits, as in
the specification of `Number::toString`. -/
structure Decimal where
  /-- The significand, an integer of `k` digits. -/
  s : ℕ
  /-- The number of digits of the significand. -/
  k : ℕ
  /-- The position of the decimal point, counted from the first digit. -/
  n : ℤ
  deriving DecidableEq

/-- The real number the numeral denotes. -/
def Decimal.value (d : Decimal) : ℚ :=
  (d.s : ℚ) * (10 : ℚ) ^ (d.n - (d.k : ℤ))

/-- The numerals with `k` digits that read back as the positive double `x`, as far as
the choice of the nearest one goes. A numeral that reads back as `x` lies between the
neighbours of `x`, so its point position `n` is the decimal exponent of `x` plus 0, 1
or 2; for each `n` the significands that read back as `x` are consecutive, and the one
nearest to `x` is the integer below or above `x / 10^(n - k)` or an end of the `k`-digit
range. -/
def candidatesAt (x : ℚ) (k : ℕ) : List Decimal :=
  let E := Int.log 10 x
  ([E, E + 1, E + 2].flatMap fun n =>
    let f := ⌊x / (10 : ℚ) ^ (n - (k : ℤ))⌋₊
    [f, f + 1, 10 ^ (k - 1), 10 ^ k - 1].map fun s => (⟨s, k, n⟩ : Decimal)).filter fun d =>
      decide (10 ^ (k - 1) ≤ d.s) && decide (d.s < 10 ^ k) &&
        decide (roundToDouble d.value = .fin x)

/-- Whether numeral `a` is to be preferred to `b`: nearer to `x`, or as near with an
even significand. -/
def Decimal.closer (x : ℚ) (a b : Decimal) : Bool :=
  decide (|a.value - x| < |b.value - x|) ||
    (decide (|a.value - x| = |b.value - x|) && decide (a.s % 2 = 0))

/-- The preferred numeral of a list. -/
def closest (x : ℚ) : List Decimal → Option Decimal
  | [] => none
  | d :: ds =>
    match closest x ds with
    | none => some d
    | some b => if d.closer x b then some d else some b

/-- The numeral of `Number::toString` for a positive double `x`: the fewest digits
`k` with a `k`-digit numeral that reads back as `x`, and among those numerals the one
nearest to `x`. Seventeen digits suffice for every binary64 value. -/
def shortestDecimal (x : ℚ) : Option Decimal :=
  (List.range' 1 17).findSome? fun k => closest x (candidatesAt x k)

/-- Decimal digits of a natural number, most significant first. -/
def decimalDigits (n : ℕ) : List Char :=
  if n = 0 then ['0'] else (Nat.digits 10 n).reverse.map Nat.digitChar

/-- The text of a numeral, steps 7 to 12 of `Number::toString` for radix 10. -/
def Decimal.render (d : Decimal) : String :=
  let digits := decimalDigits d.s
  if (d.k : ℤ) ≤ d.n ∧ d.n ≤ 21 then
    String.mk (digits ++ List.replicate (d.n - (d.k : ℤ)).toNat '0')
  else if 0 < d.n ∧ d.n ≤ 21 then
    String.mk (digits.take d.n.toNat ++ '.' :: digits.drop d.n.toNat)
  else if -6 < d.n ∧ d.n ≤ 0 then
    String.mk ('0' :: '.' :: (List.replicate (-d.n).toNat '0' ++ digits))
  else
    let sign : Char := if 0 < d.n - 1 then '+' else '-'
    let exponent := decimalDigits (d.n - 1).natAbs
    if d.k = 1 then String.mk (digits ++ 'e' :: sign :: exponent)
    else String.mk (digits.take 1 ++ '.' :: (digits.drop 1 ++ 'e' :: sign :: exponent))

/-- The conversion `String(x)` of a Number (`Number::toString` with radix 10). A finite
value outside binary64, which no program holds, has no numeral and gives the empty
text. -/
def numberToString : JSNumber → String
  | .nan => "NaN"
  | .posInf => "Infinity"
  | .negInf => "-Infinity"
  | .fin q =>
    if q = 0 then "0"
    else
      let text : String :=
        match shortestDecimal |q| with
        | some d => d.render
        | none => ""
      if q < 0 then "-" ++ text else text

end JS

/-! ## Definitions: `src/TelegramBot.js` -/

namespace TelegramBot

open JS

/-- An account address as ethers hands it to the handler. -/
abbrev Address := String

/-- The constant `decimals`. -/
def decimals : Nat := 9

/-- The animation attached to a notification. -/
inductive Gif where
  | gifWinner
  | gifLoser
  deriving DecidableEq

/-- The figures interpolated into the caption of a notification. -/
structure Caption where
  /-- The winner text (`true`) or the loser text (`false`). -/
  winner : Bool
  /-- Jackpot value: `actualPot`. -/
  actualPot : JSNumber
  /-- Next jackpot: `nextPot`. -/
  nextPot : JSNumber
  /-- Buy amount: `_x`. -/
  buyAmount : JSNumber
  /-- Probability of win, in percent: `randomArrayLength`. -/
  probability : JSNumber
  deriving DecidableEq

/-- Observable steps of a handler run, in order. -/
inductive Effect where
  /-- The line `console.log("Generating probability...")` at the head of the reward branch. -/
  | generating
  /-- The call `bot.sendAnimation(groupChatId, gif, caption)`. -/
  | sendAnimation (gif : Gif) (caption : Caption)
  /-- The call `callerWallet.sendTransaction(tx)` with `tx.to` and the text `tx.value`
  that the handler passes. Whether ethers makes a transaction of the request is told
  by `transactionValue?`. -/
  | sendTransaction (recipient : Address) (value : String)
  deriving DecidableEq

/-- The mapping `Math.floor(r * 100) + 1` of a result `r` of `Math.random()`. -/
def randomInt (r : ℚ) : JSNumber :=
  (((JSNumber.fin r).mul (.fin 100)).floor).add (.fin 1)

/-- The method `Set.prototype.add`: insertion order, no repeats. -/
def setAdd (numbers : List JSNumber) (x : JSNumber) : List JSNumber :=
  if x ∈ numbers then numbers else numbers ++ [x]

/-- The `while` loop of source lines 98-100, fed with the successive results of
`Math.random()`. `none`: the loop is still running when the supplied results end. -/
def drawLoop (count : JSNumber) : List JSNumber → List ℚ → Option (List JSNumber)
  | numbers, [] =>
    if (JSNumber.fin (numbers.length : ℚ)).lt count then none else some numbers
  | numbers, r :: rest =>
    if (JSNumber.fin (numbers.length : ℚ)).lt count then
      drawLoop count (setAdd numbers (randomInt r)) rest
    else some numbers

/-- Source lines 95-105: the array of the set built by the loop. -/
def generateUniqueRandomNumbers (count : JSNumber) (draws : List ℚ) :
    Option (List JSNumber) :=
  drawLoop count [] draws

/-- Source line 163: `(Number(value) / 10 ** decimals) * tokenPriceInUSD`. -/
def usdValue (value : Nat) (tokenPriceInUSD : JSNumber) : JSNumber :=
  ((ofBigInt value).divBy ((10 : ℚ) ^ decimals)).mul tokenPriceInUSD

/-- Source lines 165-169: the top-up `_dif`. -/
def topUp (_x : JSNumber) : JSNumber :=
  if _x.gt (.fin 97) && _x.lt (.fin 100) then (JSNumber.fin 101).sub _x else .fin 0

/-- The value `_x + _dif` compared with the threshold on source line 171. -/
def effectiveValue (_x : JSNumber) : JSNumber :=
  _x.add (topUp _x)

/-- Source line 180: `Math.min(Math.floor((_x + _dif) / 100), 10)`. -/
def randomArrayLength (_x : JSNumber) : JSNumber :=
  (((effectiveValue _x).divBy 100).floor).min (.fin 10)

/-- Source lines 190-240: the pots, the notification and the payout request. `sendOk`
tells whether the awaited `bot.sendAnimation` resolves; when it rejects, control
passes to the `catch` of the handler. The request names `recipient`, the `to` of the
event, and the text `String(actualPot)` as its value, and is not awaited; the signing
key of the hot wallet is taken to be well formed. -/
def announce (randomNumbers : List JSNumber) (randomNumberToCheck : JSNumber)
    (hotWalletBalance : Nat) (recipient : Address) (_x probability : JSNumber) (sendOk : Bool) :
    List Effect :=
  let actualPot := (ofBigInt hotWalletBalance).divBy 2
  let nextPot := (ofBigInt hotWalletBalance).divBy 4
  if randomNumbers.contains randomNumberToCheck then
    Effect.sendAnimation .gifWinner ⟨true, actualPot, nextPot, _x, probability⟩ ::
      (if sendOk then [Effect.sendTransaction recipient (numberToString actualPot)] else [])
  else
    [Effect.sendAnimation .gifLoser ⟨false, actualPot, nextPot, _x, probability⟩]

/-- Source lines 163-241: the decision taken on the computed value `_x`. `loopDraws`
are the results of `Math.random()` inside the draw loop, `referenceDraw` the result
of the call on line 182. -/
def rewardStage (_x : JSNumber) (hotWalletBalance : Nat) (recipient : Address)
    (loopDraws : List ℚ) (referenceDraw : ℚ) (sendOk : Bool) : List Effect :=
  if (effectiveValue _x).ge (.fin 100) then
    match generateUniqueRandomNumbers (randomArrayLength _x) loopDraws with
    | none => [Effect.generating]
    | some randomNumbers =>
      Effect.generating ::
        announce randomNumbers (randomInt referenceDraw) hotWalletBalance recipient _x
          (randomArrayLength _x) sendOk
  else []

/-- The decoded arguments of a `Transfer` event. -/
structure TransferEvent where
  /-- The argument `from`. -/
  sender : Address
  /-- The argument `to`. -/
  recipient : Address
  /-- The argument `value`. -/
  value : Nat

/-- What the handler obtains from outside during one run. -/
structure Surroundings where
  /-- The global `tokenPriceInUSD` after `fetchEthPrice` and `fetchTokenPriceInEth`. -/
  tokenPriceInUSD : JSNumber
  /-- The answer of `provider.getBalance(hotWallet)`; `none`: the call rejects. -/
  hotWalletBalance : Option Nat
  /-- Results of `Math.random()` inside the draw loop. -/
  loopDraws : List ℚ
  /-- Result of `Math.random()` on source line 182. -/
  referenceDraw : ℚ
  /-- Whether `bot.sendAnimation` resolves. -/
  sendOk : Bool

/-- The `Transfer` handler, source lines 125-246. -/
def onTransfer (env : Surroundings) (ev : TransferEvent) : List Effect :=
  if ev.sender = "0x628d9A2175B66A11fcE8208106Fbb95Ed33503E0" ∧
      ev.recipient ≠ "0xC39b0D3c3DA68cdaefe24a07373b9894496eCA97" then
    match env.hotWalletBalance with
    | none => []
    | some hotWalletBalance =>
      rewardStage (usdValue ev.value env.tokenPriceInUSD) hotWalletBalance ev.recipient
        env.loopDraws env.referenceDraw env.sendOk
  else []

/-- A qualifying `Transfer`: 250 tokens leave the watched pool. -/
def sampleTransfer : TransferEvent where
  sender := "0x628d9A2175B66A11fcE8208106Fbb95Ed33503E0"
  recipient := "0x3333333333333333333333333333333333333333"
  value := 250000000000

/-- Token price 1 USD, one ether in the hot wallet, loop draws 0, 0, 1/2 and reference
draw 0; `sendOk` tells whether the notification is delivered. -/
def sampleSurroundings (sendOk : Bool) : Surroundings where
  tokenPriceInUSD := .fin 1
  hotWalletBalance := some 1000000000000000000
  loopDraws := [0, 0, 1 / 2]
  referenceDraw := 0
  sendOk := sendOk

/-- The sample surroundings with the notification delivered and the given balance of
the hot wallet. -/
def surroundingsWithBalance (hotWalletBalance : Nat) : Surroundings where
  tokenPriceInUSD := .fin 1
  hotWalletBalance := some hotWalletBalance
  loopDraws := [0, 0, 1 / 2]
  referenceDraw := 0
  sendOk := true

/-- Whether a step is a notification. -/
def Effect.isNotification : Effect → Bool
  | .sendAnimation _ _ => true
  | _ => false

/-- Whether a step is a payout request. -/
def Effect.isPayout : Effect → Bool
  | .sendTransaction _ _ => true
  | _ => false

/-- The value of a decimal digit; `none` for any other character. -/
def digitValue? (c : Char) : Option Nat :=
  if c.isDigit then some (c.toNat - 48) else none

/-- Reading of a run of decimal digits onto the number read so far; `none` when a
character is not a digit. -/
def readDigits : List Char → Nat → Option Nat
  | [], acc => some acc
  | c :: cs, acc =>
    match digitValue? c with
    | some d => readDigits cs (10 * acc + d)
    | none => none

/-- What ethers makes of the `value` text of a transaction request (`getBigInt`,
which hands the text to `BigInt`), for the texts that `String` of a Number yields: a
non-empty run of decimal digits is the amount in wei; a text with a sign, a point, an
exponent or letters is refused, and no transaction is made (`none`). -/
def transactionValue? (value : String) : Option Nat :=
  match value.data with
  | [] => none
  | c :: cs => readDigits (c :: cs) 0

/-- The payouts that ethers submits for the requests of a run, recipient and amount
in wei: one for each request whose value text it reads as an amount. The provider is
taken to answer the calls that ethers makes to fill in and broadcast the transaction. -/
def payouts : List Effect → List (Address × Nat)
  | [] => []
  | Effect.sendTransaction recipient value :: rest =>
    match transactionValue? value with
    | some amount => (recipient, amount) :: payouts rest
    | none => payouts rest
  | _ :: rest => payouts rest

end TelegramBot

/-! ## Definitions: the interrupted store write of `src/FriendTech_Bot.js` -/

namespace FriendTechBot

/-- Source lines 76-91 alone: the disk when the process is stopped after
`fs.writeFileSync` on the temporary file has returned and before `fs.renameSync`
runs. `none`: the assignment on line 86 throws and the temporary write is never
reached. -/
def interruptedWrite (fs : Files) (subject : Address) (characteristics : JsonValue) :
    Option Files :=
  let subjectsFromFile : JsonValue :=
    match readJson fs.subjects with
    | some v => v
    | none => .object []
  match subjectsFromFile.setProp subject characteristics with
  | none => none
  | some updated => some { fs with subjectsTemp := .holds updated }

/-- A second subject. -/
def otherSubject : Address := "0x4444444444444444444444444444444444444444"

/-- The store after one completed put of the sample subject on a fresh disk. -/
def storeAfterOnePut : Files :=
  ⟨.holds (.object [(sampleTrade.subject, characteristics 8318750000000000 11)]), .missing⟩

end FriendTechBot

/-! ## Definitions: `src/PairSniper.js` -/

namespace PairSniper

open JS

/-- An address as ethers hands it over: a hex string in checksum case. -/
abbrev Address := String

/-- The constant `busd`. -/
def busd : Address := "0xe9e7cea3dedca5984780bafc599bd69add087d56"

/-- The constant `wbnb`. -/
def wbnb : Address := "0xbb4CdB9CBd36B01bD1cBaEBF2De08d9173bc095c"

/-- The numeric literal of source line 21. -/
def MIN_BNB : JSNumber := roundToDouble 16000000000000000000

/-- The numeric literal of source line 22. -/
def MIN_BUSD : JSNumber := roundToDouble 5000000000000000000000

/-- The numeric literal of source line 24. -/
def MAX_BNB : JSNumber := roundToDouble 116000000000000000000

/-- The numeric literal of source line 25. -/
def MAX_BUSD : JSNumber := roundToDouble 35000000000000000000

/-- The number a balance becomes inside `!=`, `>=` and `<=`. The script runs on
ethers v5 (`ethers.providers`), whose `balanceOf` answers a `BigNumber` object; the
object has no `valueOf` of its own, so the operators convert it through `toString()`
(its decimal digits) and read the string as a Number. -/
def toNumber (balance : Nat) : JSNumber :=
  roundToDouble (balance : ℚ)

/-- The comparison `x != 0` on numbers. -/
def neZero (x : JSNumber) : Bool :=
  decide (x ≠ .fin 0)

/-- One row handed to `ws.addRows`, by the columns of the header row. -/
structure Row where
  /-- Column "Pair Address". -/
  pairAddress : String
  /-- Column "Token Address". -/
  tokenAddress : String
  /-- Column "Type". -/
  kind : String
  /-- Column "Liquidity". -/
  liquidity : String
  /-- Column "Chart". -/
  chart : String
  deriving DecidableEq

/-- The answers of the four contract reads of source lines 71-75 (`none`: the call
rejects). -/
structure PairReads where
  wbnbBalance : Option Nat
  busdBalance : Option Nat
  token0 : Option Address
  token1 : Option Address

/-- The chart link of a token. -/
def chartLink (token : Address) : String :=
  "https://poocoin.app/tokens/" ++ token

/-- Source lines 93-192: the rows appended for the reads of one pair. -/
def scan (address : Address) (wbnbBalance busdBalance : Nat) (token0 token1 : Address) :
    List Row :=
  if neZero (toNumber wbnbBalance) then
    if decide (token0 = wbnb) && (toNumber wbnbBalance).ge MIN_BNB
        && (toNumber wbnbBalance).le MAX_BNB then
      [⟨address, token1, "wBNB", toString wbnbBalance, chartLink token1⟩]
    else if decide (token1 = wbnb) && (toNumber wbnbBalance).ge MIN_BNB
        && (toNumber wbnbBalance).le MAX_BNB then
      [⟨address, token0, "wBNB", toString wbnbBalance, chartLink token0⟩]
    else []
  else if neZero (toNumber busdBalance) && (toNumber busdBalance).ge MIN_BUSD
      && (toNumber busdBalance).le MAX_BUSD then
    if decide (token0 = busd) then
      [⟨address, token1, "BUSD", toString busdBalance, chartLink token1⟩]
    else if decide (token1 = busd) then
      [⟨address, token0, "BUSD", toString busdBalance, chartLink token0⟩]
    else []
  else []

/-- The function `getReserves`, source lines 56-197: the rows it appends to the
worksheet. A rejected read is caught by the `try` and nothing is appended. -/
def getReserves (reads : PairReads) (address : Address) : List Row :=
  match reads.wbnbBalance with
  | none => []
  | some wbnbBalance =>
    match reads.busdBalance with
    | none => []
    | some busdBalance =>
      match reads.token0 with
      | none => []
      | some token0 =>
        match reads.token1 with
        | none => []
        | some token1 => scan address wbnbBalance busdBalance token0 token1

/-- All four reads answering. -/
def answered (wbnbBalance busdBalance : Nat) (token0 token1 : Address) : PairReads :=
  ⟨some wbnbBalance, some busdBalance, some token0, some token1⟩

/-- The address of a sample pair. -/
def samplePair : Address := "0x5555555555555555555555555555555555555555"

/-- The address of a sample token. -/
def sampleToken : Address := "0x6666666666666666666666666666666666666666"

end PairSniper

/-! ## Theorems: binary64 rounding -/

namespace JS

/-- An integer rounds to itself. -/
theorem roundHalfEven_intCast (n : ℤ) : roundHalfEven (n : ℚ) = n := by
  simp [roundHalfEven]

/-- Rounding moves a value up by at most one half. -/
theorem roundHalfEven_le_add_half (r : ℚ) : (roundHalfEven r : ℚ) ≤ r + 1 / 2 := by
  unfold roundHalfEven
  have h1 := Int.floor_le r
  have h2 := Int.lt_floor_add_one r
  simp only []
  split_ifs with a b c
  · linarith
  · push_cast; linarith
  · linarith
  · have : r - ⌊r⌋ = 1 / 2 := le_antisymm (not_lt.mp b) (not_lt.mp a)
    push_cast; linarith

/-- Rounding never goes below the integer part. -/
theorem floor_le_roundHalfEven (r : ℚ) : ⌊r⌋ ≤ roundHalfEven r := by
  unfold roundHalfEven
  simp only []
  split_ifs <;> omega

/-- Rounding never falls below an integer that the value reaches. -/
theorem le_roundHalfEven_of_intCast_le (k : ℤ) (r : ℚ) (h : (k : ℚ) ≤ r) :
    k ≤ roundHalfEven r :=
  le_trans (Int.le_floor.mpr h) (floor_le_roundHalfEven r)

/-- Rounding never exceeds an integer above the value. -/
theorem roundHalfEven_le_of_le_intCast (k : ℤ) (r : ℚ) (h : r ≤ (k : ℚ)) :
    roundHalfEven r ≤ k := by
  unfold roundHalfEven
  have h1 := Int.floor_le r
  simp only []
  have hfk : ⌊r⌋ ≤ k := by
    have : (⌊r⌋ : ℚ) ≤ k := le_trans h1 h
    exact_mod_cast this
  split_ifs with a b c
  · exact hfk
  · have : (⌊r⌋ : ℚ) < k := by linarith
    have : ⌊r⌋ < k := by exact_mod_cast this
    omega
  · exact hfk
  · have : (⌊r⌋ : ℚ) < k := by
      have : r - ⌊r⌋ = 1 / 2 := le_antisymm (not_lt.mp b) (not_lt.mp a)
      linarith
    have : ⌊r⌋ < k := by exact_mod_cast this
    omega

/-- A value more than one half below an integer rounds below it. -/
theorem roundHalfEven_lt_of_lt_sub_half (k : ℤ) (r : ℚ) (h : r < (k : ℚ) - 1 / 2) :
    roundHalfEven r < k := by
  have h1 := roundHalfEven_le_add_half r
  have : (roundHalfEven r : ℚ) < k := by linarith
  exact_mod_cast this

/-- Powers of two are positive. -/
theorem two_zpow_pos (e : ℤ) : (0 : ℚ) < (2 : ℚ) ^ e := zpow_pos (by norm_num) e

/-- The rounded value in the finite range. -/
theorem roundToDouble_eq_fin (q : ℚ)
    (h1 : (roundHalfEven (q / (2 : ℚ) ^ ulpExponent q) : ℚ) * (2 : ℚ) ^ ulpExponent q
      < (2 : ℚ) ^ (1024 : ℤ))
    (h2 : -(2 : ℚ) ^ (1024 : ℤ)
      < (roundHalfEven (q / (2 : ℚ) ^ ulpExponent q) : ℚ) * (2 : ℚ) ^ ulpExponent q) :
    roundToDouble q
      = .fin ((roundHalfEven (q / (2 : ℚ) ^ ulpExponent q) : ℚ) * (2 : ℚ) ^ ulpExponent q) := by
  unfold roundToDouble
  simp only []
  rw [if_neg (not_le.mpr h1), if_neg (not_le.mpr h2)]

/-- Rounding leaves a binary64 value as it is. -/
theorem roundToDouble_of_isBinary64 (q : ℚ) (h : IsBinary64 q) : roundToDouble q = .fin q := by
  obtain ⟨m, e', hm, he1, he2, rfl⟩ := h
  by_cases hm0 : m = 0
  · subst hm0
    norm_num [roundToDouble, ulpExponent, roundHalfEven]
  · have h2pos := two_zpow_pos e'
    have habs : |(m : ℚ) * (2 : ℚ) ^ e'| = (|m| : ℤ) * (2 : ℚ) ^ e' := by
      rw [abs_mul, abs_of_pos h2pos]; push_cast; rfl
    have hqpos : 0 < |(m : ℚ) * (2 : ℚ) ^ e'| := by
      rw [habs]
      apply mul_pos _ h2pos
      have : 0 < |m| := abs_pos.mpr hm0
      exact_mod_cast this
    have hlt : |(m : ℚ) * (2 : ℚ) ^ e'| < (2 : ℚ) ^ (53 + e') := by
      rw [habs, zpow_add₀ (by norm_num : (2 : ℚ) ≠ 0)]
      apply mul_lt_mul_of_pos_right _ h2pos
      have : ((|m| : ℤ) : ℚ) < ((2 ^ 53 : ℤ) : ℚ) := by exact_mod_cast hm
      calc ((|m| : ℤ) : ℚ) < ((2 ^ 53 : ℤ) : ℚ) := this
        _ = (2 : ℚ) ^ (53 : ℤ) := by norm_num
    have hlog : Int.log 2 |(m : ℚ) * (2 : ℚ) ^ e'| < 53 + e' := by
      rw [← Int.lt_zpow_iff_log_lt (by norm_num) hqpos]
      simpa using hlt
    have hule : ulpExponent ((m : ℚ) * (2 : ℚ) ^ e') ≤ e' := by
      unfold ulpExponent
      apply max_le <;> omega
    obtain ⟨d, hd⟩ := Int.eq_ofNat_of_zero_le (sub_nonneg.mpr hule)
    have hdiv : (m : ℚ) * (2 : ℚ) ^ e' / (2 : ℚ) ^ ulpExponent ((m : ℚ) * (2 : ℚ) ^ e')
        = ((m * 2 ^ d : ℤ) : ℚ) := by
      rw [mul_div_assoc, ← zpow_sub₀ (by norm_num : (2 : ℚ) ≠ 0), hd]
      push_cast
      rw [zpow_natCast]
    have hval : (roundHalfEven ((m : ℚ) * (2 : ℚ) ^ e'
          / (2 : ℚ) ^ ulpExponent ((m : ℚ) * (2 : ℚ) ^ e')) : ℚ)
          * (2 : ℚ) ^ ulpExponent ((m : ℚ) * (2 : ℚ) ^ e')
        = (m : ℚ) * (2 : ℚ) ^ e' := by
      rw [hdiv, roundHalfEven_intCast, ← hdiv]
      field_simp
    have hbig : (2 : ℚ) ^ (53 + e') ≤ (2 : ℚ) ^ (1024 : ℤ) :=
      zpow_le_zpow_right₀ (by norm_num) (by omega)
    have habs_lt := lt_of_lt_of_le hlt hbig
    rw [abs_lt] at habs_lt
    rw [roundToDouble_eq_fin _ (by rw [hval]; exact habs_lt.2) (by rw [hval]; exact habs_lt.1),
      hval]


/-- Integers of magnitude below 2^53 are binary64 values. -/
theorem isBinary64_intCast (n : ℤ) (h : |n| < 2 ^ 53) : IsBinary64 (n : ℚ) :=
  ⟨n, 0, h, by norm_num, by norm_num, by simp⟩

/-- A binary64 value of magnitude at least `2^k` is a multiple of `2^(k-52)`. -/
theorem IsBinary64.exists_multiple {v : ℚ} (hv : IsBinary64 v) (k : ℤ)
    (hk : (2 : ℚ) ^ k ≤ |v|) : ∃ N : ℤ, v = (N : ℚ) * (2 : ℚ) ^ (k - 52) := by
  obtain ⟨m, e, hm, -, -, rfl⟩ := hv
  have h2pos := two_zpow_pos e
  have habs : |(m : ℚ) * (2 : ℚ) ^ e| = (|m| : ℤ) * (2 : ℚ) ^ e := by
    rw [abs_mul, abs_of_pos h2pos]; push_cast; rfl
  have hlt : |(m : ℚ) * (2 : ℚ) ^ e| < (2 : ℚ) ^ (53 + e) := by
    rw [habs, zpow_add₀ (by norm_num : (2 : ℚ) ≠ 0)]
    apply mul_lt_mul_of_pos_right _ h2pos
    have : ((|m| : ℤ) : ℚ) < ((2 ^ 53 : ℤ) : ℚ) := by exact_mod_cast hm
    calc ((|m| : ℤ) : ℚ) < ((2 ^ 53 : ℤ) : ℚ) := this
      _ = (2 : ℚ) ^ (53 : ℤ) := by norm_num
  have hke : k < 53 + e := by
    have := lt_of_le_of_lt hk hlt
    exact (zpow_lt_zpow_iff_right₀ (by norm_num : (1 : ℚ) < 2)).mp this
  obtain ⟨d, hd⟩ := Int.eq_ofNat_of_zero_le (show 0 ≤ e - (k - 52) by omega)
  refine ⟨m * 2 ^ d, ?_⟩
  have he : e = (d : ℤ) + (k - 52) := by omega
  rw [he, zpow_add₀ (by norm_num : (2 : ℚ) ≠ 0), zpow_natCast]
  push_cast
  ring

/-- Rounding at scale `2^e` never falls below a multiple of `2^e` that the exact
value reaches. -/
theorem scaled_round_ge (q : ℚ) (e K : ℤ) (h : (K : ℚ) * (2 : ℚ) ^ e ≤ q) :
    (K : ℚ) * (2 : ℚ) ^ e ≤ (roundHalfEven (q / (2 : ℚ) ^ e) : ℚ) * (2 : ℚ) ^ e := by
  have h2pos := two_zpow_pos e
  have h1 : (K : ℚ) ≤ q / (2 : ℚ) ^ e := by
    rw [le_div_iff₀ h2pos]; exact h
  have h2 := le_roundHalfEven_of_intCast_le K _ h1
  have h3 : (K : ℚ) ≤ (roundHalfEven (q / (2 : ℚ) ^ e) : ℚ) := by exact_mod_cast h2
  exact mul_le_mul_of_nonneg_right h3 h2pos.le

/-- Rounding at scale `2^e` stays a full step below a multiple of `2^e` from which
the exact value is more than half a step away. -/
theorem scaled_round_lt (q : ℚ) (e K : ℤ)
    (h : q < (K : ℚ) * (2 : ℚ) ^ e - (2 : ℚ) ^ e / 2) :
    (roundHalfEven (q / (2 : ℚ) ^ e) : ℚ) * (2 : ℚ) ^ e ≤ (K : ℚ) * (2 : ℚ) ^ e - (2 : ℚ) ^ e := by
  have h2pos := two_zpow_pos e
  have h1 : q / (2 : ℚ) ^ e < (K : ℚ) - 1 / 2 := by
    rw [div_lt_iff₀ h2pos]
    calc q < (K : ℚ) * (2 : ℚ) ^ e - (2 : ℚ) ^ e / 2 := h
      _ = ((K : ℚ) - 1 / 2) * (2 : ℚ) ^ e := by ring
  have h2 := roundHalfEven_lt_of_lt_sub_half K _ h1
  have h3 : roundHalfEven (q / (2 : ℚ) ^ e) ≤ K - 1 := by omega
  have h4 : (roundHalfEven (q / (2 : ℚ) ^ e) : ℚ) ≤ (K : ℚ) - 1 := by exact_mod_cast h3
  calc (roundHalfEven (q / (2 : ℚ) ^ e) : ℚ) * (2 : ℚ) ^ e
      ≤ ((K : ℚ) - 1) * (2 : ℚ) ^ e := mul_le_mul_of_nonneg_right h4 h2pos.le
    _ = (K : ℚ) * (2 : ℚ) ^ e - (2 : ℚ) ^ e := by ring

/-- An integer is a multiple of `2^e` when `e ≤ 0`. -/
theorem int_multiple_of_nonpos (n e : ℤ) (he : e ≤ 0) :
    ∃ K : ℤ, (n : ℚ) = (K : ℚ) * (2 : ℚ) ^ e := by
  obtain ⟨d, hd⟩ := Int.eq_ofNat_of_zero_le (show 0 ≤ -e by omega)
  refine ⟨n * 2 ^ d, ?_⟩
  have : e = -(d : ℤ) := by omega
  rw [this, zpow_neg, zpow_natCast]
  push_cast
  field_simp


/-- The binary exponent of a positive rational bounds it from below. -/
theorem zpow_log_le (q : ℚ) (hq : 0 < q) : (2 : ℚ) ^ Int.log 2 q ≤ q := by
  simpa using Int.zpow_log_le_self (by norm_num : 1 < 2) hq

/-- The binary exponent of a rational bounds it from above. -/
theorem lt_zpow_log_succ (q : ℚ) : q < (2 : ℚ) ^ (Int.log 2 q + 1) := by
  simpa using Int.lt_zpow_succ_log_self (by norm_num : 1 < 2) q

/-- A power of two below a positive rational bounds its binary exponent. -/
theorem le_log_of_zpow_le (q : ℚ) (hq : 0 < q) (k : ℤ) (h : (2 : ℚ) ^ k ≤ q) :
    k ≤ Int.log 2 q := by
  rw [← Int.zpow_le_iff_le_log (by norm_num) hq]
  simpa using h

/-- A power of two above a positive rational bounds its binary exponent. -/
theorem log_lt_of_lt_zpow (q : ℚ) (hq : 0 < q) (k : ℤ) (h : q < (2 : ℚ) ^ k) :
    Int.log 2 q < k := by
  rw [← Int.lt_zpow_iff_log_lt (by norm_num) hq]
  simpa using h

/-- In the normal range the unit in the last place sits 52 below the binary exponent. -/
theorem ulpExponent_of_pos (q : ℚ) (hq : 0 < q) (h : -1022 ≤ Int.log 2 q) :
    ulpExponent q = Int.log 2 q - 52 := by
  unfold ulpExponent
  rw [abs_of_pos hq]
  exact max_eq_left (by omega)

/-- Dividing a binary64 value between 1 and 2^53 by 100 and rounding keeps the
integer part of the exact quotient. -/
theorem floor_roundToDouble_div_hundred (v : ℚ) (hv : IsBinary64 v) (h1 : 1 ≤ v)
    (h2 : v < (2 : ℚ) ^ (53 : ℤ)) :
    ∃ r : ℚ, roundToDouble (v / 100) = .fin r ∧ ⌊r⌋ = ⌊v / 100⌋ := by
  have hqpos : 0 < v / 100 := by positivity
  have hlo := zpow_log_le (v / 100) hqpos
  have hLlo : -7 ≤ Int.log 2 (v / 100) := by
    apply le_log_of_zpow_le _ hqpos
    have : (2 : ℚ) ^ (-7 : ℤ) ≤ 1 / 100 := by norm_num
    linarith [div_le_div_of_nonneg_right h1 (by norm_num : (0 : ℚ) ≤ 100)]
  have hLhi : Int.log 2 (v / 100) < 47 := by
    apply log_lt_of_lt_zpow _ hqpos
    have : (2 : ℚ) ^ (53 : ℤ) / 100 < (2 : ℚ) ^ (47 : ℤ) := by norm_num
    linarith [div_lt_div_of_pos_right h2 (by norm_num : (0 : ℚ) < 100)]
  have hulp := ulpExponent_of_pos (v / 100) hqpos (by omega)
  have hepos := two_zpow_pos (Int.log 2 (v / 100) - 52)
  -- the integer part and its successor are multiples of the unit in the last place
  obtain ⟨K, hK⟩ := int_multiple_of_nonpos ⌊v / 100⌋ (Int.log 2 (v / 100) - 52) (by omega)
  obtain ⟨K1, hK1⟩ := int_multiple_of_nonpos (⌊v / 100⌋ + 1) (Int.log 2 (v / 100) - 52)
    (by omega)
  have hfl := Int.floor_le (v / 100)
  have hfl1 := Int.lt_floor_add_one (v / 100)
  have hge := scaled_round_ge (v / 100) (Int.log 2 (v / 100) - 52) K (by rw [← hK]; exact hfl)
  rw [← hK] at hge
  -- the dividend is a multiple of 64 units, and so is 100 times the successor
  have hvabs : (2 : ℚ) ^ (Int.log 2 (v / 100) + 6) ≤ |v| := by
    rw [abs_of_pos (by linarith : (0 : ℚ) < v), zpow_add₀ (by norm_num : (2 : ℚ) ≠ 0)]
    have : (2 : ℚ) ^ (6 : ℤ) = 64 := by norm_num
    rw [this]
    have h0 := two_zpow_pos (Int.log 2 (v / 100))
    have : v = v / 100 * 100 := by ring
    nlinarith
  obtain ⟨N, hN⟩ := hv.exists_multiple _ hvabs
  obtain ⟨M, hM⟩ := int_multiple_of_nonpos (100 * (⌊v / 100⌋ + 1))
    (Int.log 2 (v / 100) + 6 - 52) (by omega)
  have hstep := two_zpow_pos (Int.log 2 (v / 100) + 6 - 52)
  have hNM : N < M := by
    have : (N : ℚ) * (2 : ℚ) ^ (Int.log 2 (v / 100) + 6 - 52)
        < (M : ℚ) * (2 : ℚ) ^ (Int.log 2 (v / 100) + 6 - 52) := by
      rw [← hN, ← hM]
      push_cast
      linarith
    have := lt_of_mul_lt_mul_right this hstep.le
    exact_mod_cast this
  have hgap : v + (2 : ℚ) ^ (Int.log 2 (v / 100) + 6 - 52)
      ≤ 100 * ((⌊v / 100⌋ : ℚ) + 1) := by
    have h3 : (N : ℚ) + 1 ≤ (M : ℚ) := by exact_mod_cast hNM
    have h4 := mul_le_mul_of_nonneg_right h3 hstep.le
    have h5 : ((100 * (⌊v / 100⌋ + 1) : ℤ) : ℚ) = 100 * ((⌊v / 100⌋ : ℚ) + 1) := by push_cast; ring
    have h6 : v + (2 : ℚ) ^ (Int.log 2 (v / 100) + 6 - 52)
        = ((N : ℚ) + 1) * (2 : ℚ) ^ (Int.log 2 (v / 100) + 6 - 52) := by
      nth_rewrite 1 [hN]
      ring
    rw [h6, ← h5, hM]
    exact h4
  have hsplit : (2 : ℚ) ^ (Int.log 2 (v / 100) + 6 - 52)
      = 64 * (2 : ℚ) ^ (Int.log 2 (v / 100) - 52) := by
    have : Int.log 2 (v / 100) + 6 - 52 = 6 + (Int.log 2 (v / 100) - 52) := by ring
    rw [this, zpow_add₀ (by norm_num : (2 : ℚ) ≠ 0)]
    norm_num
  have hlt := scaled_round_lt (v / 100) (Int.log 2 (v / 100) - 52) K1 (by
    rw [← hK1]
    push_cast
    rw [hsplit] at hgap
    linarith)
  rw [← hK1] at hlt
  push_cast at hlt
  have hbig : (2 : ℚ) ^ (47 : ℤ) < (2 : ℚ) ^ (1024 : ℤ) :=
    zpow_lt_zpow_right₀ (by norm_num) (by norm_num)
  have hq47 : v / 100 < (2 : ℚ) ^ (47 : ℤ) := by
    have : (2 : ℚ) ^ (53 : ℤ) / 100 < (2 : ℚ) ^ (47 : ℤ) := by norm_num
    linarith [div_lt_div_of_pos_right h2 (by norm_num : (0 : ℚ) < 100)]
  have hfl0 : (0 : ℚ) ≤ (⌊v / 100⌋ : ℚ) := by
    have : 0 ≤ ⌊v / 100⌋ := Int.floor_nonneg.mpr hqpos.le
    exact_mod_cast this
  have h47 : (1 : ℚ) ≤ (2 : ℚ) ^ (47 : ℤ) := by norm_num
  refine ⟨_, roundToDouble_eq_fin (v / 100) ?_ ?_, ?_⟩
  · rw [hulp]; linarith
  · rw [hulp]; linarith [two_zpow_pos 1024]
  · rw [hulp, Int.floor_eq_iff]
    constructor
    · exact hge
    · linarith


/-- Rounding a value of at least 10 gives at least 10. -/
theorem ten_le_roundToDouble (q : ℚ) (h : 10 ≤ q) :
    roundToDouble q = .posInf ∨ ∃ r : ℚ, roundToDouble q = .fin r ∧ 10 ≤ r := by
  have hqpos : 0 < q := by linarith
  have hR : (10 : ℚ)
      ≤ (roundHalfEven (q / (2 : ℚ) ^ ulpExponent q) : ℚ) * (2 : ℚ) ^ ulpExponent q := by
    by_cases he : ulpExponent q ≤ 0
    · obtain ⟨K, hK⟩ := int_multiple_of_nonpos 10 (ulpExponent q) he
      have := scaled_round_ge q (ulpExponent q) K (by rw [← hK]; exact_mod_cast h)
      rw [← hK] at this
      exact_mod_cast this
    · have hlog : 3 ≤ Int.log 2 q :=
        le_log_of_zpow_le q hqpos 3 (by norm_num; linarith)
      have hulp := ulpExponent_of_pos q hqpos (by omega)
      rw [hulp] at he ⊢
      have hlo := zpow_log_le q hqpos
      have hsplit : (2 : ℚ) ^ Int.log 2 q
          = ((2 ^ 52 : ℤ) : ℚ) * (2 : ℚ) ^ (Int.log 2 q - 52) := by
        have : Int.log 2 q = 52 + (Int.log 2 q - 52) := by ring
        nth_rewrite 1 [this]
        rw [zpow_add₀ (by norm_num : (2 : ℚ) ≠ 0)]
        norm_num
      have := scaled_round_ge q (Int.log 2 q - 52) (2 ^ 52) (by rw [← hsplit]; exact hlo)
      rw [← hsplit] at this
      have h8 : (2 : ℚ) ^ (3 : ℤ) ≤ (2 : ℚ) ^ Int.log 2 q :=
        zpow_le_zpow_right₀ (by norm_num) hlog
      have h53 : (2 : ℚ) ^ (52 : ℤ) ≤ (2 : ℚ) ^ Int.log 2 q :=
        zpow_le_zpow_right₀ (by norm_num) (by omega)
      have : (10 : ℚ) ≤ (2 : ℚ) ^ (52 : ℤ) := by norm_num
      linarith
  unfold roundToDouble
  simp only []
  by_cases hover : (2 : ℚ) ^ (1024 : ℤ)
      ≤ (roundHalfEven (q / (2 : ℚ) ^ ulpExponent q) : ℚ) * (2 : ℚ) ^ ulpExponent q
  · left
    rw [if_pos hover]
  · right
    rw [if_neg hover, if_neg (by linarith [two_zpow_pos 1024])]
    exact ⟨_, rfl, hR⟩

/-- In the band below the threshold the top-up is computed without rounding error. -/
theorem isBinary64_top_up (v : ℚ) (hv : IsBinary64 v) (h1 : 97 < v) (h2 : v < 100) :
    IsBinary64 (101 - v) := by
  obtain ⟨N, hN⟩ := hv.exists_multiple 6 (by
    rw [abs_of_pos (by linarith)]
    norm_num
    linarith)
  have hpow : (2 : ℚ) ^ ((6 : ℤ) - 52) = 1 / 70368744177664 := by norm_num
  rw [hpow] at hN
  refine ⟨101 * 70368744177664 - N, -46, ?_, by norm_num, by norm_num, ?_⟩
  · have hNq : (N : ℚ) = v * 70368744177664 := by rw [hN]; ring
    have hlo : (97 * 70368744177664 : ℚ) < (N : ℚ) := by rw [hNq]; linarith
    have hhi : (N : ℚ) < (100 * 70368744177664 : ℚ) := by rw [hNq]; linarith
    have hlo' : (97 * 70368744177664 : ℤ) < N := by exact_mod_cast hlo
    have hhi' : N < (100 * 70368744177664 : ℤ) := by exact_mod_cast hhi
    rw [abs_lt]
    constructor <;> norm_num <;> omega
  · have : (2 : ℚ) ^ (-46 : ℤ) = 1 / 70368744177664 := by norm_num
    rw [this, hN]
    push_cast
    ring

/-- A binary64 value below 1 is at least `2^-53` below it. -/
theorem one_sub_ge_of_lt_one (r : ℚ) (hr : IsBinary64 r) (h0 : 0 ≤ r) (h1 : r < 1) :
    r ≤ 1 - 1 / 9007199254740992 := by
  by_cases hhalf : r < 1 / 2
  · linarith
  · obtain ⟨N, hN⟩ := hr.exists_multiple (-1) (by
      rw [abs_of_nonneg h0]
      norm_num
      linarith)
    have hpow : (2 : ℚ) ^ ((-1 : ℤ) - 52) = 1 / 9007199254740992 := by norm_num
    rw [hpow] at hN
    have hNq : (N : ℚ) = r * 9007199254740992 := by rw [hN]; ring
    have hhi : (N : ℚ) < (9007199254740992 : ℚ) := by rw [hNq]; linarith
    have hhi' : N < 9007199254740992 := by exact_mod_cast hhi
    have h3 : N ≤ 9007199254740991 := by omega
    have h4 : (N : ℚ) ≤ 9007199254740991 := by exact_mod_cast h3
    rw [hN]
    linarith

/-- The product of a random fraction with 100 rounds to a value in `[0, 100)`. -/
theorem roundToDouble_mul_hundred (r : ℚ) (hr : IsBinary64 r) (h0 : 0 ≤ r) (h1 : r < 1) :
    ∃ y : ℚ, roundToDouble (r * 100) = .fin y ∧ 0 ≤ y ∧ y < 100 := by
  have hgap := one_sub_ge_of_lt_one r hr h0 h1
  have hepos := two_zpow_pos (ulpExponent (r * 100))
  have hge := scaled_round_ge (r * 100) (ulpExponent (r * 100)) 0 (by simp; positivity)
  simp only [Int.cast_zero, zero_mul] at hge
  have hule : ulpExponent (r * 100) ≤ -46 := by
    unfold ulpExponent
    apply max_le _ (by norm_num)
    by_cases hz : r = 0
    · subst hz; simp
    · have hpos : 0 < r * 100 := by positivity
      rw [abs_of_pos hpos]
      have := log_lt_of_lt_zpow (r * 100) hpos 7 (by norm_num; linarith)
      omega
  obtain ⟨K, hK⟩ := int_multiple_of_nonpos 100 (ulpExponent (r * 100)) (by omega)
  have hsmall : (2 : ℚ) ^ ulpExponent (r * 100) ≤ (2 : ℚ) ^ (-46 : ℤ) :=
    zpow_le_zpow_right₀ (by norm_num) hule
  have h46 : (2 : ℚ) ^ (-46 : ℤ) = 1 / 70368744177664 := by norm_num
  rw [h46] at hsmall
  have hlt := scaled_round_lt (r * 100) (ulpExponent (r * 100)) K (by
    rw [← hK]
    push_cast
    linarith)
  rw [← hK] at hlt
  push_cast at hlt
  refine ⟨_, roundToDouble_eq_fin (r * 100) ?_ ?_, hge, ?_⟩
  · have : (100 : ℚ) < (2 : ℚ) ^ (1024 : ℤ) :=
      lt_of_lt_of_le (by norm_num : (100 : ℚ) < (2 : ℚ) ^ (7 : ℤ))
        (zpow_le_zpow_right₀ (by norm_num) (by norm_num))
    linarith
  · linarith [two_zpow_pos 1024]
  · linarith

/-- Integers of magnitude below 2^53 are not changed by rounding. -/
theorem roundToDouble_intCast (n : ℤ) (h : |n| < 2 ^ 53) : roundToDouble (n : ℚ) = .fin n :=
  roundToDouble_of_isBinary64 _ (isBinary64_intCast n h)

/-- Naturals below 2^53 are binary64 values. -/
theorem isBinary64_natCast (n : ℕ) (h : n < 2 ^ 53) : IsBinary64 (n : ℚ) := by
  have := isBinary64_intCast (n : ℤ) (by rw [abs_of_nonneg (by positivity)]; exact_mod_cast h)
  simpa using this

/-- Halving a binary64 value of magnitude at least 1 is exact. -/
theorem IsBinary64.half {q : ℚ} (hq : IsBinary64 q) (h1 : 1 ≤ |q|) : IsBinary64 (q / 2) := by
  obtain ⟨m, e, hm, he1, he2, rfl⟩ := hq
  have h2pos := two_zpow_pos e
  have habs : |(m : ℚ) * (2 : ℚ) ^ e| = (|m| : ℤ) * (2 : ℚ) ^ e := by
    rw [abs_mul, abs_of_pos h2pos]; push_cast; rfl
  have hlt : |(m : ℚ) * (2 : ℚ) ^ e| < (2 : ℚ) ^ (53 + e) := by
    rw [habs, zpow_add₀ (by norm_num : (2 : ℚ) ≠ 0)]
    apply mul_lt_mul_of_pos_right _ h2pos
    have : ((|m| : ℤ) : ℚ) < ((2 ^ 53 : ℤ) : ℚ) := by exact_mod_cast hm
    calc ((|m| : ℤ) : ℚ) < ((2 ^ 53 : ℤ) : ℚ) := this
      _ = (2 : ℚ) ^ (53 : ℤ) := by norm_num
  have hke : (0 : ℤ) < 53 + e := by
    have : (2 : ℚ) ^ (0 : ℤ) < (2 : ℚ) ^ (53 + e) := by
      rw [zpow_zero]; exact lt_of_le_of_lt h1 hlt
    exact (zpow_lt_zpow_iff_right₀ (by norm_num : (1 : ℚ) < 2)).mp this
  refine ⟨m, e - 1, hm, by omega, by omega, ?_⟩
  rw [zpow_sub₀ (by norm_num : (2 : ℚ) ≠ 0)]
  simp
  ring

/-- The double written `1e18` is exactly 10^18. -/
theorem roundToDouble_1e18 : roundToDouble ((10 : ℚ) ^ 18) = .fin ((10 : ℚ) ^ 18) :=
  roundToDouble_of_isBinary64 _
    ⟨3814697265625, 18, by norm_num, by norm_num, by norm_num, by norm_num⟩

/-- Whatever rounding returns is a number a program can hold. -/
theorem roundToDouble_isValue (q : ℚ) : (roundToDouble q).IsValue := by
  unfold roundToDouble
  simp only []
  split_ifs with h1 h2
  · trivial
  · trivial
  · have h1' := not_le.mp h1
    have h2' := not_le.mp h2
    have hepos := two_zpow_pos (ulpExponent q)
    have he : -1074 ≤ ulpExponent q := le_max_right _ _
    show IsBinary64 _
    by_cases hm0 : roundHalfEven (q / (2 : ℚ) ^ ulpExponent q) = 0
    · rw [hm0]
      exact ⟨0, 0, by norm_num, by norm_num, by norm_num, by simp⟩
    · -- the scaled value lies within ±2^53
      have hq0 : q ≠ 0 := by
        rintro rfl
        apply hm0
        simp [roundHalfEven]
      have habspos : 0 < |q| := abs_pos.mpr hq0
      have hlo := zpow_log_le |q| habspos
      have hhi := lt_zpow_log_succ |q|
      have hscale : |q| / (2 : ℚ) ^ ulpExponent q ≤ (2 : ℚ) ^ (53 : ℤ) := by
        rw [div_le_iff₀ hepos, ← zpow_add₀ (by norm_num : (2 : ℚ) ≠ 0)]
        have hexp : Int.log 2 |q| + 1 ≤ 53 + ulpExponent q := by
          have : Int.log 2 |q| - 52 ≤ ulpExponent q := le_max_left _ _
          omega
        exact le_trans hhi.le (zpow_le_zpow_right₀ (by norm_num) hexp)
      have h53 : (2 : ℚ) ^ (53 : ℤ) = ((2 ^ 53 : ℤ) : ℚ) := by norm_num
      have hupper : roundHalfEven (q / (2 : ℚ) ^ ulpExponent q) ≤ 2 ^ 53 := by
        apply roundHalfEven_le_of_le_intCast
        rw [← h53]
        refine le_trans ?_ hscale
        exact div_le_div_of_nonneg_right (le_abs_self q) hepos.le
      have hlower : -(2 ^ 53) ≤ roundHalfEven (q / (2 : ℚ) ^ ulpExponent q) := by
        apply le_roundHalfEven_of_intCast_le
        have hneg : -(|q| / (2 : ℚ) ^ ulpExponent q) ≤ q / (2 : ℚ) ^ ulpExponent q := by
          rw [← neg_div]
          exact div_le_div_of_nonneg_right (neg_abs_le q) hepos.le
        have hcast : ((-(2 ^ 53) : ℤ) : ℚ) = -(2 : ℚ) ^ (53 : ℤ) := by norm_num
        rw [hcast]
        linarith
      -- the exponent is in range, else the magnitude would overflow
      have hexp971 : ulpExponent q ≤ 971 ∨
          (2 : ℚ) ^ (1024 : ℤ)
            ≤ |(roundHalfEven (q / (2 : ℚ) ^ ulpExponent q) : ℚ)| * (2 : ℚ) ^ ulpExponent q := by
        by_cases hle : ulpExponent q ≤ 971
        · exact Or.inl hle
        · right
          have hulp : ulpExponent q = Int.log 2 |q| - 52 := by
            unfold ulpExponent at hle ⊢
            rcases max_cases (Int.log 2 |q| - 52) (-1074) with ⟨h, _⟩ | ⟨h, _⟩
            · exact h
            · rw [h] at hle; omega
          have hbig : (2 : ℚ) ^ (52 : ℤ) ≤ |q| / (2 : ℚ) ^ ulpExponent q := by
            rw [le_div_iff₀ hepos, ← zpow_add₀ (by norm_num : (2 : ℚ) ≠ 0), hulp]
            have : (52 : ℤ) + (Int.log 2 |q| - 52) = Int.log 2 |q| := by ring
            rw [this]
            exact hlo
          have h52 : (2 : ℚ) ^ (52 : ℤ) = ((2 ^ 52 : ℤ) : ℚ) := by norm_num
          have hmabs : (2 : ℚ) ^ (52 : ℤ)
              ≤ |(roundHalfEven (q / (2 : ℚ) ^ ulpExponent q) : ℚ)| := by
            rcases le_or_lt 0 q with hq | hq
            · rw [abs_of_nonneg hq] at hbig
              have := le_roundHalfEven_of_intCast_le (2 ^ 52) (q / (2 : ℚ) ^ ulpExponent q)
                (by rw [← h52]; exact hbig)
              have hc : ((2 ^ 52 : ℤ) : ℚ)
                  ≤ (roundHalfEven (q / (2 : ℚ) ^ ulpExponent q) : ℚ) := by exact_mod_cast this
              rw [h52]
              exact le_trans hc (le_abs_self _)
            · rw [abs_of_neg hq, neg_div] at hbig
              have := roundHalfEven_le_of_le_intCast (-(2 ^ 52)) (q / (2 : ℚ) ^ ulpExponent q)
                (by push_cast; rw [h52] at hbig; push_cast at hbig; linarith)
              have hc : (roundHalfEven (q / (2 : ℚ) ^ ulpExponent q) : ℚ)
                  ≤ ((-(2 ^ 52) : ℤ) : ℚ) := by exact_mod_cast this
              rw [h52]
              push_cast at hc ⊢
              exact le_trans (by linarith) (neg_le_abs _)
          have hstep : (2 : ℚ) ^ (972 : ℤ) ≤ (2 : ℚ) ^ ulpExponent q :=
            zpow_le_zpow_right₀ (by norm_num) (by omega)
          have hsplit : (2 : ℚ) ^ (1024 : ℤ) = (2 : ℚ) ^ (52 : ℤ) * (2 : ℚ) ^ (972 : ℤ) := by
            rw [← zpow_add₀ (by norm_num : (2 : ℚ) ≠ 0)]; norm_num
          rw [hsplit]
          exact mul_le_mul hmabs hstep (two_zpow_pos 972).le (abs_nonneg _)
      have hfinite : |(roundHalfEven (q / (2 : ℚ) ^ ulpExponent q) : ℚ)|
          * (2 : ℚ) ^ ulpExponent q < (2 : ℚ) ^ (1024 : ℤ) := by
        have habs : |(roundHalfEven (q / (2 : ℚ) ^ ulpExponent q) : ℚ) * (2 : ℚ) ^ ulpExponent q|
            < (2 : ℚ) ^ (1024 : ℤ) := abs_lt.mpr ⟨h2', h1'⟩
        rwa [abs_mul, abs_of_pos hepos] at habs
      have he971 : ulpExponent q ≤ 971 := by
        rcases hexp971 with h | h
        · exact h
        · exact absurd hfinite (not_lt.mpr h)
      by_cases hmlt : |roundHalfEven (q / (2 : ℚ) ^ ulpExponent q)| < 2 ^ 53
      · exact ⟨_, _, hmlt, he, he971, rfl⟩
      · -- the mantissa is ±2^53: renormalise
        have habs53 : |roundHalfEven (q / (2 : ℚ) ^ ulpExponent q)| = 2 ^ 53 := by
          have : |roundHalfEven (q / (2 : ℚ) ^ ulpExponent q)| ≤ 2 ^ 53 :=
            abs_le.mpr ⟨hlower, hupper⟩
          omega
        have habsq : |(roundHalfEven (q / (2 : ℚ) ^ ulpExponent q) : ℚ)| = (2 : ℚ) ^ (53 : ℤ) := by
          have : ((|roundHalfEven (q / (2 : ℚ) ^ ulpExponent q)| : ℤ) : ℚ) = ((2 ^ 53 : ℤ) : ℚ) := by
            rw [habs53]
          rw [h53]
          push_cast at this ⊢
          exact this
        have he970 : ulpExponent q < 971 := by
          rw [habsq, ← zpow_add₀ (by norm_num : (2 : ℚ) ≠ 0)] at hfinite
          have := (zpow_lt_zpow_iff_right₀ (by norm_num : (1 : ℚ) < 2)).mp hfinite
          omega
        have hre : (2 : ℚ) ^ ulpExponent q = (2 : ℚ) ^ (ulpExponent q + 1) / 2 := by
          rw [zpow_add₀ (by norm_num : (2 : ℚ) ≠ 0)]; simp
        rcases abs_eq (by norm_num : (0 : ℤ) ≤ 2 ^ 53) |>.mp habs53 with hpos | hneg
        · refine ⟨2 ^ 52, ulpExponent q + 1, by norm_num, by omega, by omega, ?_⟩
          rw [hpos, hre]
          push_cast
          ring
        · refine ⟨-(2 ^ 52), ulpExponent q + 1, by norm_num, by omega, by omega, ?_⟩
          rw [hneg, hre]
          push_cast
          ring

/-- Every quotient by a constant is a number a program can hold. -/
theorem divBy_isValue (a : JSNumber) (d : ℚ) : (a.divBy d).IsValue := by
  cases a with
  | fin q => exact roundToDouble_isValue _
  | nan => trivial
  | posInf => trivial
  | negInf => trivial

/-- Every product is a number a program can hold. -/
theorem mul_isValue (a b : JSNumber) : (a.mul b).IsValue := by
  cases a <;> cases b <;> simp only [JSNumber.mul] <;>
    first
    | trivial
    | exact roundToDouble_isValue _
    | (split_ifs <;> first | trivial | (unfold signedInf; split_ifs <;> trivial))

/-- Rounding moves a value down by at most one half. -/
theorem sub_half_le_roundHalfEven (r : ℚ) : r - 1 / 2 ≤ (roundHalfEven r : ℚ) := by
  unfold roundHalfEven
  have h1 := Int.floor_le r
  have h2 := Int.lt_floor_add_one r
  simp only []
  split_ifs with a b c
  · linarith
  · push_cast; linarith
  · have : r - ⌊r⌋ = 1 / 2 := le_antisymm (not_lt.mp b) (not_lt.mp a)
    linarith
  · push_cast; linarith

/-- Rounding at scale `2^e` never exceeds a multiple of `2^e` above the exact value. -/
theorem scaled_round_le (q : ℚ) (e K : ℤ) (h : q ≤ (K : ℚ) * (2 : ℚ) ^ e) :
    (roundHalfEven (q / (2 : ℚ) ^ e) : ℚ) * (2 : ℚ) ^ e ≤ (K : ℚ) * (2 : ℚ) ^ e := by
  have h2pos := two_zpow_pos e
  have h1 : q / (2 : ℚ) ^ e ≤ (K : ℚ) := by
    rw [div_le_iff₀ h2pos]; exact h
  have h2 := roundHalfEven_le_of_le_intCast K _ h1
  have h3 : (roundHalfEven (q / (2 : ℚ) ^ e) : ℚ) ≤ (K : ℚ) := by exact_mod_cast h2
  exact mul_le_mul_of_nonneg_right h3 h2pos.le

/-- Rounding at scale `2^e` reaches the next multiple of `2^e` once the exact value is
more than half a step above a multiple. -/
theorem scaled_round_gt (q : ℚ) (e K : ℤ)
    (h : (K : ℚ) * (2 : ℚ) ^ e + (2 : ℚ) ^ e / 2 < q) :
    (K : ℚ) * (2 : ℚ) ^ e + (2 : ℚ) ^ e ≤ (roundHalfEven (q / (2 : ℚ) ^ e) : ℚ) * (2 : ℚ) ^ e := by
  have h2pos := two_zpow_pos e
  have h1 : (K : ℚ) + 1 / 2 < q / (2 : ℚ) ^ e := by
    rw [lt_div_iff₀ h2pos]
    calc ((K : ℚ) + 1 / 2) * (2 : ℚ) ^ e = (K : ℚ) * (2 : ℚ) ^ e + (2 : ℚ) ^ e / 2 := by ring
      _ < q := h
  have h2 := sub_half_le_roundHalfEven (q / (2 : ℚ) ^ e)
  have h3 : (K : ℚ) < (roundHalfEven (q / (2 : ℚ) ^ e) : ℚ) := by linarith
  have h4 : K < roundHalfEven (q / (2 : ℚ) ^ e) := by exact_mod_cast h3
  have h5 : K + 1 ≤ roundHalfEven (q / (2 : ℚ) ^ e) := by omega
  have h6 : (K : ℚ) + 1 ≤ (roundHalfEven (q / (2 : ℚ) ^ e) : ℚ) := by exact_mod_cast h5
  calc (K : ℚ) * (2 : ℚ) ^ e + (2 : ℚ) ^ e = ((K : ℚ) + 1) * (2 : ℚ) ^ e := by ring
    _ ≤ (roundHalfEven (q / (2 : ℚ) ^ e) : ℚ) * (2 : ℚ) ^ e :=
        mul_le_mul_of_nonneg_right h6 h2pos.le

/-- A multiple of `2^a` is a multiple of every smaller power of two. -/
theorem multiple_of_smaller (K a e : ℤ) (h : e ≤ a) :
    ∃ K1 : ℤ, (K : ℚ) * (2 : ℚ) ^ a = (K1 : ℚ) * (2 : ℚ) ^ e := by
  obtain ⟨d, hd⟩ := Int.eq_ofNat_of_zero_le (show 0 ≤ a - e by omega)
  refine ⟨K * 2 ^ d, ?_⟩
  have : a = (d : ℤ) + e := by omega
  rw [this, zpow_add₀ (by norm_num : (2 : ℚ) ≠ 0), zpow_natCast]
  push_cast
  ring

/-- A positive natural below `2^64` that lies more than 1024 below a multiple `c` of
2048 rounds to a finite value below `c`. -/
theorem roundToDouble_natCast_lt (n : ℕ) (K : ℤ) (hn : 0 < n) (h64 : n < 2 ^ 64)
    (hc : (n : ℚ) + 1024 < (K : ℚ) * 2048) :
    ∃ r : ℚ, roundToDouble (n : ℚ) = .fin r ∧ 0 ≤ r ∧ r < (K : ℚ) * 2048 := by
  have hq1 : (1 : ℚ) ≤ (n : ℚ) := by exact_mod_cast hn
  have hqpos : (0 : ℚ) < (n : ℚ) := by linarith
  have hL0 : 0 ≤ Int.log 2 (n : ℚ) :=
    le_log_of_zpow_le _ hqpos 0 (by simpa using hq1)
  have hL64 : Int.log 2 (n : ℚ) < 64 := by
    apply log_lt_of_lt_zpow _ hqpos
    have : ((n : ℕ) : ℚ) < ((2 ^ 64 : ℕ) : ℚ) := by exact_mod_cast h64
    calc (n : ℚ) < ((2 ^ 64 : ℕ) : ℚ) := this
      _ = (2 : ℚ) ^ (64 : ℤ) := by norm_num
  have hulp := ulpExponent_of_pos (n : ℚ) hqpos (by omega)
  have hepos := two_zpow_pos (Int.log 2 (n : ℚ) - 52)
  have h2048 : (2048 : ℚ) = (2 : ℚ) ^ (11 : ℤ) := by norm_num
  obtain ⟨K1, hK1⟩ := multiple_of_smaller K 11 (Int.log 2 (n : ℚ) - 52) (by omega)
  rw [← h2048] at hK1
  have hstep : (2 : ℚ) ^ (Int.log 2 (n : ℚ) - 52) ≤ 2048 := by
    rw [h2048]
    exact zpow_le_zpow_right₀ (by norm_num) (by omega)
  have hlt := scaled_round_lt (n : ℚ) (Int.log 2 (n : ℚ) - 52) K1 (by
    rw [← hK1]; linarith)
  rw [← hK1] at hlt
  have hge := scaled_round_ge (n : ℚ) (Int.log 2 (n : ℚ) - 52) 0 (by simp)
  simp only [Int.cast_zero, zero_mul] at hge
  have hsplit : (2 : ℚ) ^ (Int.log 2 (n : ℚ) + 1)
      = ((2 ^ 53 : ℤ) : ℚ) * (2 : ℚ) ^ (Int.log 2 (n : ℚ) - 52) := by
    have : Int.log 2 (n : ℚ) + 1 = 53 + (Int.log 2 (n : ℚ) - 52) := by ring
    rw [this, zpow_add₀ (by norm_num : (2 : ℚ) ≠ 0)]
    norm_num
  have hle := scaled_round_le (n : ℚ) (Int.log 2 (n : ℚ) - 52) (2 ^ 53) (by
    rw [← hsplit]; exact (lt_zpow_log_succ (n : ℚ)).le)
  rw [← hsplit] at hle
  have hbig : (2 : ℚ) ^ (Int.log 2 (n : ℚ) + 1) < (2 : ℚ) ^ (1024 : ℤ) :=
    zpow_lt_zpow_right₀ (by norm_num) (by omega)
  refine ⟨_, roundToDouble_eq_fin (n : ℚ) ?_ ?_, ?_, ?_⟩
  · rw [hulp]; linarith
  · rw [hulp]; linarith [two_zpow_pos 1024]
  · rw [hulp]; exact hge
  · rw [hulp]; linarith


/-- A natural of at least `2^66` that lies more than 8192 above a multiple `c` of
16384 below `2^67` rounds to a value above `c`. -/
theorem roundToDouble_natCast_gt (n : ℕ) (K : ℤ) (h66 : 2 ^ 66 ≤ n)
    (hK : (K : ℚ) * 16384 < (2 : ℚ) ^ (67 : ℤ))
    (hc : (K : ℚ) * 16384 + 8192 < (n : ℚ)) :
    roundToDouble (n : ℚ) = .posInf
      ∨ ∃ r : ℚ, roundToDouble (n : ℚ) = .fin r ∧ (K : ℚ) * 16384 < r := by
  have hq66 : (2 : ℚ) ^ (66 : ℤ) ≤ (n : ℚ) := by
    have : ((2 ^ 66 : ℕ) : ℚ) ≤ ((n : ℕ) : ℚ) := by exact_mod_cast h66
    calc (2 : ℚ) ^ (66 : ℤ) = ((2 ^ 66 : ℕ) : ℚ) := by norm_num
      _ ≤ (n : ℚ) := this
  have hqpos : (0 : ℚ) < (n : ℚ) := lt_of_lt_of_le (two_zpow_pos 66) hq66
  have hL66 : 66 ≤ Int.log 2 (n : ℚ) := le_log_of_zpow_le _ hqpos 66 hq66
  have hulp := ulpExponent_of_pos (n : ℚ) hqpos (by omega)
  have hepos := two_zpow_pos (Int.log 2 (n : ℚ) - 52)
  have hR : (K : ℚ) * 16384
      < (roundHalfEven ((n : ℚ) / (2 : ℚ) ^ ulpExponent (n : ℚ)) : ℚ)
          * (2 : ℚ) ^ ulpExponent (n : ℚ) := by
    rw [hulp]
    by_cases hL : Int.log 2 (n : ℚ) = 66
    · have he : (2 : ℚ) ^ (Int.log 2 (n : ℚ) - 52) = 16384 := by
        rw [hL]; norm_num
      have := scaled_round_gt (n : ℚ) (Int.log 2 (n : ℚ) - 52) K (by rw [he]; linarith)
      rw [he] at this ⊢
      linarith
    · have hsplit : (2 : ℚ) ^ Int.log 2 (n : ℚ)
          = ((2 ^ 52 : ℤ) : ℚ) * (2 : ℚ) ^ (Int.log 2 (n : ℚ) - 52) := by
        have : Int.log 2 (n : ℚ) = 52 + (Int.log 2 (n : ℚ) - 52) := by ring
        nth_rewrite 1 [this]
        rw [zpow_add₀ (by norm_num : (2 : ℚ) ≠ 0)]
        norm_num
      have := scaled_round_ge (n : ℚ) (Int.log 2 (n : ℚ) - 52) (2 ^ 52) (by
        rw [← hsplit]; exact zpow_log_le _ hqpos)
      rw [← hsplit] at this
      have h67 : (2 : ℚ) ^ (67 : ℤ) ≤ (2 : ℚ) ^ Int.log 2 (n : ℚ) :=
        zpow_le_zpow_right₀ (by norm_num) (by omega)
      linarith
  unfold roundToDouble
  simp only []
  by_cases hover : (2 : ℚ) ^ (1024 : ℤ)
      ≤ (roundHalfEven ((n : ℚ) / (2 : ℚ) ^ ulpExponent (n : ℚ)) : ℚ)
          * (2 : ℚ) ^ ulpExponent (n : ℚ)
  · left
    rw [if_pos hover]
  · right
    have hRpos : (0 : ℚ) ≤ (roundHalfEven ((n : ℚ) / (2 : ℚ) ^ ulpExponent (n : ℚ)) : ℚ)
        * (2 : ℚ) ^ ulpExponent (n : ℚ) := by
      have := scaled_round_ge (n : ℚ) (ulpExponent (n : ℚ)) 0 (by simp)
      simpa using this
    rw [if_neg hover, if_neg (by linarith [two_zpow_pos 1024])]
    exact ⟨_, rfl, hR⟩

/-- A binary64 value is below `2^1024` in magnitude. -/
theorem IsBinary64.abs_lt {c : ℚ} (hc : IsBinary64 c) : |c| < (2 : ℚ) ^ (1024 : ℤ) := by
  obtain ⟨m, e, hm, -, he, rfl⟩ := hc
  have h2pos := two_zpow_pos e
  rw [abs_mul, abs_of_pos h2pos]
  have hm' : |(m : ℚ)| < (2 : ℚ) ^ (53 : ℤ) := by
    have : ((|m| : ℤ) : ℚ) < ((2 ^ 53 : ℤ) : ℚ) := by exact_mod_cast hm
    rw [Int.cast_abs] at this
    calc |(m : ℚ)| < ((2 ^ 53 : ℤ) : ℚ) := this
      _ = (2 : ℚ) ^ (53 : ℤ) := by norm_num
  have he' : (2 : ℚ) ^ e ≤ (2 : ℚ) ^ (971 : ℤ) := zpow_le_zpow_right₀ (by norm_num) he
  calc |(m : ℚ)| * (2 : ℚ) ^ e < (2 : ℚ) ^ (53 : ℤ) * (2 : ℚ) ^ e :=
        mul_lt_mul_of_pos_right hm' h2pos
    _ ≤ (2 : ℚ) ^ (53 : ℤ) * (2 : ℚ) ^ (971 : ℤ) :=
        mul_le_mul_of_nonneg_left he' (two_zpow_pos 53).le
    _ = (2 : ℚ) ^ (1024 : ℤ) := by
        rw [← zpow_add₀ (by norm_num : (2 : ℚ) ≠ 0)]
        norm_num

/-- A positive binary64 value is a multiple of the unit in the last place of any
positive value that is not above it. -/
theorem IsBinary64.multiple_of_ulp {c : ℚ} (hc : IsBinary64 c) (q : ℚ) (hq : 0 < q)
    (h : q ≤ c) : ∃ N : ℤ, c = (N : ℚ) * (2 : ℚ) ^ ulpExponent q := by
  have hcpos : 0 < c := lt_of_lt_of_le hq h
  by_cases hlog : -1022 ≤ Int.log 2 q
  · rw [ulpExponent_of_pos q hq hlog]
    exact hc.exists_multiple (Int.log 2 q) (by
      rw [abs_of_pos hcpos]
      exact le_trans (zpow_log_le q hq) h)
  · have hulp : ulpExponent q = -1074 := by
      unfold ulpExponent
      rw [abs_of_pos hq]
      exact max_eq_right (by omega)
    rw [hulp]
    obtain ⟨m, e, -, he, -, rfl⟩ := hc
    exact multiple_of_smaller m e (-1074) he

/-- Rounding does not go above a binary64 value that is not below the exact value. -/
theorem roundToDouble_le_of_le (q c : ℚ) (hc : IsBinary64 c) (hq : 0 < q) (h : q ≤ c) :
    ∃ r : ℚ, roundToDouble q = .fin r ∧ 0 ≤ r ∧ r ≤ c := by
  obtain ⟨N, hN⟩ := hc.multiple_of_ulp q hq h
  have hle := scaled_round_le q (ulpExponent q) N (by rw [← hN]; exact h)
  rw [← hN] at hle
  have hge := scaled_round_ge q (ulpExponent q) 0 (by simpa using hq.le)
  simp only [Int.cast_zero, zero_mul] at hge
  have hclt := hc.abs_lt
  rw [abs_of_pos (lt_of_lt_of_le hq h)] at hclt
  exact ⟨_, roundToDouble_eq_fin q (by linarith) (by linarith [two_zpow_pos 1024]), hge, hle⟩

/-- Rounding does not go below a positive binary64 value that is not above the exact
value. -/
theorem le_roundToDouble_of_le (q c : ℚ) (hc : IsBinary64 c) (hc0 : 0 < c) (h : c ≤ q) :
    roundToDouble q = .posInf ∨ ∃ r : ℚ, roundToDouble q = .fin r ∧ c ≤ r := by
  have hq : 0 < q := lt_of_lt_of_le hc0 h
  have hR : c ≤ (roundHalfEven (q / (2 : ℚ) ^ ulpExponent q) : ℚ) * (2 : ℚ) ^ ulpExponent q := by
    obtain ⟨m, e, hm, he, -, hce⟩ := hc
    by_cases hcase : ulpExponent q ≤ e
    · obtain ⟨K, hK⟩ := multiple_of_smaller m e (ulpExponent q) hcase
      have := scaled_round_ge q (ulpExponent q) K (by rw [← hK, ← hce]; exact h)
      rw [← hK, ← hce] at this
      exact this
    · have hlog : -1022 ≤ Int.log 2 q := by
        by_contra hcon
        have hulp : ulpExponent q = -1074 := by
          unfold ulpExponent
          rw [abs_of_pos hq]
          exact max_eq_right (by omega)
        omega
      have hulp := ulpExponent_of_pos q hq hlog
      rw [hulp] at hcase ⊢
      have hsplit : (2 : ℚ) ^ Int.log 2 q
          = ((2 ^ 52 : ℤ) : ℚ) * (2 : ℚ) ^ (Int.log 2 q - 52) := by
        have : Int.log 2 q = 52 + (Int.log 2 q - 52) := by ring
        nth_rewrite 1 [this]
        rw [zpow_add₀ (by norm_num : (2 : ℚ) ≠ 0)]
        norm_num
      have hge := scaled_round_ge q (Int.log 2 q - 52) (2 ^ 52) (by
        rw [← hsplit]; exact zpow_log_le q hq)
      rw [← hsplit] at hge
      have h2pos := two_zpow_pos e
      have hm' : (m : ℚ) < (2 : ℚ) ^ (53 : ℤ) := by
        have h1 : m < 2 ^ 53 := lt_of_le_of_lt (le_abs_self m) hm
        have : ((m : ℤ) : ℚ) < ((2 ^ 53 : ℤ) : ℚ) := by exact_mod_cast h1
        calc (m : ℚ) < ((2 ^ 53 : ℤ) : ℚ) := this
          _ = (2 : ℚ) ^ (53 : ℤ) := by norm_num
      have hclt : c < (2 : ℚ) ^ Int.log 2 q := by
        rw [hce]
        calc (m : ℚ) * (2 : ℚ) ^ e < (2 : ℚ) ^ (53 : ℤ) * (2 : ℚ) ^ e :=
              mul_lt_mul_of_pos_right hm' h2pos
          _ = (2 : ℚ) ^ (53 + e) := by rw [← zpow_add₀ (by norm_num : (2 : ℚ) ≠ 0)]
          _ ≤ (2 : ℚ) ^ Int.log 2 q := zpow_le_zpow_right₀ (by norm_num) (by omega)
      linarith
  unfold roundToDouble
  simp only []
  by_cases hover : (2 : ℚ) ^ (1024 : ℤ)
      ≤ (roundHalfEven (q / (2 : ℚ) ^ ulpExponent q) : ℚ) * (2 : ℚ) ^ ulpExponent q
  · left
    rw [if_pos hover]
  · right
    rw [if_neg hover, if_neg (by linarith [two_zpow_pos 1024])]
    exact ⟨_, rfl, hR⟩

/-- A value within half a unit in the seventeenth significant digit of a binary64
value `x ≥ 1` rounds to `x`. -/
theorem roundToDouble_of_near (x y : ℚ) (hx : IsBinary64 x) (hx1 : 1 ≤ x)
    (h : |y - x| * (2 * 10 ^ 16) ≤ x) : roundToDouble y = .fin x := by
  have hxpos : 0 < x := by linarith
  have hlo := zpow_log_le x hxpos
  have hhi := lt_zpow_log_succ x
  have hL0 : 0 ≤ Int.log 2 x := le_log_of_zpow_le x hxpos 0 (by simpa using hx1)
  obtain ⟨N, hN⟩ := hx.exists_multiple (Int.log 2 x) (by rw [abs_of_pos hxpos]; exact hlo)
  have htpos := two_zpow_pos (Int.log 2 x - 52)
  have hsplit : (2 : ℚ) ^ Int.log 2 x
      = 4503599627370496 * (2 : ℚ) ^ (Int.log 2 x - 52) := by
    have : Int.log 2 x = 52 + (Int.log 2 x - 52) := by ring
    nth_rewrite 1 [this]
    rw [zpow_add₀ (by norm_num : (2 : ℚ) ≠ 0)]
    norm_num
  have hsplit1 : (2 : ℚ) ^ (Int.log 2 x + 1)
      = 9007199254740992 * (2 : ℚ) ^ (Int.log 2 x - 52) := by
    have : Int.log 2 x + 1 = 53 + (Int.log 2 x - 52) := by ring
    rw [this, zpow_add₀ (by norm_num : (2 : ℚ) ≠ 0)]
    norm_num
  have hsplitm : (2 : ℚ) ^ (Int.log 2 x - 1)
      = 2251799813685248 * (2 : ℚ) ^ (Int.log 2 x - 52) := by
    have : Int.log 2 x - 1 = 51 + (Int.log 2 x - 52) := by ring
    rw [this, zpow_add₀ (by norm_num : (2 : ℚ) ≠ 0)]
    norm_num
  have hhalf : (2 : ℚ) ^ (Int.log 2 x - 52 - 1) = (2 : ℚ) ^ (Int.log 2 x - 52) / 2 := by
    rw [zpow_sub₀ (by norm_num : (2 : ℚ) ≠ 0)]
    norm_num
  rw [hsplit] at hlo
  rw [hsplit1] at hhi
  -- bounds on the significand
  have hNlo : (4503599627370496 : ℤ) ≤ N := by
    have : (4503599627370496 : ℚ) ≤ (N : ℚ) := by
      by_contra hcon
      have := mul_lt_mul_of_pos_right (not_le.mp hcon) htpos
      linarith
    exact_mod_cast this
  have hNhi : N ≤ (9007199254740991 : ℤ) := by
    have : (N : ℚ) < (9007199254740992 : ℚ) := by
      by_contra hcon
      have := mul_le_mul_of_nonneg_right (not_lt.mp hcon) htpos.le
      linarith
    have h2 : N < (9007199254740992 : ℤ) := by exact_mod_cast this
    omega
  have hNloq : (4503599627370496 : ℚ) ≤ (N : ℚ) := by exact_mod_cast hNlo
  have hNhiq : (N : ℚ) ≤ (9007199254740991 : ℚ) := by exact_mod_cast hNhi
  have hNt : (N : ℚ) * (2 : ℚ) ^ (Int.log 2 x - 52)
      ≤ 9007199254740991 * (2 : ℚ) ^ (Int.log 2 x - 52) :=
    mul_le_mul_of_nonneg_right hNhiq htpos.le
  have habs := abs_sub_lt_iff.mp (show |y - x| < |y - x| + 1 by linarith)
  have hdist : |y - x| < (2 : ℚ) ^ (Int.log 2 x - 52) / 2 := by
    have : |y - x| * (2 * 10 ^ 16) ≤ 9007199254740991 * (2 : ℚ) ^ (Int.log 2 x - 52) := by
      linarith
    nlinarith [abs_nonneg (y - x)]
  have hup : y - x ≤ |y - x| := le_abs_self _
  have hdown : x - y ≤ |y - x| := by rw [abs_sub_comm]; exact le_abs_self _
  have hfin := hx.abs_lt
  rw [abs_of_pos hxpos] at hfin
  by_cases hcase : x ≤ y
  · -- the value is not below `x`
    have hylt : y < 9007199254740992 * (2 : ℚ) ^ (Int.log 2 x - 52) := by
      linarith
    have hypos : 0 < y := by linarith
    have hlog : Int.log 2 y = Int.log 2 x := by
      have h1 : Int.log 2 x ≤ Int.log 2 y :=
        le_log_of_zpow_le y hypos _ (by rw [hsplit]; linarith)
      have h2 : Int.log 2 y < Int.log 2 x + 1 :=
        log_lt_of_lt_zpow y hypos _ (by rw [hsplit1]; exact hylt)
      omega
    have hulp := ulpExponent_of_pos y hypos (by omega)
    rw [hlog] at hulp
    have hge := scaled_round_ge y (Int.log 2 x - 52) N (by rw [← hN]; exact hcase)
    have hle := scaled_round_lt y (Int.log 2 x - 52) (N + 1) (by
      push_cast
      linarith)
    push_cast at hle
    have heq : (roundHalfEven (y / (2 : ℚ) ^ ulpExponent y) : ℚ) * (2 : ℚ) ^ ulpExponent y
        = x := by
      rw [hulp]
      linarith
    rw [roundToDouble_eq_fin y (by rw [heq]; exact hfin)
      (by rw [heq]; linarith [two_zpow_pos 1024]), heq]
  · have hyx : y < x := not_le.mp hcase
    by_cases hN52 : N = 4503599627370496
    · -- `x` is a power of two and the value lies in the binade below
      have hxt : x = 4503599627370496 * (2 : ℚ) ^ (Int.log 2 x - 52) := by
        have h0 := hN
        rw [hN52] at h0
        push_cast at h0
        exact h0
      have hd4 : x - y < (2 : ℚ) ^ (Int.log 2 x - 52) / 4 := by
        have : |y - x| * (2 * 10 ^ 16)
            ≤ 4503599627370496 * (2 : ℚ) ^ (Int.log 2 x - 52) := by
          rw [← hxt]; exact h
        nlinarith [abs_nonneg (y - x)]
      have hypos : 0 < y := by linarith
      have hlog : Int.log 2 y = Int.log 2 x - 1 := by
        have h1 : Int.log 2 x - 1 ≤ Int.log 2 y :=
          le_log_of_zpow_le y hypos _ (by rw [hsplitm]; linarith)
        have h2 : Int.log 2 y < Int.log 2 x :=
          log_lt_of_lt_zpow y hypos _ (by rw [hsplit, ← hxt]; exact hyx)
        omega
      have hulp := ulpExponent_of_pos y hypos (by omega)
      rw [hlog] at hulp
      have he : Int.log 2 x - 1 - 52 = Int.log 2 x - 52 - 1 := by ring
      rw [he] at hulp
      have hge := scaled_round_gt y (Int.log 2 x - 52 - 1) 9007199254740991 (by
        rw [hhalf]
        push_cast
        linarith)
      have hle := scaled_round_le y (Int.log 2 x - 52 - 1) 9007199254740992 (by
        rw [hhalf]
        push_cast
        linarith)
      rw [hhalf] at hge hle
      push_cast at hge hle
      have heq : (roundHalfEven (y / (2 : ℚ) ^ ulpExponent y) : ℚ) * (2 : ℚ) ^ ulpExponent y
          = x := by
        rw [hulp, hhalf]
        linarith
      rw [roundToDouble_eq_fin y (by rw [heq]; exact hfin)
        (by rw [heq]; linarith [two_zpow_pos 1024]), heq]
    · -- the value lies below `x` in the binade of `x`
      have hN1 : (4503599627370497 : ℤ) ≤ N := by omega
      have hN1q : (4503599627370497 : ℚ) ≤ (N : ℚ) := by exact_mod_cast hN1
      have hNt1 : 4503599627370497 * (2 : ℚ) ^ (Int.log 2 x - 52)
          ≤ (N : ℚ) * (2 : ℚ) ^ (Int.log 2 x - 52) :=
        mul_le_mul_of_nonneg_right hN1q htpos.le
      have hypos : 0 < y := by
        linarith
      have hlog : Int.log 2 y = Int.log 2 x := by
        have h1 : Int.log 2 x ≤ Int.log 2 y :=
          le_log_of_zpow_le y hypos _ (by
            rw [hsplit]
            linarith)
        have h2 : Int.log 2 y < Int.log 2 x + 1 :=
          log_lt_of_lt_zpow y hypos _ (by rw [hsplit1]; linarith)
        omega
      have hulp := ulpExponent_of_pos y hypos (by omega)
      rw [hlog] at hulp
      have hge := scaled_round_gt y (Int.log 2 x - 52) (N - 1) (by
        push_cast
        linarith)
      have hle := scaled_round_le y (Int.log 2 x - 52) N (by rw [← hN]; exact hyx.le)
      push_cast at hge
      have heq : (roundHalfEven (y / (2 : ℚ) ^ ulpExponent y) : ℚ) * (2 : ℚ) ^ ulpExponent y
          = x := by
        rw [hulp]
        linarith
      rw [roundToDouble_eq_fin y (by rw [heq]; exact hfin)
        (by rw [heq]; linarith [two_zpow_pos 1024]), heq]

end JS

/-! ## Theorems: `src/FriendTech_Bot.js` -/

namespace FriendTechBot

/-- Reading an absent file throws. -/
theorem readJson_missing : readJson .missing = none := rfl

/-- After a put whose two disk writes succeed the temporary file is gone. -/
theorem writeSubjectsToFile_temp_missing (fs fs1 : Files) (subject : Address)
    (record : JsonValue)
    (h : writeSubjectsToFile healthyDisk fs subject record = some fs1) :
    fs1.subjectsTemp = .missing := by
  unfold writeSubjectsToFile at h
  simp only [healthyDisk] at h
  split at h
  · exact absurd h (by simp)
  · simp at h
    rw [← h]

/-- A lookup with the temporary file absent answers `false`. -/
theorem subjectExistsInFile_temp_missing (fs : Files) (subject : Address)
    (h : fs.subjectsTemp = .missing) : subjectExistsInFile fs subject = false := by
  unfold subjectExistsInFile
  rw [h, readJson_missing]
  split <;> rfl

/-- After a put on a healthy disk no key is found. -/
theorem subjectExistsInFile_after_put (fs fs1 : Files) (subject key : Address)
    (record : JsonValue)
    (h : writeSubjectsToFile healthyDisk fs subject record = some fs1) :
    subjectExistsInFile fs1 key = false :=
  subjectExistsInFile_temp_missing fs1 key
    (writeSubjectsToFile_temp_missing fs fs1 subject record h)

/-- A purchase that returns `true` leaves the files its store write produced. -/
theorem buy_shares_ok_files (chain : Chain) (disk : DiskOutcome) (fs : Files)
    (address : Address) (amount supply : Nat)
    (h : (buy_shares chain disk fs address amount supply).ok = true) :
    ∃ record, writeSubjectsToFile disk fs address record
      = some (buy_shares chain disk fs address amount supply).files := by
  unfold buy_shares at h ⊢
  split at h <;> try (simp at h)
  split at h <;> try (simp at h)
  split at h <;> try (simp at h)
  split at h <;> try (simp at h)
  split at h <;> try (simp at h)
  split at h <;> try (simp at h)
  rename_i record fs1 hw
  simp only [*]
  exact ⟨_, hw⟩


/-- C3: the supply guards accept exactly 10 ≤ supply ≤ 12, whatever the direction of
the event; the filter (the direction guard followed by the supply guards) accepts
exactly the buys with 10 ≤ supply ≤ 12; the handler reaches the store lookup exactly
for the events the filter accepts, and leaves no trace otherwise. -/
theorem trade_filter (ev : TradeEvent) :
    (supplyInRange ev = true ↔ 10 ≤ ev.supply ∧ ev.supply ≤ 12)
    ∧ (∀ b : Bool, supplyInRange { ev with isBuy := b } = supplyInRange ev)
    ∧ (passesFilter ev = true ↔ ev.isBuy = true ∧ 10 ≤ ev.supply ∧ ev.supply ≤ 12)
    ∧ (∀ (chain : Chain) (disk : DiskOutcome) (fs : Files),
        ((∃ s, Action.lookup s ∈ (onTrade chain disk fs ev).actions) ↔ passesFilter ev = true)
        ∧ (passesFilter ev = true →
            (onTrade chain disk fs ev).actions.head? = some (Action.lookup ev.subject))
        ∧ (passesFilter ev = false →
            (onTrade chain disk fs ev).actions = [] ∧ (onTrade chain disk fs ev).files = fs)) := by
  refine ⟨?_, ?_, ?_, ?_⟩
  · simp only [supplyInRange, Bool.and_eq_true, Bool.not_eq_true', decide_eq_false_iff_not,
      not_lt, gt_iff_lt]
    omega
  · intro b
    rfl
  · simp only [passesFilter, supplyInRange, Bool.and_eq_true, Bool.not_eq_true',
      decide_eq_false_iff_not, not_lt, gt_iff_lt]
    tauto
  · intro chain disk fs
    have hpass : passesFilter ev = true ↔ ev.isBuy = true ∧ ¬ ev.supply > 12 ∧ ¬ ev.supply < 10 := by
      simp [passesFilter, supplyInRange]
    by_cases h1 : ev.isBuy = true
    · by_cases h2 : ev.supply > 12
      · have hp : passesFilter ev = false := by
          rw [← Bool.not_eq_true, hpass]; tauto
        simp [onTrade, h1, h2, hp]
      · by_cases h3 : ev.supply < 10
        · have hp : passesFilter ev = false := by
            rw [← Bool.not_eq_true, hpass]; tauto
          simp [onTrade, h1, h2, h3, hp]
        · have hp : passesFilter ev = true := hpass.2 ⟨h1, h2, h3⟩
          simp only [onTrade, h1, h2, h3, hp]
          simp only [Bool.not_true, Bool.false_eq_true, if_false]
          split
          · simp
          · split <;> simp
    · have hp : passesFilter ev = false := by
        rw [← Bool.not_eq_true, hpass]; tauto
      simp [onTrade, h1, hp]

/-- C3 at the sample event: it passes the guards and the first step is the lookup. -/
theorem trade_filter_witness :
    (onTrade calmChain healthyDisk freshFiles sampleTrade).actions.head?
      = some (Action.lookup sampleTrade.subject) :=
  ((trade_filter sampleTrade).2.2.2 calmChain healthyDisk freshFiles).2.1 rfl

/-- With the four queries answering, the one submitted value is the base price plus
the two truncated fees. -/
theorem buy_shares_submitted (chain : Chain) (disk : DiskOutcome) (fs : Files)
    (address : Address) (amount supply bp pfp sfp quote : Nat)
    (hbp : chain.getPrice supply 1 = some bp)
    (hpf : chain.protocolFeePercent = some pfp)
    (hsf : chain.subjectFeePercent = some sfp)
    (hq : chain.getBuyPriceAfterFee address 1 = some quote) :
    (buy_shares chain disk fs address amount supply).actions.filterMap Action.submittedValue?
        = [bp + bp * pfp / 10 ^ 18 + bp * sfp / 10 ^ 18] := by
  simp only [buy_shares, feeScale, hbp, hpf, hsf, hq]
  norm_num
  split <;> (try split) <;> simp [Action.submittedValue?]

/-- C4: when the price and fee queries answer, exactly one `buyShares` call is issued and
the value attached to it is bp + floor(bp·pf / 10^18) + floor(bp·sf / 10^18), the
divisor `BigInt(1e18)` being exactly 10^18. -/
theorem buy_shares_value (chain : Chain) (disk : DiskOutcome) (fs : Files)
    (address : Address) (amount supply bp pfp sfp quote : Nat)
    (hbp : chain.getPrice supply 1 = some bp)
    (hpf : chain.protocolFeePercent = some pfp)
    (hsf : chain.subjectFeePercent = some sfp)
    (hq : chain.getBuyPriceAfterFee address 1 = some quote) :
    (buy_shares chain disk fs address amount supply).actions.filterMap Action.submittedValue?
        = [bp + bp * pfp / 10 ^ 18 + bp * sfp / 10 ^ 18]
    ∧ (buy_shares chain disk fs address amount supply).actions.head?
        = some (Action.buyShares address amount (bp + bp * pfp / 10 ^ 18 + bp * sfp / 10 ^ 18))
    ∧ ((bp + bp * pfp / 10 ^ 18 + bp * sfp / 10 ^ 18 : Nat) : ℚ)
        = (bp : ℚ) + (⌊(bp : ℚ) * pfp / 10 ^ 18⌋₊ : ℚ) + (⌊(bp : ℚ) * sfp / 10 ^ 18⌋₊ : ℚ)
    ∧ JS.roundToDouble ((10 : ℚ) ^ 18) = JS.JSNumber.fin ((feeScale : ℕ) : ℚ)
    ∧ feeScale = 10 ^ 18 := by
  refine ⟨buy_shares_submitted chain disk fs address amount supply bp pfp sfp quote
    hbp hpf hsf hq, ?_, ?_, ?_, by norm_num [feeScale]⟩
  rotate_right
  · rw [JS.roundToDouble_1e18]
    norm_num [feeScale]
  · simp only [buy_shares, feeScale, hbp, hpf, hsf, hq]
    norm_num
    split <;> (try split) <;> simp
  · have h1 : ⌊(bp : ℚ) * pfp / 10 ^ 18⌋₊ = bp * pfp / 10 ^ 18 := by
      have h := @Nat.floor_div_eq_div ℚ _ _ (bp * pfp) (10 ^ 18)
      push_cast at h
      exact h
    have h2 : ⌊(bp : ℚ) * sfp / 10 ^ 18⌋₊ = bp * sfp / 10 ^ 18 := by
      have h := @Nat.floor_div_eq_div ℚ _ _ (bp * sfp) (10 ^ 18)
      push_cast at h
      exact h
    rw [h1, h2]
    push_cast
    rfl


/-- After a purchase that returned `true` on a healthy disk, no key is found. -/
theorem subjectExistsInFile_after_bought (chain : Chain) (fs : Files)
    (address key : Address) (amount supply : Nat)
    (h : (buy_shares chain healthyDisk fs address amount supply).ok = true) :
    subjectExistsInFile (buy_shares chain healthyDisk fs address amount supply).files key
      = false := by
  obtain ⟨record, hrec⟩ := buy_shares_ok_files chain healthyDisk fs address amount supply h
  exact subjectExistsInFile_after_put fs _ address key record hrec

/-- C4 at the sample purchase: supply 11, base price 7562500000000000 wei, 5% fees. -/
theorem buy_shares_value_witness :
    (buy_shares calmChain healthyDisk freshFiles sampleTrade.subject 1 11).actions.filterMap
        Action.submittedValue? = [8318750000000000] :=
  (buy_shares_value calmChain healthyDisk freshFiles sampleTrade.subject 1 11
    7562500000000000 50000000000000000 50000000000000000 8318750000000000 rfl rfl rfl rfl).1

/-- C5 fails as stated: with base price 10 wei and both fee percents 5·10^16 the
submitted value is 10, while floor(10·(10^18 + 5·10^16 + 5·10^16) / 10^18) is 11. -/
theorem buy_shares_total_not_product :
    (buy_shares pennyChain healthyDisk freshFiles sampleTrade.subject 1 11).actions.filterMap
        Action.submittedValue? = [10]
    ∧ pennyChain.getPrice 11 1 = some 10
    ∧ pennyChain.protocolFeePercent = some 50000000000000000
    ∧ pennyChain.subjectFeePercent = some 50000000000000000
    ∧ 10 * (10 ^ 18 + 50000000000000000 + 50000000000000000) / 10 ^ 18 = 11 := by
  refine ⟨by rfl, rfl, rfl, rfl, by norm_num⟩

/-- C5 amended: the submitted total is the base price plus each fee truncated on its
own; it is at most floor(bp·(10^18 + pf + sf) / 10^18), at most one wei below it, and
equal to it exactly when the two fee remainders modulo 10^18 add up to less than 10^18. -/
theorem buy_shares_total_near_product (chain : Chain) (disk : DiskOutcome) (fs : Files)
    (address : Address) (amount supply bp pfp sfp quote : Nat)
    (hbp : chain.getPrice supply 1 = some bp)
    (hpf : chain.protocolFeePercent = some pfp)
    (hsf : chain.subjectFeePercent = some sfp)
    (hq : chain.getBuyPriceAfterFee address 1 = some quote) :
    ∃ total : Nat,
      (buy_shares chain disk fs address amount supply).actions.filterMap Action.submittedValue?
        = [total]
      ∧ total ≤ bp * (10 ^ 18 + pfp + sfp) / 10 ^ 18
      ∧ bp * (10 ^ 18 + pfp + sfp) / 10 ^ 18 ≤ total + 1
      ∧ (total = bp * (10 ^ 18 + pfp + sfp) / 10 ^ 18
          ↔ bp * pfp % 10 ^ 18 + bp * sfp % 10 ^ 18 < 10 ^ 18) := by
  refine ⟨bp + bp * pfp / 10 ^ 18 + bp * sfp / 10 ^ 18,
    buy_shares_submitted chain disk fs address amount supply bp pfp sfp quote hbp hpf hsf hq,
    ?_⟩
  have hD : 0 < 10 ^ 18 := by norm_num
  have key : bp * (10 ^ 18 + pfp + sfp) / 10 ^ 18
      = bp + (bp * pfp / 10 ^ 18 + bp * sfp / 10 ^ 18
          + if 10 ^ 18 ≤ bp * pfp % 10 ^ 18 + bp * sfp % 10 ^ 18 then 1 else 0) := by
    have h1 : bp * (10 ^ 18 + pfp + sfp) = (bp * pfp + bp * sfp) + bp * 10 ^ 18 := by ring
    rw [h1, Nat.add_mul_div_right _ _ hD, Nat.add_div hD]
    omega
  rw [key]
  split_ifs with h <;> omega

/-- C5 amended, at base price 10 wei with 5% fees. -/
theorem buy_shares_total_near_product_witness :
    ∃ total : Nat,
      (buy_shares pennyChain healthyDisk freshFiles sampleTrade.subject 1 11).actions.filterMap
          Action.submittedValue? = [total]
      ∧ total ≤ 10 * (10 ^ 18 + 50000000000000000 + 50000000000000000) / 10 ^ 18
      ∧ 10 * (10 ^ 18 + 50000000000000000 + 50000000000000000) / 10 ^ 18 ≤ total + 1
      ∧ (total = 10 * (10 ^ 18 + 50000000000000000 + 50000000000000000) / 10 ^ 18
          ↔ 10 * 50000000000000000 % 10 ^ 18 + 10 * 50000000000000000 % 10 ^ 18 < 10 ^ 18) :=
  buy_shares_total_near_product pennyChain healthyDisk freshFiles sampleTrade.subject 1 11
    10 50000000000000000 50000000000000000 10 rfl rfl rfl rfl

/-- C10: when a price or fee query rejects, or the submitted purchase is not confirmed,
`buy_shares` returns `false` and leaves both store files as they were; a store write
is issued only after a confirmed submission, for the purchased address, with status
"bought" and the supply of the event; the files change only through that write. -/
theorem buy_shares_failure (chain : Chain) (disk : DiskOutcome) (fs : Files)
    (address : Address) (amount supply : Nat) :
    ((chain.getPrice supply 1 = none ∨ chain.protocolFeePercent = none
        ∨ chain.subjectFeePercent = none ∨ chain.getBuyPriceAfterFee address 1 = none) →
      (buy_shares chain disk fs address amount supply).ok = false
      ∧ (buy_shares chain disk fs address amount supply).files = fs
      ∧ (buy_shares chain disk fs address amount supply).actions = [])
    ∧ (∀ value, Action.buyShares address amount value
          ∈ (buy_shares chain disk fs address amount supply).actions →
        chain.buyShares address amount value ≠ .confirmed →
      (buy_shares chain disk fs address amount supply).ok = false
      ∧ (buy_shares chain disk fs address amount supply).files = fs
      ∧ (buy_shares chain disk fs address amount supply).actions
          = [Action.buyShares address amount value])
    ∧ (∀ subject record, Action.put subject record
          ∈ (buy_shares chain disk fs address amount supply).actions →
        ∃ value quote, chain.getBuyPriceAfterFee address 1 = some quote
          ∧ chain.buyShares address amount value = .confirmed
          ∧ (buy_shares chain disk fs address amount supply).actions
              = [Action.buyShares address amount value, Action.put address record]
          ∧ subject = address
          ∧ record = JsonValue.object [("buy_price", .string (formatEther quote)),
              ("status", .string "bought"), ("supply", .string (toString supply))])
    ∧ ((buy_shares chain disk fs address amount supply).files = fs
        ∨ ∃ record, Action.put address record
              ∈ (buy_shares chain disk fs address amount supply).actions
            ∧ writeSubjectsToFile disk fs address record
              = some (buy_shares chain disk fs address amount supply).files) := by
  unfold buy_shares feeScale
  cases h1 : chain.getPrice supply 1 with
  | none => simp
  | some bp =>
    cases h2 : chain.protocolFeePercent with
    | none => simp
    | some pfp =>
      cases h3 : chain.subjectFeePercent with
      | none => simp
      | some sfp =>
        cases h4 : chain.getBuyPriceAfterFee address 1 with
        | none => simp
        | some quote =>
          simp only []
          cases h5 : chain.buyShares address amount
              (bp + bp * pfp / 1000000000000000000 + bp * sfp / 1000000000000000000) with
          | rejected => simp
          | unconfirmed => simp
          | confirmed =>
            cases h6 : writeSubjectsToFile disk fs address (characteristics quote supply) with
            | none =>
              simp
              exact ⟨h5, ⟨_, h5, rfl, rfl⟩⟩
            | some fs1 =>
              simp
              exact ⟨h5, ⟨_, h5, rfl, rfl⟩, Or.inr h6⟩

/-- C10 on a chain whose price query rejects. -/
theorem buy_shares_failure_witness :
    (buy_shares deafChain healthyDisk emptyStore sampleTrade.subject 1 11).ok = false
    ∧ (buy_shares deafChain healthyDisk emptyStore sampleTrade.subject 1 11).files = emptyStore
    ∧ (buy_shares deafChain healthyDisk emptyStore sampleTrade.subject 1 11).actions = [] :=
  (buy_shares_failure deafChain healthyDisk emptyStore sampleTrade.subject 1 11).1 (Or.inl rfl)

/-- C1 fails on the code: from a fresh store, a qualifying Trade event is bought
(`buy_shares` returns `true`, both disk writes succeed); the lookup for the same
subject then still answers `false`, and the identical event submits `buyShares` again. -/
theorem trade_repeat_buys_again :
    passesFilter sampleTrade = true
    ∧ (buy_shares calmChain healthyDisk freshFiles sampleTrade.subject 1 sampleTrade.supply).ok
        = true
    ∧ subjectExistsInFile (onTrade calmChain healthyDisk freshFiles sampleTrade).files
        sampleTrade.subject = false
    ∧ ((onTrade calmChain healthyDisk
          (onTrade calmChain healthyDisk freshFiles sampleTrade).files sampleTrade).actions.filter
        (Action.isBuyOf sampleTrade.subject)).length = 1 := by
  refine ⟨by rfl, by rfl, by rfl, by rfl⟩

/-- C2 fails on the code: a put whose temporary write and rename both succeed leaves the
record in `subjects.json` and no temporary file, and the lookup of the same key that
follows answers `false`. -/
theorem put_then_has_is_false :
    writeSubjectsToFile healthyDisk emptyStore sampleTrade.subject
        (characteristics 8318750000000000 11)
      = some ⟨.holds (.object [(sampleTrade.subject, characteristics 8318750000000000 11)]),
          .missing⟩
    ∧ subjectExistsInFile
        ⟨.holds (.object [(sampleTrade.subject, characteristics 8318750000000000 11)]),
          .missing⟩
        sampleTrade.subject = false := by
  exact ⟨rfl, rfl⟩

end FriendTechBot

/-! ## Theorems: `src/TelegramBot.js` -/

namespace TelegramBot
open JS

/-- The value computed on source line 163 is always a number a program can hold. -/
theorem usdValue_isValue (value : Nat) (tokenPriceInUSD : JSNumber) :
    (usdValue value tokenPriceInUSD).IsValue :=
  mul_isValue _ _

/-- In the band the compared value is 101. -/
theorem effectiveValue_band (v : ℚ) (hv : IsBinary64 v) (h1 : 97 < v) (h2 : v < 100) :
    effectiveValue (.fin v) = .fin 101 := by
  have hd := roundToDouble_of_isBinary64 _ (isBinary64_top_up v hv h1 h2)
  have h101 : roundToDouble (101 : ℚ) = .fin 101 := by
    simpa using roundToDouble_intCast 101 (by norm_num)
  simp only [effectiveValue, topUp, JSNumber.gt, JSNumber.lt, h1, h2, decide_True,
    Bool.and_self, if_true, JSNumber.sub, hd, JSNumber.add]
  rw [show v + (101 - v) = 101 by ring, h101]

/-- In the band the top-up is `101 - _x`, exactly. -/
theorem topUp_band (v : ℚ) (hv : IsBinary64 v) (h1 : 97 < v) (h2 : v < 100) :
    topUp (.fin v) = .fin (101 - v) := by
  have hd := roundToDouble_of_isBinary64 _ (isBinary64_top_up v hv h1 h2)
  simp only [topUp, JSNumber.gt, JSNumber.lt, h1, h2, decide_True,
    Bool.and_self, if_true, JSNumber.sub, hd]

/-- Outside the band the compared value is the value itself. -/
theorem effectiveValue_outside (v : ℚ) (hv : IsBinary64 v) (h : ¬ (97 < v ∧ v < 100)) :
    effectiveValue (.fin v) = .fin v := by
  have hd := roundToDouble_of_isBinary64 _ hv
  have hcond : (decide (97 < v) && decide (v < 100)) = false := by
    simpa using h
  simp only [effectiveValue, topUp, JSNumber.gt, JSNumber.lt, hcond, JSNumber.add]
  simp [hd]

/-- The compared value of `Infinity` is `Infinity`. -/
theorem effectiveValue_posInf : effectiveValue .posInf = .posInf := by
  simp [effectiveValue, topUp, JSNumber.gt, JSNumber.lt, JSNumber.add]

/-- The compared value of `-Infinity` is `-Infinity`. -/
theorem effectiveValue_negInf : effectiveValue .negInf = .negInf := by
  simp [effectiveValue, topUp, JSNumber.gt, JSNumber.lt, JSNumber.add]

/-- The compared value of `NaN` is `NaN`. -/
theorem effectiveValue_nan : effectiveValue .nan = .nan := by
  simp [effectiveValue, topUp, JSNumber.gt, JSNumber.lt, JSNumber.add]

/-- The reward branch is entered exactly when the comparison on source line 171 holds. -/
theorem generating_mem_rewardStage (x : JSNumber) (hotWalletBalance : Nat)
    (recipient : Address) (loopDraws : List ℚ) (referenceDraw : ℚ) (sendOk : Bool) :
    Effect.generating ∈ rewardStage x hotWalletBalance recipient loopDraws referenceDraw sendOk
      ↔ (effectiveValue x).ge (.fin 100) = true := by
  unfold rewardStage
  by_cases h : (effectiveValue x).ge (.fin 100) = true
  · simp only [h, if_true, iff_true]
    split <;> simp
  · simp [h]


/-- The number 98 is a binary64 value. -/
theorem isValue_98 : (JSNumber.fin 98).IsValue := by
  simpa [JSNumber.IsValue] using isBinary64_natCast 98 (by norm_num)

/-- C6: for a value above 97 and below 100 the value compared with the threshold,
`_x + _dif`, is `_x + (101 - _x)` and equals 101; for a value at most 97 or at least
100 (the infinities included) it is the value itself; the reward branch is entered
exactly when that value is at least 100. -/
theorem near_threshold_rounding (x : JSNumber) (hx : x.IsValue) :
    (x.gt (.fin 97) = true ∧ x.lt (.fin 100) = true →
        effectiveValue x = x.add ((JSNumber.fin 101).sub x) ∧ effectiveValue x = .fin 101)
    ∧ (x.le (.fin 97) = true ∨ x.ge (.fin 100) = true → effectiveValue x = x)
    ∧ (∀ (hotWalletBalance : Nat) (recipient : Address) (loopDraws : List ℚ)
        (referenceDraw : ℚ) (sendOk : Bool),
        Effect.generating
            ∈ rewardStage x hotWalletBalance recipient loopDraws referenceDraw sendOk
          ↔ (effectiveValue x).ge (.fin 100) = true) := by
  refine ⟨?_, ?_, fun b r l d s => generating_mem_rewardStage x b r l d s⟩
  · cases x with
    | nan => simp [JSNumber.gt, JSNumber.lt]
    | posInf => simp [JSNumber.gt, JSNumber.lt]
    | negInf => simp [JSNumber.gt, JSNumber.lt]
    | fin v =>
      intro h
      simp only [JSNumber.gt, JSNumber.lt, decide_eq_true_eq] at h
      refine ⟨?_, effectiveValue_band v hx h.1 h.2⟩
      simp only [effectiveValue, topUp_band v hx h.1 h.2, JSNumber.sub,
        roundToDouble_of_isBinary64 _ (isBinary64_top_up v hx h.1 h.2)]
  · cases x with
    | nan => simp [JSNumber.le, JSNumber.ge]
    | posInf => intro _; exact effectiveValue_posInf
    | negInf => intro _; exact effectiveValue_negInf
    | fin v =>
      intro h
      simp only [JSNumber.le, JSNumber.ge, decide_eq_true_eq] at h
      apply effectiveValue_outside v hx
      rintro ⟨h1, h2⟩
      rcases h with h | h <;> linarith

/-- C6 at the value 98. -/
theorem near_threshold_rounding_witness :
    effectiveValue (.fin 98) = (JSNumber.fin 98).add ((JSNumber.fin 101).sub (.fin 98))
    ∧ effectiveValue (.fin 98) = .fin 101 :=
  (near_threshold_rounding (.fin 98) isValue_98).1
    ⟨by simp [JSNumber.gt, JSNumber.lt]; norm_num, by simp [JSNumber.lt]; norm_num⟩


/-- Slot count of a finite value at or above the threshold. -/
theorem randomArrayLength_of_ge (v : ℚ) (hv : IsBinary64 v) (h : 100 ≤ v) :
    randomArrayLength (.fin v) = .fin ((min ⌊v / 100⌋ 10 : ℤ) : ℚ) := by
  have heff := effectiveValue_outside v hv (by rintro ⟨_, h2⟩; linarith)
  simp only [randomArrayLength, heff, JSNumber.divBy]
  by_cases hbig : v < 1000
  · obtain ⟨r, hr, hfloor⟩ := floor_roundToDouble_div_hundred v hv (by linarith)
      (lt_trans hbig (by norm_num))
    have h9 : ⌊v / 100⌋ ≤ 9 := by
      have : ⌊v / 100⌋ < 10 := by
        rw [Int.floor_lt]; push_cast; linarith [div_lt_div_of_pos_right hbig (by norm_num : (0 : ℚ) < 100)]
      omega
    simp only [hr, JSNumber.floor, JSNumber.min, hfloor]
    congr 1
    push_cast
    rfl
  · have h10 : (10 : ℚ) ≤ v / 100 := by
      rw [le_div_iff₀ (by norm_num)]; linarith
    have hf10 : (10 : ℤ) ≤ ⌊v / 100⌋ := Int.le_floor.mpr (by exact_mod_cast h10)
    have hmin : min ⌊v / 100⌋ 10 = 10 := min_eq_right hf10
    rw [hmin]
    rcases ten_le_roundToDouble (v / 100) h10 with hinf | ⟨r, hr, hr10⟩
    · simp [hinf, JSNumber.floor, JSNumber.min]
    · have : (10 : ℤ) ≤ ⌊r⌋ := Int.le_floor.mpr (by exact_mod_cast hr10)
      have hq : ((10 : ℤ) : ℚ) ≤ (⌊r⌋ : ℚ) := by exact_mod_cast this
      simp only [hr, JSNumber.floor, JSNumber.min]
      congr 1
      push_cast at hq ⊢
      exact min_eq_right hq

/-- Slot count of a finite value in the band below the threshold. -/
theorem randomArrayLength_band (v : ℚ) (hv : IsBinary64 v) (h1 : 97 < v) (h2 : v < 100) :
    randomArrayLength (.fin v) = .fin 1 := by
  have heff := effectiveValue_band v hv h1 h2
  obtain ⟨r, hr, hfloor⟩ := floor_roundToDouble_div_hundred 101
    (by simpa using isBinary64_natCast 101 (by norm_num)) (by norm_num) (by norm_num)
  have h1 : ⌊(101 : ℚ) / 100⌋ = 1 := by
    rw [Int.floor_eq_iff]; norm_num
  simp only [randomArrayLength, heff, JSNumber.divBy, hr, JSNumber.floor, JSNumber.min, hfloor, h1]
  norm_num

/-- Slot count of `Infinity`. -/
theorem randomArrayLength_posInf : randomArrayLength .posInf = .fin 10 := by
  simp [randomArrayLength, effectiveValue_posInf, JSNumber.divBy, JSNumber.floor, JSNumber.min]

/-- Every notification of the announcement reports the probability it was given. -/
theorem probability_of_announce (randomNumbers : List JSNumber) (randomNumberToCheck : JSNumber)
    (hotWalletBalance : Nat) (recipient : Address) (x probability : JSNumber) (sendOk : Bool)
    (gif : Gif) (caption : Caption)
    (h : Effect.sendAnimation gif caption
      ∈ announce randomNumbers randomNumberToCheck hotWalletBalance recipient x probability
          sendOk) :
    caption.probability = probability := by
  unfold announce at h
  simp only [] at h
  split at h
  · rw [List.mem_cons] at h
    rcases h with h | h
    · cases h; rfl
    · split at h <;> simp at h
  · rw [List.mem_singleton] at h
    cases h; rfl

/-- Every notification of the reward stage reports the slot count as probability. -/
theorem probability_of_rewardStage (x : JSNumber) (hotWalletBalance : Nat)
    (recipient : Address) (loopDraws : List ℚ) (referenceDraw : ℚ) (sendOk : Bool)
    (gif : Gif) (caption : Caption)
    (h : Effect.sendAnimation gif caption
      ∈ rewardStage x hotWalletBalance recipient loopDraws referenceDraw sendOk) :
    caption.probability = randomArrayLength x := by
  unfold rewardStage at h
  split at h
  · split at h
    · simp at h
    · rw [List.mem_cons] at h
      rcases h with h | h
      · cases h
      · exact probability_of_announce _ _ _ _ _ _ _ _ _ h
  · simp at h

/-- C7 fails as stated: the value 98 enters the reward branch with one winning slot,
while min(floor(98 / 100), 10) is 0, in binary64 and in exact arithmetic alike. -/
theorem slot_count_below_threshold :
    Effect.generating ∈ rewardStage (.fin 98) 1000000000000000000
        "0x3333333333333333333333333333333333333333" [0] (1 / 2) true
    ∧ randomArrayLength (.fin 98) = .fin 1
    ∧ (((JSNumber.fin 98).divBy 100).floor).min (.fin 10) = .fin 0
    ∧ min ⌊(98 : ℚ) / 100⌋ 10 = 0 := by
  have h98 : IsBinary64 (98 : ℚ) := by simpa using isBinary64_natCast 98 (by norm_num)
  refine ⟨?_, randomArrayLength_band 98 h98 (by norm_num) (by norm_num), ?_, ?_⟩
  · rw [generating_mem_rewardStage, effectiveValue_band 98 h98 (by norm_num) (by norm_num)]
    simp [JSNumber.ge]
    norm_num
  · obtain ⟨r, hr, hfloor⟩ := floor_roundToDouble_div_hundred 98 h98 (by norm_num) (by norm_num)
    have h0 : ⌊(98 : ℚ) / 100⌋ = 0 := by
      rw [Int.floor_eq_iff]; norm_num
    simp only [JSNumber.divBy, hr, JSNumber.floor, JSNumber.min, hfloor, h0]
    norm_num
  · have h0 : ⌊(98 : ℚ) / 100⌋ = 0 := by
      rw [Int.floor_eq_iff]; norm_num
    rw [h0]; rfl

/-- C7 amended: for a value that enters the reward branch the slot count is
min(floor((_x + _dif) / 100), 10), computed from the topped-up value: it equals
min(floor(usdValue / 100), 10), in binary64 and in exact arithmetic, when the value is
at least 100, and it is 1 when the value lies above 97 and below 100; every
notification reports it as the probability of win. -/
theorem slot_count (x : JSNumber) (hx : x.IsValue)
    (hent : (effectiveValue x).ge (.fin 100) = true) :
    randomArrayLength x = (((effectiveValue x).divBy 100).floor).min (.fin 10)
    ∧ (x.ge (.fin 100) = true →
        randomArrayLength x = ((x.divBy 100).floor).min (.fin 10))
    ∧ (∀ v : ℚ, x = .fin v → 100 ≤ v →
        randomArrayLength x = .fin ((min ⌊v / 100⌋ 10 : ℤ) : ℚ))
    ∧ (x.lt (.fin 100) = true → x.gt (.fin 97) = true ∧ randomArrayLength x = .fin 1)
    ∧ (∀ (hotWalletBalance : Nat) (recipient : Address) (loopDraws : List ℚ)
        (referenceDraw : ℚ) (sendOk : Bool) (gif : Gif) (caption : Caption),
        Effect.sendAnimation gif caption
            ∈ rewardStage x hotWalletBalance recipient loopDraws referenceDraw sendOk →
          caption.probability = randomArrayLength x) := by
  refine ⟨rfl, ?_, ?_, ?_, fun b r l d s g c h => probability_of_rewardStage _ b r l d s g c h⟩
  · cases x with
    | nan => simp [JSNumber.ge]
    | posInf => intro _; simp only [randomArrayLength, effectiveValue_posInf]
    | negInf => simp [JSNumber.ge]
    | fin v =>
      intro h
      simp only [JSNumber.ge, decide_eq_true_eq] at h
      simp only [randomArrayLength,
        effectiveValue_outside v hx (by rintro ⟨_, h2⟩; linarith)]
  · intro v hxv h100
    subst hxv
    exact randomArrayLength_of_ge v hx h100
  · cases x with
    | nan => simp [JSNumber.lt]
    | posInf => simp [JSNumber.lt]
    | negInf =>
      rw [effectiveValue_negInf] at hent
      simp [JSNumber.ge] at hent
    | fin v =>
      intro h
      simp only [JSNumber.lt, decide_eq_true_eq] at h
      have h97 : 97 < v := by
        by_contra hn
        rw [effectiveValue_outside v hx (by rintro ⟨a, _⟩; exact hn a)] at hent
        simp only [JSNumber.ge, decide_eq_true_eq] at hent
        linarith
      refine ⟨?_, randomArrayLength_band v hx h97 h⟩
      simp only [JSNumber.gt, JSNumber.lt, decide_eq_true_eq]
      exact h97

/-- C7 amended, at the value 250: two slots. -/
theorem slot_count_witness :
    randomArrayLength (.fin 250) = .fin ((min ⌊(250 : ℚ) / 100⌋ 10 : ℤ) : ℚ) :=
  (slot_count (.fin 250) (by simpa [JSNumber.IsValue] using isBinary64_natCast 250 (by norm_num))
    (by
      rw [effectiveValue_outside 250 (by simpa using isBinary64_natCast 250 (by norm_num))
        (by norm_num)]
      simp [JSNumber.ge]; norm_num)).2.2.1 250 rfl (by norm_num)

/-- A result of `Math.random()` is mapped to an integer from 1 to 100. -/
theorem randomInt_range (r : ℚ) (hr : IsBinary64 r) (h0 : 0 ≤ r) (h1 : r < 1) :
    ∃ n : ℕ, randomInt r = .fin (n : ℚ) ∧ 1 ≤ n ∧ n ≤ 100 := by
  obtain ⟨y, hy, hy0, hy100⟩ := roundToDouble_mul_hundred r hr h0 h1
  have hf0 : 0 ≤ ⌊y⌋ := Int.floor_nonneg.mpr hy0
  have hf99 : ⌊y⌋ < 100 := Int.floor_lt.mpr (by exact_mod_cast hy100)
  have hround := roundToDouble_intCast (⌊y⌋ + 1) (by
    rw [abs_lt]
    constructor
    · have : (-2 ^ 53 : ℤ) < 0 := by norm_num
      omega
    · have : (100 : ℤ) < 2 ^ 53 := by norm_num
      omega)
  refine ⟨(⌊y⌋ + 1).toNat, ?_, by omega, by omega⟩
  have hcast : (((⌊y⌋ + 1).toNat : ℕ) : ℚ) = ((⌊y⌋ + 1 : ℤ) : ℚ) := by
    have : (((⌊y⌋ + 1).toNat : ℕ) : ℤ) = ⌊y⌋ + 1 := Int.toNat_of_nonneg (by omega)
    exact_mod_cast congrArg (fun z : ℤ => (z : ℚ)) this
  rw [hcast, ← hround]
  simp only [randomInt, JSNumber.mul, hy, JSNumber.floor, JSNumber.add]
  push_cast
  rfl

/-- Adding to the set does not change the values seen so far and to come. -/
theorem toFinset_setAdd_append (numbers rest : List JSNumber) (x : JSNumber) :
    (setAdd numbers x ++ rest).toFinset = (numbers ++ x :: rest).toFinset := by
  ext a
  unfold setAdd
  split_ifs with h
  · simp only [List.mem_toFinset, List.mem_append, List.mem_cons]
    constructor
    · rintro (h1 | h1)
      · exact Or.inl h1
      · exact Or.inr (Or.inr h1)
    · rintro (h1 | h1 | h1)
      · exact Or.inl h1
      · exact Or.inl (h1 ▸ h)
      · exact Or.inr h1
  · simp only [List.mem_toFinset, List.mem_append, List.mem_cons, List.mem_singleton]
    tauto

/-- The loop test `numbers.size < count` for an integer count. -/
theorem lt_count_iff (numbers : List JSNumber) (k : ℕ) :
    (JSNumber.fin (numbers.length : ℚ)).lt (.fin (k : ℚ)) = true ↔ numbers.length < k := by
  simp [JSNumber.lt]

/-- What the draw loop returns, from any state of the set. -/
theorem drawLoop_spec (k : ℕ) : ∀ (draws : List ℚ) (numbers arr : List JSNumber),
    (∀ r ∈ draws, IsBinary64 r ∧ 0 ≤ r ∧ r < 1) →
    numbers.Nodup →
    (∀ x ∈ numbers, ∃ n : ℕ, x = .fin (n : ℚ) ∧ 1 ≤ n ∧ n ≤ 100) →
    numbers.length ≤ k →
    drawLoop (.fin (k : ℚ)) numbers draws = some arr →
    arr.length = k ∧ arr.Nodup
      ∧ (∀ x ∈ arr, ∃ n : ℕ, x = .fin (n : ℚ) ∧ 1 ≤ n ∧ n ≤ 100)
      ∧ (∀ x ∈ arr, x ∈ numbers ∨ x ∈ draws.map randomInt) := by
  intro draws
  induction draws with
  | nil =>
    intro numbers arr _ hnd hrange hlen h
    unfold drawLoop at h
    split_ifs at h with hlt
    rw [lt_count_iff] at hlt
    injection h with h
    subst h
    exact ⟨by omega, hnd, hrange, fun x hx => Or.inl hx⟩
  | cons r rest ih =>
    intro numbers arr hdraws hnd hrange hlen h
    unfold drawLoop at h
    split_ifs at h with hlt
    · rw [lt_count_iff] at hlt
      obtain ⟨hr, hr0, hr1⟩ := hdraws r (List.mem_cons_self _ _)
      have hrest : ∀ r' ∈ rest, IsBinary64 r' ∧ 0 ≤ r' ∧ r' < 1 :=
        fun r' hr' => hdraws r' (List.mem_cons_of_mem _ hr')
      have hnd' : (setAdd numbers (randomInt r)).Nodup := by
        unfold setAdd
        split_ifs with hmem
        · exact hnd
        · exact List.Nodup.append hnd (List.nodup_singleton _) (by
            intro a ha hb
            rw [List.mem_singleton] at hb
            exact hmem (hb ▸ ha))
      have hrange' : ∀ x ∈ setAdd numbers (randomInt r),
          ∃ n : ℕ, x = .fin (n : ℚ) ∧ 1 ≤ n ∧ n ≤ 100 := by
        intro x hx
        unfold setAdd at hx
        split_ifs at hx with hmem
        · exact hrange x hx
        · rw [List.mem_append, List.mem_singleton] at hx
          rcases hx with hx | hx
          · exact hrange x hx
          · rw [hx]; exact randomInt_range r hr hr0 hr1
      have hlen' : (setAdd numbers (randomInt r)).length ≤ k := by
        unfold setAdd
        split_ifs with hmem
        · exact hlen
        · rw [List.length_append, List.length_singleton]; omega
      obtain ⟨a, b, c, d⟩ := ih _ arr hrest hnd' hrange' hlen' h
      refine ⟨a, b, c, ?_⟩
      intro x hx
      rcases d x hx with hx' | hx'
      · unfold setAdd at hx'
        split_ifs at hx' with hmem
        · exact Or.inl hx'
        · rw [List.mem_append, List.mem_singleton] at hx'
          rcases hx' with hx' | hx'
          · exact Or.inl hx'
          · right; rw [hx']; simp
      · right
        rw [List.map_cons]
        exact List.mem_cons_of_mem _ hx'
    · rw [lt_count_iff] at hlt
      injection h with h
      subst h
      exact ⟨by omega, hnd, hrange, fun x hx => Or.inl hx⟩

/-- The draw loop ends once the set and the remaining draws hold enough distinct values. -/
theorem drawLoop_isSome (k : ℕ) : ∀ (draws : List ℚ) (numbers : List JSNumber),
    k ≤ (numbers ++ draws.map randomInt).toFinset.card →
    (drawLoop (.fin (k : ℚ)) numbers draws).isSome = true := by
  intro draws
  induction draws with
  | nil =>
    intro numbers h
    unfold drawLoop
    have hle : numbers.toFinset.card ≤ numbers.length := List.toFinset_card_le numbers
    simp only [List.map_nil, List.append_nil] at h
    have hnot : ¬ ((JSNumber.fin (numbers.length : ℚ)).lt (.fin (k : ℚ)) = true) := by
      rw [lt_count_iff]; omega
    rw [if_neg hnot]
    rfl
  | cons r rest ih =>
    intro numbers h
    unfold drawLoop
    split_ifs with hlt
    · apply ih
      rw [toFinset_setAdd_append]
      simpa using h
    · rfl


/-- The draw 0 maps to 1. -/
theorem randomInt_zero : randomInt 0 = .fin 1 := by
  have h0 : roundToDouble (0 : ℚ) = .fin 0 := by
    simpa using roundToDouble_intCast 0 (by norm_num)
  have h1 : roundToDouble (1 : ℚ) = .fin 1 := by
    simpa using roundToDouble_intCast 1 (by norm_num)
  simp [randomInt, JSNumber.mul, JSNumber.floor, JSNumber.add, h0, h1]

/-- The draw 1/2 maps to 51. -/
theorem randomInt_half : randomInt (1 / 2) = .fin 51 := by
  have h50 : roundToDouble (50 : ℚ) = .fin 50 := by
    simpa using roundToDouble_intCast 50 (by norm_num)
  have h51 : roundToDouble (51 : ℚ) = .fin 51 := by
    simpa using roundToDouble_intCast 51 (by norm_num)
  have hmul : (1 / 2 : ℚ) * 100 = 50 := by norm_num
  have hadd : (50 : ℚ) + 1 = 51 := by norm_num
  simp only [randomInt, JSNumber.mul, hmul, h50, JSNumber.floor, JSNumber.add]
  have hfl : ((⌊(50 : ℚ)⌋ : ℤ) : ℚ) = 50 := by
    have : ⌊(50 : ℚ)⌋ = 50 := by
      rw [Int.floor_eq_iff]; norm_num
    rw [this]; norm_num
  rw [hfl, hadd, h51]

/-- Zero is a binary64 value. -/
theorem isBinary64_zero : IsBinary64 0 := by
  simpa using isBinary64_natCast 0 (by norm_num)

/-- One half is a binary64 value. -/
theorem isBinary64_half : IsBinary64 (1 / 2) :=
  ⟨1, -1, by norm_num, by norm_num, by norm_num, by norm_num⟩

/-- The draws 0, 0, 1/2 fill two slots with 1 and 51. -/
theorem generateUniqueRandomNumbers_sample :
    generateUniqueRandomNumbers (.fin ((2 : ℕ) : ℚ)) [0, 0, 1 / 2] = some [.fin 1, .fin 51] := by
  have hhalf : randomInt 2⁻¹ = .fin 51 := by
    rw [← one_div]; exact randomInt_half
  simp [generateUniqueRandomNumbers, drawLoop, setAdd, JSNumber.lt, randomInt_zero, hhalf]

/-- C8: for every count `k` (so for 0 ≤ k ≤ 100) and every supply of results of
`Math.random()`, each a binary64 value in `[0, 1)`: an array that is returned has exactly
`k` elements, pairwise distinct, each an integer from 1 to 100; and the loop returns
exactly when the supply maps to at least `k` distinct integers. -/
theorem generateUniqueRandomNumbers_spec (k : ℕ) (draws : List ℚ)
    (hdraws : ∀ r ∈ draws, IsBinary64 r ∧ 0 ≤ r ∧ r < 1) :
    (∀ arr, generateUniqueRandomNumbers (.fin (k : ℚ)) draws = some arr →
        arr.length = k ∧ arr.Nodup
          ∧ ∀ x ∈ arr, ∃ n : ℕ, x = .fin (n : ℚ) ∧ 1 ≤ n ∧ n ≤ 100)
    ∧ ((generateUniqueRandomNumbers (.fin (k : ℚ)) draws).isSome = true
        ↔ k ≤ (draws.map randomInt).toFinset.card) := by
  constructor
  · intro arr h
    obtain ⟨a, b, c, -⟩ := drawLoop_spec k draws [] arr hdraws List.nodup_nil
      (by simp) (by simp) h
    exact ⟨a, b, c⟩
  · constructor
    · intro h
      obtain ⟨arr, harr⟩ := Option.isSome_iff_exists.mp h
      obtain ⟨a, b, -, d⟩ := drawLoop_spec k draws [] arr hdraws List.nodup_nil
        (by simp) (by simp) harr
      have hsub : arr.toFinset ⊆ (draws.map randomInt).toFinset := by
        intro x hx
        rw [List.mem_toFinset] at hx ⊢
        rcases d x hx with h1 | h1
        · simp at h1
        · exact h1
      calc k = arr.length := a.symm
        _ = arr.toFinset.card := (List.toFinset_card_of_nodup b).symm
        _ ≤ (draws.map randomInt).toFinset.card := Finset.card_le_card hsub
    · intro h
      exact drawLoop_isSome k draws [] (by simpa using h)

/-- C8 at count 2 with the draws 0, 0, 1/2: the array is 1, 51. -/
theorem generateUniqueRandomNumbers_spec_witness :
    generateUniqueRandomNumbers (.fin ((2 : ℕ) : ℚ)) [0, 0, 1 / 2] = some [.fin 1, .fin 51]
    ∧ [JSNumber.fin 1, JSNumber.fin 51].length = 2
    ∧ [JSNumber.fin 1, JSNumber.fin 51].Nodup
    ∧ ∀ x ∈ [JSNumber.fin 1, JSNumber.fin 51], ∃ n : ℕ, x = .fin (n : ℚ) ∧ 1 ≤ n ∧ n ≤ 100 :=
  ⟨generateUniqueRandomNumbers_sample,
    (generateUniqueRandomNumbers_spec 2 [0, 0, 1 / 2] (by
      intro r hr
      simp only [List.mem_cons, List.mem_singleton, List.mem_nil_iff, or_false] at hr
      rcases hr with h | h | h
      · subst h; exact ⟨isBinary64_zero, by norm_num, by norm_num⟩
      · subst h; exact ⟨isBinary64_zero, by norm_num, by norm_num⟩
      · subst h; exact ⟨isBinary64_half, by norm_num, by norm_num⟩)).1 _
      generateUniqueRandomNumbers_sample⟩

/-- Halving the balance is exact when the balance is a binary64 value. -/
theorem actualPot_exact (hotWalletBalance : Nat) (h : IsBinary64 (hotWalletBalance : ℚ)) :
    (ofBigInt hotWalletBalance).divBy 2 = .fin ((hotWalletBalance : ℚ) / 2) := by
  simp only [ofBigInt, roundToDouble_of_isBinary64 _ h, JSNumber.divBy]
  by_cases h0 : hotWalletBalance = 0
  · subst h0
    simpa using roundToDouble_intCast 0 (by norm_num)
  · apply roundToDouble_of_isBinary64
    apply h.half
    rw [abs_of_nonneg (by positivity)]
    have : 1 ≤ hotWalletBalance := Nat.one_le_iff_ne_zero.mpr h0
    exact_mod_cast this

/-- The announcement by cases on the win draw. -/
theorem announce_cases (randomNumbers : List JSNumber) (randomNumberToCheck : JSNumber)
    (hotWalletBalance : Nat) (recipient : Address) (_x probability : JSNumber)
    (sendOk : Bool) :
    (randomNumberToCheck ∈ randomNumbers →
        announce randomNumbers randomNumberToCheck hotWalletBalance recipient _x probability
            sendOk
          = Effect.sendAnimation .gifWinner
              ⟨true, (ofBigInt hotWalletBalance).divBy 2, (ofBigInt hotWalletBalance).divBy 4,
                _x, probability⟩ ::
              (if sendOk then
                [Effect.sendTransaction recipient
                  (numberToString ((ofBigInt hotWalletBalance).divBy 2))]
              else []))
    ∧ (randomNumberToCheck ∉ randomNumbers →
        announce randomNumbers randomNumberToCheck hotWalletBalance recipient _x probability
            sendOk
          = [Effect.sendAnimation .gifLoser
              ⟨false, (ofBigInt hotWalletBalance).divBy 2, (ofBigInt hotWalletBalance).divBy 4,
                _x, probability⟩]) := by
  constructor
  · intro h
    simp [announce, h]
  · intro h
    simp [announce, h]

/-- A qualifying event whose draw loop returns runs the announcement. -/
theorem onTransfer_qualifying (env : Surroundings) (ev : TransferEvent)
    (hotWalletBalance : Nat) (randomNumbers : List JSNumber)
    (hfrom : ev.sender = "0x628d9A2175B66A11fcE8208106Fbb95Ed33503E0")
    (hto : ev.recipient ≠ "0xC39b0D3c3DA68cdaefe24a07373b9894496eCA97")
    (hbal : env.hotWalletBalance = some hotWalletBalance)
    (hthr : (effectiveValue (usdValue ev.value env.tokenPriceInUSD)).ge (.fin 100) = true)
    (hdraw : generateUniqueRandomNumbers
        (randomArrayLength (usdValue ev.value env.tokenPriceInUSD)) env.loopDraws
      = some randomNumbers) :
    onTransfer env ev
      = Effect.generating ::
          announce randomNumbers (randomInt env.referenceDraw) hotWalletBalance ev.recipient
            (usdValue ev.value env.tokenPriceInUSD)
            (randomArrayLength (usdValue ev.value env.tokenPriceInUSD)) env.sendOk := by
  unfold onTransfer
  rw [if_pos ⟨hfrom, hto⟩, hbal]
  simp only [rewardStage, hthr, if_true, hdraw]

/-- A transfer of 250 tokens at 1 USD is worth 250 USD. -/
theorem usdValue_sample : usdValue 250000000000 (.fin 1) = .fin 250 := by
  have hc : ((250000000000 : ℕ) : ℚ) = 250000000000 := by norm_num
  have h1 : roundToDouble (250000000000 : ℚ) = .fin 250000000000 := by
    simpa using roundToDouble_intCast 250000000000 (by norm_num)
  have h2 : roundToDouble (250 : ℚ) = .fin 250 := by
    simpa using roundToDouble_intCast 250 (by norm_num)
  have h3 : (250000000000 : ℚ) / 10 ^ decimals = 250 := by norm_num [decimals]
  have h4 : (250 : ℚ) * 1 = 250 := by norm_num
  unfold usdValue ofBigInt
  rw [hc, h1]
  unfold JSNumber.divBy
  simp only []
  rw [h3, h2]
  unfold JSNumber.mul
  simp only []
  rw [h4, h2]

/-- The value 250 is compared as it is. -/
theorem effectiveValue_sample : effectiveValue (.fin 250) = .fin 250 :=
  effectiveValue_outside 250 (by simpa using isBinary64_natCast 250 (by norm_num))
    (by norm_num)

/-- The value 250 gives two slots. -/
theorem randomArrayLength_sample : randomArrayLength (.fin 250) = .fin ((2 : ℕ) : ℚ) := by
  rw [randomArrayLength_of_ge 250 (by simpa using isBinary64_natCast 250 (by norm_num))
    (by norm_num)]
  have : ⌊(250 : ℚ) / 100⌋ = 2 := by
    rw [Int.floor_eq_iff]; norm_num
  rw [this]
  norm_num

/-- A qualifying buy worth 250 USD; the draw loop yields 1 and 51, the reference draw
yields 1, and the notification is not delivered. -/
theorem sample_run_facts :
    (effectiveValue (usdValue 250000000000 (.fin 1))).ge (.fin 100) = true
    ∧ generateUniqueRandomNumbers (randomArrayLength (usdValue 250000000000 (.fin 1)))
        [0, 0, 1 / 2] = some [.fin 1, .fin 51]
    ∧ randomInt 0 ∈ [JSNumber.fin 1, JSNumber.fin 51] := by
  refine ⟨?_, ?_, ?_⟩
  · rw [usdValue_sample, effectiveValue_sample]
    simp [JSNumber.ge]
    norm_num
  · rw [usdValue_sample, randomArrayLength_sample]
    exact generateUniqueRandomNumbers_sample
  · rw [randomInt_zero]
    simp

/-- The preferred numeral of a list is one of the list. -/
theorem closest_mem (x : ℚ) (l : List Decimal) (d : Decimal) (h : closest x l = some d) :
    d ∈ l := by
  induction l generalizing d with
  | nil => simp [closest] at h
  | cons a t ih =>
    unfold closest at h
    cases hc : closest x t with
    | none =>
      rw [hc] at h
      simp only [Option.some.injEq] at h
      subst h
      exact List.mem_cons_self _ _
    | some b =>
      rw [hc] at h
      simp only at h
      by_cases hcl : a.closer x b = true
      · rw [if_pos hcl] at h
        simp only [Option.some.injEq] at h
        subst h
        exact List.mem_cons_self _ _
      · rw [if_neg hcl] at h
        simp only [Option.some.injEq] at h
        subst h
        exact List.mem_cons_of_mem _ (ih _ hc)

/-- A non-empty list has a preferred numeral. -/
theorem closest_isSome (x : ℚ) (l : List Decimal) (h : l ≠ []) :
    ∃ d, closest x l = some d := by
  cases l with
  | nil => exact absurd rfl h
  | cons a t =>
    unfold closest
    cases closest x t with
    | none => exact ⟨_, rfl⟩
    | some b =>
      simp only
      by_cases hcl : a.closer x b = true
      · exact ⟨_, if_pos hcl⟩
      · exact ⟨_, if_neg hcl⟩

/-- What membership in the candidate list says. -/
theorem mem_candidatesAt (x : ℚ) (k : ℕ) (d : Decimal) (h : d ∈ candidatesAt x k) :
    roundToDouble d.value = .fin x ∧ d.k = k ∧ 10 ^ (k - 1) ≤ d.s ∧ d.s < 10 ^ k
      ∧ Int.log 10 x ≤ d.n ∧ d.n ≤ Int.log 10 x + 2 := by
  unfold candidatesAt at h
  simp only [List.mem_filter, List.mem_flatMap, List.mem_map, Bool.and_eq_true,
    decide_eq_true_eq] at h
  obtain ⟨⟨n, hn, s, _, hd⟩, ⟨hlo, hhi⟩, hread⟩ := h
  have hk : d.k = k := by rw [← hd]
  have hdn : d.n = n := by rw [← hd]
  refine ⟨hread, hk, hlo, hhi, ?_, ?_⟩
  · rw [hdn]
    simp only [List.mem_cons, List.mem_singleton, List.mem_nil_iff, or_false] at hn
    rcases hn with h | h | h <;> omega
  · rw [hdn]
    simp only [List.mem_cons, List.mem_singleton, List.mem_nil_iff, or_false] at hn
    rcases hn with h | h | h <;> omega

/-- The numeral chosen for `x` is a candidate for some number of digits from 1 to 17. -/
theorem shortestDecimal_mem (x : ℚ) (d : Decimal) (h : shortestDecimal x = some d) :
    ∃ k, 1 ≤ k ∧ k ≤ 17 ∧ d ∈ candidatesAt x k := by
  unfold shortestDecimal at h
  obtain ⟨k, hk, hc⟩ := List.exists_of_findSome?_eq_some h
  rw [List.mem_range'_1] at hk
  exact ⟨k, hk.1, by omega, closest_mem x _ d hc⟩


/-- The digit characters are read as their digits. -/
theorem digitValue_digitChar (d : ℕ) (h : d < 10) : digitValue? (Nat.digitChar d) = some d := by
  interval_cases d <;> rfl

/-- Reading two runs in a row. -/
theorem readDigits_append (a b : List Char) (acc : ℕ) :
    readDigits (a ++ b) acc = (readDigits a acc).bind (readDigits b) := by
  induction a generalizing acc with
  | nil => simp [readDigits]
  | cons c cs ih =>
    simp only [List.cons_append, readDigits]
    cases digitValue? c with
    | none => simp
    | some d => simp only; exact ih _

/-- Reading a run of zeros. -/
theorem readDigits_zeros (z acc : ℕ) :
    readDigits (List.replicate z '0') acc = some (acc * 10 ^ z) := by
  induction z generalizing acc with
  | zero => simp [readDigits]
  | succ z ih =>
    have h0 : digitValue? '0' = some 0 := rfl
    simp only [List.replicate_succ, readDigits, h0]
    rw [ih]
    congr 1
    ring

/-- Reading the characters of a list of digits given least significant first. -/
theorem readDigits_digits (l : List ℕ) (hl : ∀ d ∈ l, d < 10) (acc : ℕ) :
    readDigits (l.reverse.map Nat.digitChar) acc
      = some (acc * 10 ^ l.length + Nat.ofDigits 10 l) := by
  induction l generalizing acc with
  | nil => simp [readDigits]
  | cons d t ih =>
    have hd : d < 10 := hl d (List.mem_cons_self _ _)
    have ht : ∀ e ∈ t, e < 10 := fun e he => hl e (List.mem_cons_of_mem _ he)
    rw [List.reverse_cons, List.map_append, readDigits_append, ih ht]
    simp only [List.map_cons, List.map_nil, Option.some_bind, readDigits,
      digitValue_digitChar d hd, Nat.ofDigits_cons, List.length_cons]
    congr 1
    ring

/-- Reading the decimal digits of a number gives the number back. -/
theorem readDigits_decimalDigits (s : ℕ) : readDigits (decimalDigits s) 0 = some s := by
  unfold decimalDigits
  by_cases h : s = 0
  · subst h
    rfl
  · rw [if_neg h, readDigits_digits _ (fun d hd => Nat.digits_lt_base (by norm_num) hd)]
    simp [Nat.ofDigits_digits]

/-- The decimal digits of a number are not empty. -/
theorem decimalDigits_ne_nil (s : ℕ) : decimalDigits s ≠ [] := by
  unfold decimalDigits
  by_cases h : s = 0
  · rw [if_pos h]; simp
  · rw [if_neg h]
    simp [Nat.digits_ne_nil_iff_ne_zero, h]

/-- A run with a character that is not a digit is not read. -/
theorem readDigits_of_mem (c : Char) (hc : digitValue? c = none) (l : List Char)
    (h : c ∈ l) (acc : ℕ) : readDigits l acc = none := by
  induction l generalizing acc with
  | nil => simp at h
  | cons a t ih =>
    simp only [readDigits]
    cases ha : digitValue? a with
    | none => rfl
    | some d =>
      simp only
      rcases List.mem_cons.mp h with h1 | h1
      · rw [← h1, hc] at ha
        exact absurd ha (by simp)
      · exact ih h1 _

/-- The amount of a text is what reading its characters gives. -/
theorem transactionValue_mk (l : List Char) (a : ℕ) (h : transactionValue? (String.mk l) = some a) :
    readDigits l 0 = some a := by
  unfold transactionValue? at h
  cases l with
  | nil => simp at h
  | cons c cs => exact h

/-- A non-empty text that reads as digits has the amount read. -/
theorem transactionValue_of_readDigits (l : List Char) (a : ℕ) (hl : l ≠ [])
    (h : readDigits l 0 = some a) : transactionValue? (String.mk l) = some a := by
  unfold transactionValue?
  cases l with
  | nil => exact absurd rfl hl
  | cons c cs => exact h

/-- A text with a character that is not a digit has no amount. -/
theorem transactionValue_of_mem (c : Char) (hc : digitValue? c = none) (l : List Char)
    (h : c ∈ l) : transactionValue? (String.mk l) = none := by
  unfold transactionValue?
  cases l with
  | nil => rfl
  | cons a t => exact readDigits_of_mem c hc _ h 0

/-- The text of a numeral has an amount only in the integer layout, and the amount is
the significand followed by the zeros that fill up to the decimal point. -/
theorem transactionValue_render (d : Decimal) (a : ℕ)
    (h : transactionValue? d.render = some a) :
    (d.k : ℤ) ≤ d.n ∧ d.n ≤ 21 ∧ a = d.s * 10 ^ (d.n - (d.k : ℤ)).toNat := by
  have hpoint : digitValue? '.' = none := by decide
  have hexp : digitValue? 'e' = none := by decide
  unfold Decimal.render at h
  simp only at h
  by_cases h1 : (d.k : ℤ) ≤ d.n ∧ d.n ≤ 21
  · rw [if_pos h1] at h
    have := transactionValue_mk _ _ h
    rw [readDigits_append, readDigits_decimalDigits, Option.some_bind, readDigits_zeros] at this
    exact ⟨h1.1, h1.2, (Option.some.inj this).symm⟩
  · rw [if_neg h1] at h
    exfalso
    by_cases h2 : 0 < d.n ∧ d.n ≤ 21
    · rw [if_pos h2, transactionValue_of_mem '.' hpoint _ (by simp)] at h
      exact absurd h (by simp)
    · rw [if_neg h2] at h
      by_cases h3 : -6 < d.n ∧ d.n ≤ 0
      · rw [if_pos h3, transactionValue_of_mem '.' hpoint _ (by simp)] at h
        exact absurd h (by simp)
      · rw [if_neg h3] at h
        by_cases h4 : d.k = 1
        · rw [if_pos h4, transactionValue_of_mem 'e' hexp _ (by simp)] at h
          exact absurd h (by simp)
        · rw [if_neg h4, transactionValue_of_mem 'e' hexp _ (by simp)] at h
          exact absurd h (by simp)

/-- In the integer layout the text of a numeral has the amount it denotes. -/
theorem transactionValue_render_integer (d : Decimal) (h1 : (d.k : ℤ) ≤ d.n) (h2 : d.n ≤ 21) :
    transactionValue? d.render = some (d.s * 10 ^ (d.n - (d.k : ℤ)).toNat) := by
  unfold Decimal.render
  simp only
  rw [if_pos ⟨h1, h2⟩]
  apply transactionValue_of_readDigits
  · simp [decimalDigits_ne_nil]
  · rw [readDigits_append, readDigits_decimalDigits, Option.some_bind, readDigits_zeros]

/-- The value of a numeral in the integer layout. -/
theorem value_of_integer_layout (d : Decimal) (h1 : (d.k : ℤ) ≤ d.n) :
    d.value = ((d.s * 10 ^ (d.n - (d.k : ℤ)).toNat : ℕ) : ℚ) := by
  unfold Decimal.value
  have : d.n - (d.k : ℤ) = (((d.n - (d.k : ℤ)).toNat : ℕ) : ℤ) :=
    (Int.toNat_of_nonneg (by omega)).symm
  nth_rewrite 1 [this]
  rw [zpow_natCast]
  push_cast
  ring


/-- From `2^53` on, rounding does not go below `2^53`. -/
theorem two_pow_le_roundToDouble (q : ℚ) (h : (2 : ℚ) ^ (53 : ℤ) ≤ q) :
    roundToDouble q = .posInf ∨ ∃ r : ℚ, roundToDouble q = .fin r ∧ (2 : ℚ) ^ (53 : ℤ) ≤ r := by
  have hqpos : 0 < q := lt_of_lt_of_le (two_zpow_pos 53) h
  have hlog : 53 ≤ Int.log 2 q := le_log_of_zpow_le q hqpos 53 h
  have hulp := ulpExponent_of_pos q hqpos (by omega)
  have hR : (2 : ℚ) ^ (53 : ℤ)
      ≤ (roundHalfEven (q / (2 : ℚ) ^ ulpExponent q) : ℚ) * (2 : ℚ) ^ ulpExponent q := by
    rw [hulp]
    have hlo := zpow_log_le q hqpos
    have hsplit : (2 : ℚ) ^ Int.log 2 q
        = ((2 ^ 52 : ℤ) : ℚ) * (2 : ℚ) ^ (Int.log 2 q - 52) := by
      have : Int.log 2 q = 52 + (Int.log 2 q - 52) := by ring
      nth_rewrite 1 [this]
      rw [zpow_add₀ (by norm_num : (2 : ℚ) ≠ 0)]
      norm_num
    have := scaled_round_ge q (Int.log 2 q - 52) (2 ^ 52) (by rw [← hsplit]; exact hlo)
    rw [← hsplit] at this
    have h53 : (2 : ℚ) ^ (53 : ℤ) ≤ (2 : ℚ) ^ Int.log 2 q :=
      zpow_le_zpow_right₀ (by norm_num) hlog
    linarith
  unfold roundToDouble
  simp only []
  by_cases hover : (2 : ℚ) ^ (1024 : ℤ)
      ≤ (roundHalfEven (q / (2 : ℚ) ^ ulpExponent q) : ℚ) * (2 : ℚ) ^ ulpExponent q
  · left
    rw [if_pos hover]
  · right
    rw [if_neg hover, if_neg (by linarith [two_zpow_pos 1024, two_zpow_pos 53])]
    exact ⟨_, rfl, hR⟩

/-- A natural number that rounds to a value below `2^53` is that value. -/
theorem natCast_of_roundToDouble (a : ℕ) (x : ℚ) (hx : x < (2 : ℚ) ^ (53 : ℤ))
    (h : roundToDouble (a : ℚ) = .fin x) : (a : ℚ) = x := by
  by_cases ha : a < 2 ^ 53
  · rw [roundToDouble_of_isBinary64 _ (isBinary64_natCast a ha)] at h
    exact JSNumber.fin.inj h
  · exfalso
    have hge : (2 : ℚ) ^ (53 : ℤ) ≤ (a : ℚ) := by
      have : ((2 ^ 53 : ℕ) : ℚ) ≤ ((a : ℕ) : ℚ) := by exact_mod_cast not_lt.mp ha
      calc (2 : ℚ) ^ (53 : ℤ) = ((2 ^ 53 : ℕ) : ℚ) := by norm_num
        _ ≤ (a : ℚ) := this
    rcases two_pow_le_roundToDouble _ hge with h1 | ⟨r, h1, h2⟩
    · rw [h1] at h
      exact absurd h (by simp)
    · rw [h1] at h
      have := JSNumber.fin.inj h
      linarith

/-- The amount that ethers reads from `String(v)` rounds to `v`. -/
theorem transactionValue_numberToString (v : JSNumber) (a : ℕ)
    (h : transactionValue? (numberToString v) = some a) : roundToDouble (a : ℚ) = v := by
  have hminus : digitValue? '-' = none := by decide
  cases v with
  | nan =>
    have hn : transactionValue? (numberToString .nan) = none := by decide
    rw [hn] at h
    exact absurd h (by simp)
  | posInf =>
    have hn : transactionValue? (numberToString .posInf) = none := by decide
    rw [hn] at h
    exact absurd h (by simp)
  | negInf =>
    have hn : transactionValue? (numberToString .negInf) = none := by decide
    rw [hn] at h
    exact absurd h (by simp)
  | fin q =>
    simp only [numberToString] at h
    by_cases h0 : q = 0
    · rw [if_pos h0] at h
      have hz : transactionValue? "0" = some 0 := by decide
      rw [hz] at h
      have : a = 0 := (Option.some.inj h).symm
      subst this
      subst h0
      simpa using roundToDouble_intCast 0 (by norm_num)
    · rw [if_neg h0] at h
      by_cases hneg : q < 0
      · exfalso
        rw [if_pos hneg] at h
        unfold transactionValue? at h
        rw [String.data_append] at h
        have hd : ("-" : String).data = ['-'] := rfl
        rw [hd] at h
        simp only [List.singleton_append] at h
        rw [readDigits_of_mem '-' hminus _ (List.mem_cons_self _ _)] at h
        exact absurd h (by simp)
      · rw [if_neg hneg] at h
        have hpos : 0 < q := lt_of_le_of_ne (not_lt.mp hneg) (Ne.symm h0)
        rw [abs_of_pos hpos] at h
        cases hs : shortestDecimal q with
        | none =>
          rw [hs] at h
          have hn : transactionValue? "" = none := by decide
          simp only at h
          rw [hn] at h
          exact absurd h (by simp)
        | some d =>
          rw [hs] at h
          simp only at h
          obtain ⟨h1, _, ha⟩ := transactionValue_render d a h
          obtain ⟨k, _, _, hmem⟩ := shortestDecimal_mem q d hs
          have hread := (mem_candidatesAt q k d hmem).1
          rw [value_of_integer_layout d h1, ← ha] at hread
          exact hread

/-- A finite result of rounding is the scaled nearest integer. -/
theorem fin_of_roundToDouble (q r : ℚ) (h : roundToDouble q = .fin r) :
    r = (roundHalfEven (q / (2 : ℚ) ^ ulpExponent q) : ℚ) * (2 : ℚ) ^ ulpExponent q := by
  unfold roundToDouble at h
  simp only [] at h
  split_ifs at h
  exact (JSNumber.fin.inj h).symm

/-- A value at least a tenth below a natural `N ≤ 2^50` rounds below `N`. -/
theorem roundToDouble_lt_of_le_sub_tenth (q r : ℚ) (N : ℕ) (hN : N ≤ 2 ^ 50)
    (h1 : 1 / 10 ≤ q) (h2 : q ≤ (N : ℚ) - 1 / 10) (h : roundToDouble q = .fin r) :
    r < (N : ℚ) := by
  have hqpos : 0 < q := by linarith
  have hN50 : (N : ℚ) ≤ (2 : ℚ) ^ (50 : ℤ) := by
    have : ((N : ℕ) : ℚ) ≤ ((2 ^ 50 : ℕ) : ℚ) := by exact_mod_cast hN
    calc (N : ℚ) ≤ ((2 ^ 50 : ℕ) : ℚ) := this
      _ = (2 : ℚ) ^ (50 : ℤ) := by norm_num
  have hlo : -4 ≤ Int.log 2 q :=
    le_log_of_zpow_le q hqpos (-4) (by
      have : (2 : ℚ) ^ (-4 : ℤ) = 1 / 16 := by norm_num
      rw [this]; linarith)
  have hhi : Int.log 2 q < 50 := log_lt_of_lt_zpow q hqpos 50 (by linarith)
  have hulp := ulpExponent_of_pos q hqpos (by omega)
  rw [fin_of_roundToDouble q r h, hulp]
  obtain ⟨K, hK⟩ := int_multiple_of_nonpos (N : ℤ) (Int.log 2 q - 52) (by omega)
  have hK2 : (N : ℚ) = (K : ℚ) * (2 : ℚ) ^ (Int.log 2 q - 52) := by
    rw [← hK]; norm_cast
  have hstep : (2 : ℚ) ^ (Int.log 2 q - 52) ≤ (2 : ℚ) ^ (-3 : ℤ) :=
    zpow_le_zpow_right₀ (by norm_num) (by omega)
  have h3 : (2 : ℚ) ^ (-3 : ℤ) = 1 / 8 := by norm_num
  rw [h3] at hstep
  have hepos := two_zpow_pos (Int.log 2 q - 52)
  have := scaled_round_lt q (Int.log 2 q - 52) K (by rw [← hK2]; linarith)
  rw [← hK2] at this
  linarith

/-- The search over the digit counts stops at the first count with a numeral. -/
theorem findSome_range_le {β : Type} (f : ℕ → Option β) (k0 : ℕ) (h1 : 1 ≤ k0)
    (h17 : k0 ≤ 17) (b : β) (hk : f k0 = some b) :
    ∃ k d, 1 ≤ k ∧ k ≤ k0 ∧ f k = some d ∧ (List.range' 1 17).findSome? f = some d := by
  have hsplit : List.range' 1 17 = List.range' 1 k0 ++ List.range' (1 + k0) (17 - k0) := by
    have := List.range'_append 1 k0 (17 - k0) 1
    rw [Nat.one_mul] at this
    rw [this]
    congr 1
    omega
  cases hfirst : (List.range' 1 k0).findSome? f with
  | none =>
    exfalso
    rw [List.findSome?_eq_none_iff] at hfirst
    have := hfirst k0 (by rw [List.mem_range'_1]; omega)
    rw [hk] at this
    exact absurd this (by simp)
  | some d =>
    obtain ⟨k, hkmem, hfk⟩ := List.exists_of_findSome?_eq_some hfirst
    rw [List.mem_range'_1] at hkmem
    refine ⟨k, d, hkmem.1, by omega, hfk, ?_⟩
    rw [hsplit, List.findSome?_append, hfirst]
    rfl

/-- The decimal exponent of a positive natural below `2^53`. -/
theorem log_ten_natCast (x : ℕ) (h0 : 0 < x) (h53 : x < 2 ^ 53) :
    0 ≤ Int.log 10 (x : ℚ) ∧ Int.log 10 (x : ℚ) ≤ 15
      ∧ 10 ^ (Int.log 10 (x : ℚ)).toNat ≤ x ∧ x < 10 ^ ((Int.log 10 (x : ℚ)).toNat + 1) := by
  have hxpos : (0 : ℚ) < (x : ℚ) := by exact_mod_cast h0
  have hlo : (0 : ℤ) ≤ Int.log 10 (x : ℚ) := by
    rw [← Int.zpow_le_iff_le_log (by norm_num) hxpos]
    simpa using (show (1 : ℚ) ≤ (x : ℚ) by exact_mod_cast h0)
  have hhi : Int.log 10 (x : ℚ) < 16 := by
    rw [← Int.lt_zpow_iff_log_lt (by norm_num) hxpos]
    have : ((x : ℕ) : ℚ) < ((10 ^ 16 : ℕ) : ℚ) := by
      have : x < 10 ^ 16 := lt_trans h53 (by norm_num)
      exact_mod_cast this
    calc (x : ℚ) < ((10 ^ 16 : ℕ) : ℚ) := this
      _ = ((10 : ℕ) : ℚ) ^ (16 : ℤ) := by norm_num
  have hE : Int.log 10 (x : ℚ) = (((Int.log 10 (x : ℚ)).toNat : ℕ) : ℤ) :=
    (Int.toNat_of_nonneg hlo).symm
  have h1 := Int.zpow_log_le_self (by norm_num : 1 < 10) hxpos
  have h2 := Int.lt_zpow_succ_log_self (by norm_num : 1 < 10) (x : ℚ)
  refine ⟨hlo, by omega, ?_, ?_⟩
  · rw [hE, zpow_natCast] at h1
    exact_mod_cast h1
  · have hE1 : Int.log 10 (x : ℚ) + 1 = ((((Int.log 10 (x : ℚ)).toNat + 1 : ℕ)) : ℤ) := by
      push_cast; omega
    rw [hE1, zpow_natCast] at h2
    exact_mod_cast h2


/-- The numeral whose digits are those of a positive natural `x` below `2^53` is a
candidate for `x`. -/
theorem natCast_mem_candidatesAt (x : ℕ) (h0 : 0 < x) (h53 : x < 2 ^ 53) :
    (⟨x, (Int.log 10 (x : ℚ)).toNat + 1, Int.log 10 (x : ℚ) + 1⟩ : Decimal)
      ∈ candidatesAt (x : ℚ) ((Int.log 10 (x : ℚ)).toNat + 1) := by
  obtain ⟨hlo, _, hge, hlt⟩ := log_ten_natCast x h0 h53
  have hsub : Int.log 10 (x : ℚ) + 1 - (((Int.log 10 (x : ℚ)).toNat + 1 : ℕ) : ℤ) = 0 := by
    push_cast; omega
  unfold candidatesAt
  simp only [List.mem_filter, List.mem_flatMap, List.mem_map, Bool.and_eq_true,
    decide_eq_true_eq]
  refine ⟨⟨Int.log 10 (x : ℚ) + 1, by simp, x, ?_, rfl⟩, ⟨?_, hlt⟩, ?_⟩
  · rw [hsub]
    simp
  · simpa using hge
  · unfold Decimal.value
    simp only
    rw [hsub]
    simp only [zpow_zero, mul_one]
    exact roundToDouble_of_isBinary64 _ (isBinary64_natCast x h53)

/-- For a natural `x` below `2^53` the text `String(x)` is read by ethers as `x`. -/
theorem transactionValue_natCast (x : ℕ) (h53 : x < 2 ^ 53) :
    transactionValue? (numberToString (.fin (x : ℚ))) = some x := by
  by_cases h0 : x = 0
  · subst h0
    simp only [numberToString, Nat.cast_zero, if_true]
    decide
  have hpos : 0 < x := Nat.pos_of_ne_zero h0
  have hxpos : (0 : ℚ) < (x : ℚ) := by exact_mod_cast hpos
  obtain ⟨hlo, hhi, hge, hlt⟩ := log_ten_natCast x hpos h53
  obtain ⟨b, hb⟩ := closest_isSome (x : ℚ) _
    (List.ne_nil_of_mem (natCast_mem_candidatesAt x hpos h53))
  obtain ⟨k, d, hk1, hk0, hfk, hfound⟩ := findSome_range_le
    (fun k => closest (x : ℚ) (candidatesAt (x : ℚ) k))
    ((Int.log 10 (x : ℚ)).toNat + 1) (by omega) (by omega) b hb
  have hs : shortestDecimal (x : ℚ) = some d := hfound
  obtain ⟨hread, hdk, hslo, hshi, hnlo, hnhi⟩ :=
    mem_candidatesAt (x : ℚ) k d (closest_mem _ _ _ hfk)
  have hx53 : (x : ℚ) < (2 : ℚ) ^ (53 : ℤ) := by
    have : ((x : ℕ) : ℚ) < ((2 ^ 53 : ℕ) : ℚ) := by exact_mod_cast h53
    calc (x : ℚ) < ((2 ^ 53 : ℕ) : ℚ) := this
      _ = (2 : ℚ) ^ (53 : ℤ) := by norm_num
  have hkn : (d.k : ℤ) ≤ d.n := by
    by_contra hcon
    have hn : d.n = Int.log 10 (x : ℚ) := by omega
    have hkE : k = (Int.log 10 (x : ℚ)).toNat + 1 := by omega
    have hval : d.value = (d.s : ℚ) / 10 := by
      unfold Decimal.value
      have : d.n - (d.k : ℤ) = -1 := by rw [hn, hdk, hkE]; push_cast; omega
      rw [this]
      norm_num
      ring
    have hs1 : (1 : ℚ) ≤ (d.s : ℚ) := by
      have : 1 ≤ d.s := le_trans (Nat.one_le_pow _ _ (by norm_num)) hslo
      exact_mod_cast this
    have hs2 : (d.s : ℚ) + 1 ≤ 10 * ((10 ^ (Int.log 10 (x : ℚ)).toNat : ℕ) : ℚ) := by
      have : d.s + 1 ≤ 10 * 10 ^ (Int.log 10 (x : ℚ)).toNat := by
        rw [hkE, pow_succ] at hshi
        omega
      exact_mod_cast this
    have hN : 10 ^ (Int.log 10 (x : ℚ)).toNat ≤ 2 ^ 50 := by
      have : (Int.log 10 (x : ℚ)).toNat ≤ 15 := by omega
      calc 10 ^ (Int.log 10 (x : ℚ)).toNat ≤ 10 ^ 15 := Nat.pow_le_pow_right (by norm_num) this
        _ ≤ 2 ^ 50 := by norm_num
    have := roundToDouble_lt_of_le_sub_tenth d.value (x : ℚ)
      (10 ^ (Int.log 10 (x : ℚ)).toNat) hN (by rw [hval]; linarith) (by rw [hval]; linarith)
      hread
    have hge2 : ((10 ^ (Int.log 10 (x : ℚ)).toNat : ℕ) : ℚ) ≤ (x : ℚ) := by exact_mod_cast hge
    linarith
  have hn21 : d.n ≤ 21 := by omega
  have hval := value_of_integer_layout d hkn
  rw [hval] at hread
  have heq := natCast_of_roundToDouble _ (x : ℚ) hx53 hread
  have heq2 : d.s * 10 ^ (d.n - (d.k : ℤ)).toNat = x := by exact_mod_cast heq
  simp only [numberToString]
  rw [if_neg (by exact_mod_cast h0), abs_of_pos hxpos, hs, if_neg (by linarith)]
  simp only
  rw [transactionValue_render_integer d hkn hn21, heq2]

/-- The payouts of a run that ends in the winner notification and, when the send
resolves, the payout request. -/
theorem payouts_winner (caption : Caption) (recipient : Address) (value : String)
    (sendOk : Bool) (a : Address) (amount : Nat) :
    (a, amount) ∈ payouts (Effect.generating :: Effect.sendAnimation .gifWinner caption ::
        (if sendOk then [Effect.sendTransaction recipient value] else []))
      ↔ (a = recipient ∧ sendOk = true ∧ transactionValue? value = some amount) := by
  cases sendOk with
  | false => simp [payouts]
  | true =>
    simp only [if_true, payouts]
    cases hv : transactionValue? value with
    | none => simp [payouts]
    | some b =>
      simp only [payouts, List.mem_singleton, Prod.mk.injEq, Option.some.injEq, true_and]
      constructor
      · rintro ⟨h1, h2⟩
        exact ⟨h1, h2.symm⟩
      · rintro ⟨h1, h2⟩
        exact ⟨h1, h2.symm⟩

/-- A run whose payout request carries a text that ethers refuses submits no payout. -/
theorem payouts_refused (caption : Caption) (recipient : Address) (value : String)
    (h : transactionValue? value = none) :
    payouts [Effect.generating, Effect.sendAnimation .gifWinner caption,
      Effect.sendTransaction recipient value] = [] := by
  simp only [payouts, h]

/-- Below `2^53` the text `String(Number(balance) / 2)` is read by ethers as half the
balance when the balance is even, and is refused when it is odd. -/
theorem transactionValue_half (hotWalletBalance : Nat) (h53 : hotWalletBalance < 2 ^ 53) :
    (hotWalletBalance % 2 = 0 →
        transactionValue? (numberToString ((ofBigInt hotWalletBalance).divBy 2))
          = some (hotWalletBalance / 2))
    ∧ (hotWalletBalance % 2 = 1 →
        transactionValue? (numberToString ((ofBigInt hotWalletBalance).divBy 2)) = none) := by
  have hexact := actualPot_exact hotWalletBalance (isBinary64_natCast _ h53)
  constructor
  · intro heven
    have hhalf : (hotWalletBalance : ℚ) / 2 = ((hotWalletBalance / 2 : ℕ) : ℚ) := by
      have : hotWalletBalance = 2 * (hotWalletBalance / 2) := by omega
      nth_rewrite 1 [this]
      push_cast
      ring
    rw [hexact, hhalf]
    exact transactionValue_natCast _ (by omega)
  · intro hodd
    cases hv : transactionValue? (numberToString ((ofBigInt hotWalletBalance).divBy 2)) with
    | none => rfl
    | some a =>
      exfalso
      have hread := transactionValue_numberToString _ a hv
      rw [hexact] at hread
      have hlt : (hotWalletBalance : ℚ) / 2 < (2 : ℚ) ^ (53 : ℤ) := by
        have : ((hotWalletBalance : ℕ) : ℚ) < ((2 ^ 53 : ℕ) : ℚ) := by exact_mod_cast h53
        have h2 : ((2 ^ 53 : ℕ) : ℚ) = (2 : ℚ) ^ (53 : ℤ) := by norm_num
        rw [h2] at this
        linarith [two_zpow_pos 53]
      have heq := natCast_of_roundToDouble a _ hlt hread
      have : (hotWalletBalance : ℚ) = ((2 * a : ℕ) : ℚ) := by
        push_cast; linarith
      have : hotWalletBalance = 2 * a := by exact_mod_cast this
      omega


/-- A digit followed by at most 21 zeros is a binary64 value. -/
theorem isBinary64_digit_zeros (t i : ℕ) (ht : t < 10) (hi : i ≤ 21) :
    IsBinary64 ((t * 10 ^ i : ℕ) : ℚ) := by
  refine ⟨(t * 5 ^ i : ℕ), (i : ℤ), ?_, by omega, by omega, ?_⟩
  · rw [abs_of_nonneg (by positivity)]
    have h5 : 5 ^ i ≤ 5 ^ 21 := Nat.pow_le_pow_right (by norm_num) hi
    have : t * 5 ^ i < 2 ^ 53 := by
      calc t * 5 ^ i ≤ 9 * 5 ^ 21 := Nat.mul_le_mul (by omega) h5
        _ < 2 ^ 53 := by norm_num
    exact_mod_cast this
  · rw [zpow_natCast]
    push_cast
    rw [show (10 : ℚ) = 5 * 2 by norm_num, mul_pow]
    ring

/-- The decimal exponent of a digit followed by `j` zeros is `j`. -/
theorem log_ten_digit_zeros (s j : ℕ) (hs1 : 1 ≤ s) (hs : s ≤ 9) :
    Int.log 10 ((s * 10 ^ j : ℕ) : ℚ) = (j : ℤ) := by
  have hpos : (0 : ℚ) < ((s * 10 ^ j : ℕ) : ℚ) := by
    have : 0 < s * 10 ^ j := Nat.mul_pos (by omega) (by positivity)
    exact_mod_cast this
  apply le_antisymm
  · have : Int.log 10 ((s * 10 ^ j : ℕ) : ℚ) < (j : ℤ) + 1 := by
      rw [← Int.lt_zpow_iff_log_lt (by norm_num) hpos]
      have h : s * 10 ^ j < 10 ^ (j + 1) := by
        rw [pow_succ, mul_comm (10 ^ j) 10]
        exact Nat.mul_lt_mul_of_pos_right (by omega) (by positivity)
      have h2 : ((s * 10 ^ j : ℕ) : ℚ) < ((10 ^ (j + 1) : ℕ) : ℚ) := by exact_mod_cast h
      calc ((s * 10 ^ j : ℕ) : ℚ) < ((10 ^ (j + 1) : ℕ) : ℚ) := h2
        _ = ((10 : ℕ) : ℚ) ^ ((j : ℤ) + 1) := by
          rw [show ((j : ℤ) + 1) = ((j + 1 : ℕ) : ℤ) by push_cast; ring, zpow_natCast]
          push_cast
          ring
    omega
  · rw [← Int.zpow_le_iff_le_log (by norm_num) hpos, zpow_natCast]
    have h : 10 ^ j ≤ s * 10 ^ j := Nat.le_mul_of_pos_left _ (by omega)
    exact_mod_cast h

/-- The text of a pot that is a digit followed by 1 to 19 zeros is read by ethers as
that pot. -/
theorem transactionValue_digit_zeros (s j : ℕ) (hs1 : 1 ≤ s) (hs : s ≤ 9) (hj1 : 1 ≤ j)
    (hj : j ≤ 19) :
    transactionValue? (numberToString (.fin ((s * 10 ^ j : ℕ) : ℚ))) = some (s * 10 ^ j) := by
  have hnat : 0 < s * 10 ^ j := Nat.mul_pos (by omega) (by positivity)
  have hpos : (0 : ℚ) < ((s * 10 ^ j : ℕ) : ℚ) := by exact_mod_cast hnat
  have hlog := log_ten_digit_zeros s j hs1 hs
  have hmem : (⟨s, 1, (j : ℤ) + 1⟩ : Decimal) ∈ candidatesAt ((s * 10 ^ j : ℕ) : ℚ) 1 := by
    unfold candidatesAt
    simp only [List.mem_filter, List.mem_flatMap, List.mem_map, Bool.and_eq_true,
      decide_eq_true_eq]
    have hsub : (j : ℤ) + 1 - ((1 : ℕ) : ℤ) = (j : ℤ) := by push_cast; ring
    refine ⟨⟨(j : ℤ) + 1, by rw [hlog]; simp, s, ?_, rfl⟩, ⟨by simpa using hs1, by omega⟩, ?_⟩
    · rw [hsub, zpow_natCast]
      have : ((s * 10 ^ j : ℕ) : ℚ) / (10 : ℚ) ^ j = (s : ℚ) := by
        push_cast
        field_simp
      rw [this]
      simp
    · unfold Decimal.value
      simp only
      rw [hsub, zpow_natCast]
      have : (s : ℚ) * (10 : ℚ) ^ j = ((s * 10 ^ j : ℕ) : ℚ) := by push_cast; ring
      rw [this]
      exact roundToDouble_of_isBinary64 _ (isBinary64_digit_zeros s j (by omega) (by omega))
  obtain ⟨b, hb⟩ := closest_isSome ((s * 10 ^ j : ℕ) : ℚ) _ (List.ne_nil_of_mem hmem)
  obtain ⟨k, d, hk1, hk0, hfk, hfound⟩ := findSome_range_le
    (fun k => closest ((s * 10 ^ j : ℕ) : ℚ) (candidatesAt ((s * 10 ^ j : ℕ) : ℚ) k))
    1 (by omega) (by omega) b hb
  have hs2 : shortestDecimal ((s * 10 ^ j : ℕ) : ℚ) = some d := hfound
  have hk : k = 1 := by omega
  subst hk
  obtain ⟨hread, hdk, hslo, hshi, hnlo, hnhi⟩ := mem_candidatesAt _ 1 d (closest_mem _ _ _ hfk)
  rw [hlog] at hnlo hnhi
  have hkn : (d.k : ℤ) ≤ d.n := by rw [hdk]; push_cast; omega
  have hn21 : d.n ≤ 21 := by omega
  have hval := value_of_integer_layout d hkn
  rw [hval] at hread
  have hexp : (d.n - (d.k : ℤ)).toNat ≤ 21 := by rw [hdk]; push_cast; omega
  rw [roundToDouble_of_isBinary64 _
    (isBinary64_digit_zeros d.s _ (by simpa using hshi) hexp)] at hread
  have heq : ((d.s * 10 ^ (d.n - (d.k : ℤ)).toNat : ℕ) : ℚ) = ((s * 10 ^ j : ℕ) : ℚ) :=
    JSNumber.fin.inj hread
  have heq2 : d.s * 10 ^ (d.n - (d.k : ℤ)).toNat = s * 10 ^ j := by exact_mod_cast heq
  simp only [numberToString]
  rw [if_neg (ne_of_gt hpos), abs_of_pos hpos, hs2, if_neg (by linarith)]
  simp only
  rw [transactionValue_render_integer d hkn hn21, heq2]

/-- With one ether in the hot wallet the payout request is read as half an ether. -/
theorem transactionValue_sample :
    transactionValue? (numberToString ((ofBigInt 1000000000000000000).divBy 2))
      = some 500000000000000000 := by
  have h18 : IsBinary64 ((1000000000000000000 : ℕ) : ℚ) := by
    have := isBinary64_digit_zeros 1 18 (by norm_num) (by norm_num)
    have hc : (1 * 10 ^ 18 : ℕ) = 1000000000000000000 := by norm_num
    rw [hc] at this
    exact this
  have hpot : ((1000000000000000000 : ℕ) : ℚ) / 2 = ((5 * 10 ^ 17 : ℕ) : ℚ) := by norm_num
  have hc2 : (5 * 10 ^ 17 : ℕ) = 500000000000000000 := by norm_num
  rw [actualPot_exact _ h18, hpot, transactionValue_digit_zeros 5 17 (by norm_num)
    (by norm_num) (by norm_num) (by norm_num), hc2]

/-- An amount read from the text of a positive number is read from the text of its
numeral. -/
theorem transactionValue_pos (x : ℚ) (hx : 0 < x) (a : ℕ)
    (h : transactionValue? (numberToString (.fin x)) = some a) :
    ∃ d, shortestDecimal x = some d ∧ transactionValue? d.render = some a := by
  simp only [numberToString] at h
  rw [if_neg (ne_of_gt hx), if_neg (by linarith), abs_of_pos hx] at h
  cases hs : shortestDecimal x with
  | none =>
    rw [hs] at h
    have hn : transactionValue? "" = none := by decide
    simp only at h
    rw [hn] at h
    exact absurd h (by simp)
  | some d =>
    rw [hs] at h
    exact ⟨d, rfl, h⟩

/-- A numeral has at most 17 digits, so the amount read from the text of a number with
decimal exponent at least `j + 17` ends in `j` zeros. -/
theorem transactionValue_dvd (x : ℚ) (hx : 0 < x) (a j : ℕ)
    (hj : (j : ℤ) + 17 ≤ Int.log 10 x)
    (h : transactionValue? (numberToString (.fin x)) = some a) : 10 ^ j ∣ a := by
  obtain ⟨d, hs, hd⟩ := transactionValue_pos x hx a h
  obtain ⟨_, _, ha⟩ := transactionValue_render d a hd
  obtain ⟨k, _, hk17, hmem⟩ := shortestDecimal_mem x d hs
  obtain ⟨_, hdk, _, _, hnlo, _⟩ := mem_candidatesAt x k d hmem
  have hle : j ≤ (d.n - (d.k : ℤ)).toNat := by
    rw [hdk]
    omega
  rw [ha]
  exact Dvd.dvd.mul_left (pow_dvd_pow 10 hle) d.s

/-- The amount of a payout after the winner notification is the amount read from the
text of the request. -/
theorem transactionValue_of_mem_payouts (caption : Caption) (recipient : Address)
    (value : String) (a : Address) (amount : Nat)
    (h : (a, amount) ∈ payouts [Effect.generating, Effect.sendAnimation .gifWinner caption,
      Effect.sendTransaction recipient value]) :
    transactionValue? value = some amount :=
  ((payouts_winner caption recipient value true a amount).mp h).2.2

/-- With 123456789012345683968 wei in the hot wallet, a balance that is a binary64
value, the pot is the double 61728394506172841984 and no amount read from its text is
61728394506172841984. -/
theorem transactionValue_large_sample :
    (ofBigInt 123456789012345683968).divBy 2 = .fin 61728394506172841984
    ∧ transactionValue? (numberToString ((ofBigInt 123456789012345683968).divBy 2))
        ≠ some 61728394506172841984 := by
  have hb : IsBinary64 ((123456789012345683968 : ℕ) : ℚ) :=
    ⟨7535204407491802, 14, by norm_num, by norm_num, by norm_num, by norm_num⟩
  have hpot : (ofBigInt 123456789012345683968).divBy 2 = .fin 61728394506172841984 := by
    rw [actualPot_exact _ hb]
    norm_num
  refine ⟨hpot, ?_⟩
  rw [hpot]
  intro h
  have hx : (0 : ℚ) < 61728394506172841984 := by norm_num
  have hlog : ((2 : ℕ) : ℤ) + 17 ≤ Int.log 10 (61728394506172841984 : ℚ) := by
    rw [← Int.zpow_le_iff_le_log (by norm_num) hx]
    norm_num
  have hdvd := transactionValue_dvd _ hx _ 2 hlog h
  revert hdvd
  norm_num

/-- The decimal exponent of a positive natural. -/
theorem log_ten_natCast_pos (x : ℕ) (h0 : 0 < x) :
    0 ≤ Int.log 10 (x : ℚ)
      ∧ 10 ^ (Int.log 10 (x : ℚ)).toNat ≤ x ∧ x < 10 ^ ((Int.log 10 (x : ℚ)).toNat + 1) := by
  have hxpos : (0 : ℚ) < (x : ℚ) := by exact_mod_cast h0
  have hlo : (0 : ℤ) ≤ Int.log 10 (x : ℚ) := by
    rw [← Int.zpow_le_iff_le_log (by norm_num) hxpos]
    simpa using (show (1 : ℚ) ≤ (x : ℚ) by exact_mod_cast h0)
  have hE : Int.log 10 (x : ℚ) = (((Int.log 10 (x : ℚ)).toNat : ℕ) : ℤ) :=
    (Int.toNat_of_nonneg hlo).symm
  have h1 := Int.zpow_log_le_self (by norm_num : 1 < 10) hxpos
  have h2 := Int.lt_zpow_succ_log_self (by norm_num : 1 < 10) (x : ℚ)
  refine ⟨hlo, ?_, ?_⟩
  · rw [hE, zpow_natCast] at h1
    exact_mod_cast h1
  · have hE1 : Int.log 10 (x : ℚ) + 1 = ((((Int.log 10 (x : ℚ)).toNat + 1 : ℕ)) : ℤ) := by
      push_cast; omega
    rw [hE1, zpow_natCast] at h2
    exact_mod_cast h2

/-- The numeral whose digits are those of a positive natural binary64 value `x` is a
candidate for `x`. -/
theorem digits_mem_candidatesAt (x : ℕ) (h0 : 0 < x) (hb : IsBinary64 (x : ℚ)) :
    (⟨x, (Int.log 10 (x : ℚ)).toNat + 1, Int.log 10 (x : ℚ) + 1⟩ : Decimal)
      ∈ candidatesAt (x : ℚ) ((Int.log 10 (x : ℚ)).toNat + 1) := by
  obtain ⟨hlo, hge, hlt⟩ := log_ten_natCast_pos x h0
  have hsub : Int.log 10 (x : ℚ) + 1 - (((Int.log 10 (x : ℚ)).toNat + 1 : ℕ) : ℤ) = 0 := by
    push_cast; omega
  unfold candidatesAt
  simp only [List.mem_filter, List.mem_flatMap, List.mem_map, Bool.and_eq_true,
    decide_eq_true_eq]
  refine ⟨⟨Int.log 10 (x : ℚ) + 1, by simp, x, ?_, rfl⟩, ⟨?_, hlt⟩, ?_⟩
  · rw [hsub]
    simp
  · simpa using hge
  · unfold Decimal.value
    simp only
    rw [hsub]
    simp only [zpow_zero, mul_one]
    exact roundToDouble_of_isBinary64 _ hb

/-- A natural binary64 value with at least 18 digits has a candidate numeral of 17
digits. -/
theorem exists_mem_candidatesAt_seventeen (x : ℕ) (h0 : 0 < x) (hb : IsBinary64 (x : ℚ))
    (hE : 17 ≤ Int.log 10 (x : ℚ)) : ∃ d, d ∈ candidatesAt (x : ℚ) 17 := by
  obtain ⟨hlo, hge, hlt⟩ := log_ten_natCast_pos x h0
  obtain ⟨j, hj⟩ : ∃ j : ℕ, (Int.log 10 (x : ℚ)).toNat = j + 16 :=
    ⟨(Int.log 10 (x : ℚ)).toNat - 16, by omega⟩
  have hEj : Int.log 10 (x : ℚ) = (j : ℤ) + 16 := by omega
  rw [hj] at hge hlt
  have hx1 : (1 : ℚ) ≤ (x : ℚ) := by exact_mod_cast h0
  have hupos : 0 < 10 ^ j := by positivity
  have hdiv : x = 10 ^ j * (x / 10 ^ j) + x % 10 ^ j := (Nat.div_add_mod x (10 ^ j)).symm
  have hmod : x % 10 ^ j < 10 ^ j := Nat.mod_lt _ hupos
  have hflo : 10 ^ 16 ≤ x / 10 ^ j := by
    rw [Nat.le_div_iff_mul_le hupos, ← pow_add, Nat.add_comm]
    exact hge
  have hfhi : x / 10 ^ j < 10 ^ 17 := by
    rw [Nat.div_lt_iff_lt_mul hupos, ← pow_add]
    have : j + 16 + 1 = 17 + j := by omega
    rw [this] at hlt
    exact hlt
  have hgeq : ((10 : ℚ) ^ j) * 10 ^ 16 ≤ (x : ℚ) := by
    have : ((10 ^ (j + 16) : ℕ) : ℚ) ≤ (x : ℚ) := by exact_mod_cast hge
    rw [pow_add] at this
    push_cast at this
    exact this
  have hdivq : (x : ℚ) = (10 : ℚ) ^ j * ((x / 10 ^ j : ℕ) : ℚ) + ((x % 10 ^ j : ℕ) : ℚ) := by
    have : ((x : ℕ) : ℚ) = ((10 ^ j * (x / 10 ^ j) + x % 10 ^ j : ℕ) : ℚ) := by
      rw [← hdiv]
    rw [this]
    push_cast
    ring
  have hmodq : ((x % 10 ^ j : ℕ) : ℚ) < (10 : ℚ) ^ j := by
    have : ((x % 10 ^ j : ℕ) : ℚ) < ((10 ^ j : ℕ) : ℚ) := by exact_mod_cast hmod
    simpa using this
  have hmod0 : (0 : ℚ) ≤ ((x % 10 ^ j : ℕ) : ℚ) := Nat.cast_nonneg _
  have hfloor : ⌊(x : ℚ) / (10 : ℚ) ^ (Int.log 10 (x : ℚ) + 1 - ((17 : ℕ) : ℤ))⌋₊
      = x / 10 ^ j := by
    have hsub : Int.log 10 (x : ℚ) + 1 - ((17 : ℕ) : ℤ) = (j : ℤ) := by
      rw [hEj]; push_cast; ring
    rw [hsub, zpow_natCast]
    have : ((10 : ℚ) ^ j) = ((10 ^ j : ℕ) : ℚ) := by push_cast; rfl
    rw [this, Nat.floor_div_eq_div]
  have hsub1 : Int.log 10 (x : ℚ) + 1 - ((17 : ℕ) : ℤ) = (j : ℤ) := by
    rw [hEj]; push_cast; ring
  have hsub2 : Int.log 10 (x : ℚ) + 2 - ((17 : ℕ) : ℤ) = ((j + 1 : ℕ) : ℤ) := by
    rw [hEj]; push_cast; ring
  by_cases hhalf : 2 * (x % 10 ^ j) ≤ 10 ^ j
  · -- the numeral below `x`
    refine ⟨⟨x / 10 ^ j, 17, Int.log 10 (x : ℚ) + 1⟩, ?_⟩
    unfold candidatesAt
    simp only [List.mem_filter, List.mem_flatMap, List.mem_map, Bool.and_eq_true,
      decide_eq_true_eq]
    refine ⟨⟨Int.log 10 (x : ℚ) + 1, by simp, x / 10 ^ j, ?_, rfl⟩, ⟨hflo, hfhi⟩, ?_⟩
    · rw [hfloor]
      simp
    · unfold Decimal.value
      simp only
      rw [hsub1, zpow_natCast]
      apply roundToDouble_of_near _ _ hb hx1
      have hhq : 2 * ((x % 10 ^ j : ℕ) : ℚ) ≤ (10 : ℚ) ^ j := by
        have : ((2 * (x % 10 ^ j) : ℕ) : ℚ) ≤ ((10 ^ j : ℕ) : ℚ) := by exact_mod_cast hhalf
        push_cast at this
        exact this
      have hd : ((x / 10 ^ j : ℕ) : ℚ) * (10 : ℚ) ^ j - (x : ℚ)
          = -((x % 10 ^ j : ℕ) : ℚ) := by
        linarith [hdivq]
      rw [hd, abs_neg, abs_of_nonneg hmod0]
      nlinarith
  · have hhq : (10 : ℚ) ^ j < 2 * ((x % 10 ^ j : ℕ) : ℚ) := by
      have : ((10 ^ j : ℕ) : ℚ) < ((2 * (x % 10 ^ j) : ℕ) : ℚ) := by
        exact_mod_cast not_le.mp hhalf
      push_cast at this
      exact this
    have hnear : |(((x / 10 ^ j : ℕ) : ℚ) + 1) * (10 : ℚ) ^ j - (x : ℚ)| * (2 * 10 ^ 16)
        ≤ (x : ℚ) := by
      have hd : (((x / 10 ^ j : ℕ) : ℚ) + 1) * (10 : ℚ) ^ j - (x : ℚ)
          = (10 : ℚ) ^ j - ((x % 10 ^ j : ℕ) : ℚ) := by
        linarith [hdivq]
      rw [hd, abs_of_nonneg (by linarith)]
      nlinarith
    by_cases htop : x / 10 ^ j + 1 < 10 ^ 17
    · -- the numeral above `x`
      refine ⟨⟨x / 10 ^ j + 1, 17, Int.log 10 (x : ℚ) + 1⟩, ?_⟩
      unfold candidatesAt
      simp only [List.mem_filter, List.mem_flatMap, List.mem_map, Bool.and_eq_true,
        decide_eq_true_eq]
      refine ⟨⟨Int.log 10 (x : ℚ) + 1, by simp, x / 10 ^ j + 1, ?_, rfl⟩,
        ⟨by omega, htop⟩, ?_⟩
      · rw [hfloor]
        simp
      · unfold Decimal.value
        simp only
        rw [hsub1, zpow_natCast]
        apply roundToDouble_of_near _ _ hb hx1
        push_cast
        exact hnear
    · -- the numeral above `x` is the next power of ten
      have hf : x / 10 ^ j + 1 = 10 ^ 17 := by omega
      refine ⟨⟨10 ^ 16, 17, Int.log 10 (x : ℚ) + 2⟩, ?_⟩
      unfold candidatesAt
      simp only [List.mem_filter, List.mem_flatMap, List.mem_map, Bool.and_eq_true,
        decide_eq_true_eq]
      refine ⟨⟨Int.log 10 (x : ℚ) + 2, by simp, 10 ^ 16, by simp, rfl⟩,
        ⟨by norm_num, by norm_num⟩, ?_⟩
      unfold Decimal.value
      simp only
      rw [hsub2, zpow_natCast]
      apply roundToDouble_of_near _ _ hb hx1
      have hfq : ((x / 10 ^ j : ℕ) : ℚ) + 1 = (10 : ℚ) ^ 17 := by
        have : ((x / 10 ^ j + 1 : ℕ) : ℚ) = ((10 ^ 17 : ℕ) : ℚ) := by rw [hf]
        push_cast at this
        exact this
      have hval : ((10 ^ 16 : ℕ) : ℚ) * (10 : ℚ) ^ (j + 1)
          = (((x / 10 ^ j : ℕ) : ℚ) + 1) * (10 : ℚ) ^ j := by
        rw [hfq, pow_succ]
        push_cast
        ring
      rw [hval]
      exact hnear

/-- A natural number rounds to a natural number or overflows. -/
theorem roundToDouble_natCast_cases (a : ℕ) :
    roundToDouble (a : ℚ) = .posInf ∨ ∃ x : ℕ, roundToDouble (a : ℚ) = .fin (x : ℚ) := by
  by_cases ha : a < 2 ^ 53
  · exact Or.inr ⟨a, roundToDouble_of_isBinary64 _ (isBinary64_natCast a ha)⟩
  · have hge : (2 : ℚ) ^ (53 : ℤ) ≤ (a : ℚ) := by
      have : ((2 ^ 53 : ℕ) : ℚ) ≤ ((a : ℕ) : ℚ) := by exact_mod_cast not_lt.mp ha
      calc (2 : ℚ) ^ (53 : ℤ) = ((2 ^ 53 : ℕ) : ℚ) := by norm_num
        _ ≤ (a : ℚ) := this
    have hqpos : (0 : ℚ) < (a : ℚ) := lt_of_lt_of_le (two_zpow_pos 53) hge
    have hlog : 53 ≤ Int.log 2 (a : ℚ) := le_log_of_zpow_le _ hqpos 53 hge
    have hulp := ulpExponent_of_pos (a : ℚ) hqpos (by omega)
    obtain ⟨p, hp⟩ := Int.eq_ofNat_of_zero_le (show 0 ≤ Int.log 2 (a : ℚ) - 52 by omega)
    have hfloor : 0 ≤ roundHalfEven ((a : ℚ) / (2 : ℚ) ^ ulpExponent (a : ℚ)) :=
      le_trans (Int.floor_nonneg.mpr (div_nonneg hqpos.le (two_zpow_pos _).le))
        (floor_le_roundHalfEven _)
    obtain ⟨M, hM⟩ := Int.eq_ofNat_of_zero_le hfloor
    have hexpr : (roundHalfEven ((a : ℚ) / (2 : ℚ) ^ ulpExponent (a : ℚ)) : ℚ)
        * (2 : ℚ) ^ ulpExponent (a : ℚ) = ((M * 2 ^ p : ℕ) : ℚ) := by
      rw [hM, hulp, hp, zpow_natCast]
      push_cast
      ring
    unfold roundToDouble
    simp only []
    rw [hexpr]
    by_cases hover : (2 : ℚ) ^ (1024 : ℤ) ≤ ((M * 2 ^ p : ℕ) : ℚ)
    · left
      rw [if_pos hover]
    · right
      have h0 : (0 : ℚ) ≤ ((M * 2 ^ p : ℕ) : ℚ) := Nat.cast_nonneg _
      rw [if_neg hover, if_neg (by linarith [two_zpow_pos 1024])]
      exact ⟨_, rfl⟩

/-- A digit followed by at most 21 zeros has the one-digit numeral as candidate. -/
theorem digit_zeros_mem_candidatesAt (s j : ℕ) (hs1 : 1 ≤ s) (hs : s ≤ 9) (hj : j ≤ 21) :
    (⟨s, 1, (j : ℤ) + 1⟩ : Decimal) ∈ candidatesAt ((s * 10 ^ j : ℕ) : ℚ) 1 := by
  have hlog := log_ten_digit_zeros s j hs1 hs
  unfold candidatesAt
  simp only [List.mem_filter, List.mem_flatMap, List.mem_map, Bool.and_eq_true,
    decide_eq_true_eq]
  have hsub : (j : ℤ) + 1 - ((1 : ℕ) : ℤ) = (j : ℤ) := by push_cast; ring
  refine ⟨⟨(j : ℤ) + 1, by rw [hlog]; simp, s, ?_, rfl⟩, ⟨by simpa using hs1, by omega⟩, ?_⟩
  · rw [hsub, zpow_natCast]
    have : ((s * 10 ^ j : ℕ) : ℚ) / (10 : ℚ) ^ j = (s : ℚ) := by
      push_cast
      field_simp
    rw [this]
    simp
  · unfold Decimal.value
    simp only
    rw [hsub, zpow_natCast]
    have : (s : ℚ) * (10 : ℚ) ^ j = ((s * 10 ^ j : ℕ) : ℚ) := by push_cast; ring
    rw [this]
    exact roundToDouble_of_isBinary64 _ (isBinary64_digit_zeros s j (by omega) hj)

/-- The numeral chosen for a digit followed by at most 21 zeros has one digit. -/
theorem shortestDecimal_digit_zeros (s j : ℕ) (hs1 : 1 ≤ s) (hs : s ≤ 9) (hj : j ≤ 21)
    (d : Decimal) (h : shortestDecimal ((s * 10 ^ j : ℕ) : ℚ) = some d) :
    d ∈ candidatesAt ((s * 10 ^ j : ℕ) : ℚ) 1 := by
  obtain ⟨b, hb⟩ := closest_isSome ((s * 10 ^ j : ℕ) : ℚ) _
    (List.ne_nil_of_mem (digit_zeros_mem_candidatesAt s j hs1 hs hj))
  obtain ⟨k, d1, hk1, hk0, hfk, hfound⟩ := findSome_range_le
    (fun k => closest ((s * 10 ^ j : ℕ) : ℚ) (candidatesAt ((s * 10 ^ j : ℕ) : ℚ) k))
    1 (by omega) (by omega) b hb
  have hs2 : shortestDecimal ((s * 10 ^ j : ℕ) : ℚ) = some d1 := hfound
  have hk : k = 1 := by omega
  subst hk
  rw [h] at hs2
  rw [Option.some.inj hs2]
  exact closest_mem _ _ _ hfk

/-- The value of a numeral with `k` digits and point position `n` lies from
`10^(n-1)` up to `10^n`. -/
theorem value_bounds (d : Decimal) (k : ℕ) (hk : 1 ≤ k) (hdk : d.k = k)
    (hlo : 10 ^ (k - 1) ≤ d.s) (hhi : d.s < 10 ^ k) :
    (10 : ℚ) ^ (d.n - 1) ≤ d.value ∧ d.value ≤ (10 : ℚ) ^ d.n - (10 : ℚ) ^ (d.n - (k : ℤ)) := by
  have hpos : (0 : ℚ) < (10 : ℚ) ^ (d.n - (k : ℤ)) := zpow_pos (by norm_num) _
  have hloq : (10 : ℚ) ^ (((k - 1 : ℕ) : ℤ)) ≤ (d.s : ℚ) := by
    rw [zpow_natCast]
    exact_mod_cast hlo
  have hhiq : (d.s : ℚ) + 1 ≤ (10 : ℚ) ^ ((k : ℕ) : ℤ) := by
    rw [zpow_natCast]
    have : d.s + 1 ≤ 10 ^ k := hhi
    exact_mod_cast this
  have e1 : (10 : ℚ) ^ (d.n - 1) = (10 : ℚ) ^ (((k - 1 : ℕ) : ℤ)) * (10 : ℚ) ^ (d.n - (k : ℤ)) := by
    rw [← zpow_add₀ (by norm_num : (10 : ℚ) ≠ 0)]
    congr 1
    have : ((k - 1 : ℕ) : ℤ) = (k : ℤ) - 1 := by omega
    rw [this]
    ring
  have e2 : (10 : ℚ) ^ d.n = (10 : ℚ) ^ ((k : ℕ) : ℤ) * (10 : ℚ) ^ (d.n - (k : ℤ)) := by
    rw [← zpow_add₀ (by norm_num : (10 : ℚ) ≠ 0)]
    congr 1
    ring
  unfold Decimal.value
  rw [hdk, e1, e2]
  constructor
  · exact mul_le_mul_of_nonneg_right hloq hpos.le
  · have := mul_le_mul_of_nonneg_right hhiq hpos.le
    linarith

/-- The text of a positive number is the text of its numeral. -/
theorem numberToString_of_shortest (x : ℚ) (hx : 0 < x) (d : Decimal)
    (hs : shortestDecimal x = some d) : numberToString (.fin x) = d.render := by
  simp only [numberToString]
  rw [if_neg (ne_of_gt hx), abs_of_pos hx, hs, if_neg (by linarith)]

/-- The text of a natural binary64 value below `10^21` is read by ethers as an amount. -/
theorem transactionValue_isSome_of_natCast (x : ℕ) (hb : IsBinary64 (x : ℚ))
    (h21 : x < 10 ^ 21) : ∃ a, transactionValue? (numberToString (.fin (x : ℚ))) = some a := by
  by_cases h53 : x < 2 ^ 53
  · exact ⟨x, transactionValue_natCast x h53⟩
  have h53' : 2 ^ 53 ≤ x := not_lt.mp h53
  have h0 : 0 < x := lt_of_lt_of_le (by norm_num) h53'
  have hxpos : (0 : ℚ) < (x : ℚ) := by exact_mod_cast h0
  obtain ⟨hlo, hge, hlt⟩ := log_ten_natCast_pos x h0
  have hE15 : 15 ≤ (Int.log 10 (x : ℚ)).toNat := by
    by_contra hcon
    have : 10 ^ ((Int.log 10 (x : ℚ)).toNat + 1) ≤ 10 ^ 15 :=
      Nat.pow_le_pow_right (by norm_num) (by omega)
    have h2 : (10 : ℕ) ^ 15 < 2 ^ 53 := by norm_num
    omega
  have hE20 : (Int.log 10 (x : ℚ)).toNat ≤ 20 := by
    by_contra hcon
    have : 10 ^ 21 ≤ 10 ^ (Int.log 10 (x : ℚ)).toNat :=
      Nat.pow_le_pow_right (by norm_num) (by omega)
    omega
  have hEint : Int.log 10 (x : ℚ) = (((Int.log 10 (x : ℚ)).toNat : ℕ) : ℤ) :=
    (Int.toNat_of_nonneg hlo).symm
  have hx21 : (x : ℚ) < (10 : ℚ) ^ (21 : ℤ) := by
    have : ((x : ℕ) : ℚ) < ((10 ^ 21 : ℕ) : ℚ) := by exact_mod_cast h21
    calc (x : ℚ) < ((10 ^ 21 : ℕ) : ℚ) := this
      _ = (10 : ℚ) ^ (21 : ℤ) := by norm_num
  by_cases hE17 : 17 ≤ (Int.log 10 (x : ℚ)).toNat
  · -- at least 18 digits: a numeral of 17 digits exists
    obtain ⟨d0, hd0⟩ := exists_mem_candidatesAt_seventeen x h0 hb (by omega)
    obtain ⟨b, hb2⟩ := closest_isSome (x : ℚ) _ (List.ne_nil_of_mem hd0)
    obtain ⟨k, d, hk1, hk0, hfk, hfound⟩ := findSome_range_le
      (fun k => closest (x : ℚ) (candidatesAt (x : ℚ) k)) 17 (by omega) (by omega) b hb2
    have hs : shortestDecimal (x : ℚ) = some d := hfound
    obtain ⟨hread, hdk, hslo, hshi, hnlo, hnhi⟩ :=
      mem_candidatesAt (x : ℚ) k d (closest_mem _ _ _ hfk)
    have hkn : (d.k : ℤ) ≤ d.n := by rw [hdk]; omega
    have hn21 : d.n ≤ 21 := by
      by_contra hcon
      have hn : d.n = 22 := by omega
      have hval := (value_bounds d k hk1 hdk hslo hshi).1
      rw [hn] at hval
      have hc : IsBinary64 ((1 * 10 ^ 21 : ℕ) : ℚ) :=
        isBinary64_digit_zeros 1 21 (by norm_num) (by norm_num)
      have hcq : ((1 * 10 ^ 21 : ℕ) : ℚ) = (10 : ℚ) ^ (21 : ℤ) := by norm_num
      rw [hcq] at hc
      have h22 : (10 : ℚ) ^ ((22 : ℤ) - 1) = (10 : ℚ) ^ (21 : ℤ) := by norm_num
      rw [h22] at hval
      rcases le_roundToDouble_of_le d.value _ hc (by positivity) hval with h1 | ⟨r, h1, h2⟩
      · rw [h1] at hread
        exact absurd hread (by simp)
      · rw [h1] at hread
        have := JSNumber.fin.inj hread
        linarith
    exact ⟨_, by
      rw [numberToString_of_shortest _ hxpos d hs]
      exact transactionValue_render_integer d hkn hn21⟩
  · -- at most 17 digits: the digits of `x` are a numeral
    by_cases hpow : x = 1 * 10 ^ (Int.log 10 (x : ℚ)).toNat
    · refine ⟨1 * 10 ^ (Int.log 10 (x : ℚ)).toNat, ?_⟩
      have := transactionValue_digit_zeros 1 (Int.log 10 (x : ℚ)).toNat (by norm_num)
        (by norm_num) (by omega) (by omega)
      rw [← hpow] at this
      rw [this, ← hpow]
    obtain ⟨b, hb2⟩ := closest_isSome (x : ℚ) _
      (List.ne_nil_of_mem (digits_mem_candidatesAt x h0 hb))
    obtain ⟨k, d, hk1, hk0, hfk, hfound⟩ := findSome_range_le
      (fun k => closest (x : ℚ) (candidatesAt (x : ℚ) k))
      ((Int.log 10 (x : ℚ)).toNat + 1) (by omega) (by omega) b hb2
    have hs : shortestDecimal (x : ℚ) = some d := hfound
    obtain ⟨hread, hdk, hslo, hshi, hnlo, hnhi⟩ :=
      mem_candidatesAt (x : ℚ) k d (closest_mem _ _ _ hfk)
    have hn21 : d.n ≤ 21 := by omega
    have hkn : (d.k : ℤ) ≤ d.n := by
      by_contra hcon
      have hn : d.n = (((Int.log 10 (x : ℚ)).toNat : ℕ) : ℤ) := by omega
      have hval := (value_bounds d k hk1 hdk hslo hshi).2
      have hvpos : 0 < d.value :=
        lt_of_lt_of_le (zpow_pos (by norm_num) _) (value_bounds d k hk1 hdk hslo hshi).1
      rw [hn, zpow_natCast] at hval
      have hc : IsBinary64 ((1 * 10 ^ (Int.log 10 (x : ℚ)).toNat : ℕ) : ℚ) :=
        isBinary64_digit_zeros 1 _ (by norm_num) (by omega)
      have hcq : ((1 * 10 ^ (Int.log 10 (x : ℚ)).toNat : ℕ) : ℚ)
          = (10 : ℚ) ^ (Int.log 10 (x : ℚ)).toNat := by push_cast; ring
      rw [hcq] at hc
      have hsmall : (0 : ℚ) < (10 : ℚ) ^ ((((Int.log 10 (x : ℚ)).toNat : ℕ) : ℤ) - (k : ℤ)) :=
        zpow_pos (by norm_num) _
      obtain ⟨r, h1, -, h2⟩ := roundToDouble_le_of_le d.value _ hc hvpos (by linarith)
      rw [h1] at hread
      have hrx := JSNumber.fin.inj hread
      have hxle : (x : ℚ) ≤ ((10 ^ (Int.log 10 (x : ℚ)).toNat : ℕ) : ℚ) := by
        push_cast
        linarith
      have : x ≤ 10 ^ (Int.log 10 (x : ℚ)).toNat := by exact_mod_cast hxle
      omega
    exact ⟨_, by
      rw [numberToString_of_shortest _ hxpos d hs]
      exact transactionValue_render_integer d hkn hn21⟩

/-- A number whose text is read by ethers as an amount is a natural number below
`10^21`. -/
theorem natCast_of_transactionValue (v : JSNumber) (a : ℕ)
    (h : transactionValue? (numberToString v) = some a) :
    ∃ x : ℕ, v = .fin (x : ℚ) ∧ x < 10 ^ 21 := by
  have hread := transactionValue_numberToString v a h
  rcases roundToDouble_natCast_cases a with hinf | ⟨x, hx⟩
  · exfalso
    rw [hinf] at hread
    rw [← hread] at h
    have hn : transactionValue? (numberToString .posInf) = none := by decide
    rw [hn] at h
    exact absurd h (by simp)
  rw [hx] at hread
  refine ⟨x, hread.symm, ?_⟩
  by_cases h0 : x = 0
  · rw [h0]; norm_num
  have hpos : 0 < x := Nat.pos_of_ne_zero h0
  have hxpos : (0 : ℚ) < (x : ℚ) := by exact_mod_cast hpos
  rw [← hread] at h
  obtain ⟨d, hs, hd⟩ := transactionValue_pos (x : ℚ) hxpos a h
  obtain ⟨hkn, hn21, ha⟩ := transactionValue_render d a hd
  obtain ⟨k, hk1, hk17, hmem⟩ := shortestDecimal_mem (x : ℚ) d hs
  obtain ⟨hread2, hdk, hslo, hshi, hnlo, hnhi⟩ := mem_candidatesAt (x : ℚ) k d hmem
  obtain ⟨hlo, hge, hlt⟩ := log_ten_natCast_pos x hpos
  by_cases hE : (Int.log 10 (x : ℚ)).toNat ≤ 20
  · calc x < 10 ^ ((Int.log 10 (x : ℚ)).toNat + 1) := hlt
      _ ≤ 10 ^ 21 := Nat.pow_le_pow_right (by norm_num) (by omega)
  · exfalso
    have hEn : (Int.log 10 (x : ℚ)).toNat = 21 := by omega
    have hn : d.n = 21 := by omega
    rw [hEn] at hge
    have hval := (value_bounds d k hk1 hdk hslo hshi).2
    have hvpos : 0 < d.value :=
      lt_of_lt_of_le (zpow_pos (by norm_num) _) (value_bounds d k hk1 hdk hslo hshi).1
    rw [hn] at hval
    have hc : IsBinary64 ((1 * 10 ^ 21 : ℕ) : ℚ) :=
      isBinary64_digit_zeros 1 21 (by norm_num) (by norm_num)
    have hcq : ((1 * 10 ^ 21 : ℕ) : ℚ) = (10 : ℚ) ^ (21 : ℤ) := by norm_num
    have hsmall : (0 : ℚ) < (10 : ℚ) ^ ((21 : ℤ) - (k : ℤ)) := zpow_pos (by norm_num) _
    obtain ⟨r, h1, -, h2⟩ := roundToDouble_le_of_le d.value _ hc hvpos (by rw [hcq]; linarith)
    rw [h1] at hread2
    have hrx := JSNumber.fin.inj hread2
    have hxle : (x : ℚ) ≤ ((1 * 10 ^ 21 : ℕ) : ℚ) := by linarith
    have hx21 : x = 1 * 10 ^ 21 := by
      have : x ≤ 1 * 10 ^ 21 := by exact_mod_cast hxle
      omega
    rw [hx21] at hs
    have hmem1 := shortestDecimal_digit_zeros 1 21 (by norm_num) (by norm_num) (by norm_num)
      d hs
    obtain ⟨hread3, hdk1, -, hshi1, -, -⟩ := mem_candidatesAt _ 1 d hmem1
    have hvi := value_of_integer_layout d hkn
    have hexp : (d.n - (d.k : ℤ)).toNat = 20 := by omega
    rw [hexp] at hvi
    rw [hvi, roundToDouble_of_isBinary64 _
      (isBinary64_digit_zeros d.s 20 (by simpa using hshi1) (by norm_num))] at hread3
    have heq : ((d.s * 10 ^ 20 : ℕ) : ℚ) = ((1 * 10 ^ 21 : ℕ) : ℚ) := JSNumber.fin.inj hread3
    have heq2 : d.s * 10 ^ 20 = 1 * 10 ^ 21 := by exact_mod_cast heq
    have hs10 : d.s < 10 := by simpa using hshi1
    omega

/-- The text of a number a program can hold is read by ethers as an amount exactly
when the number is a natural number below `10^21`. -/
theorem transactionValue_isSome_iff (v : JSNumber) (hv : v.IsValue) :
    (∃ a, transactionValue? (numberToString v) = some a)
      ↔ ∃ x : ℕ, v = .fin (x : ℚ) ∧ x < 10 ^ 21 := by
  constructor
  · rintro ⟨a, h⟩
    exact natCast_of_transactionValue v a h
  · rintro ⟨x, rfl, h21⟩
    exact transactionValue_isSome_of_natCast x hv h21

/-- C9 fails as stated, in three ways. First, a qualifying buy worth 250 USD draws the
numbers 1 and 51, the reference integer is 1, the winner notification is issued, its
delivery fails, and no payout request is made. Second, the same buy with the
notification delivered and 1000000000000001 wei in the hot wallet: the pot is the
double 500000000000000.5, the payout request carries its text as value, ethers refuses
that text, and no payout is submitted. Third, the same buy with the notification
delivered and 123456789012345683968 wei in the hot wallet: the pot is the double
61728394506172841984, exactly half the balance, and no payout of that amount is
submitted. -/
theorem winner_without_payout :
    generateUniqueRandomNumbers
        (randomArrayLength (usdValue sampleTransfer.value
          (sampleSurroundings false).tokenPriceInUSD))
        (sampleSurroundings false).loopDraws = some [.fin 1, .fin 51]
    ∧ randomInt (sampleSurroundings false).referenceDraw ∈ [JSNumber.fin 1, JSNumber.fin 51]
    ∧ onTransfer (sampleSurroundings false) sampleTransfer
        = [Effect.generating,
            Effect.sendAnimation .gifWinner
              ⟨true, (ofBigInt 1000000000000000000).divBy 2,
                (ofBigInt 1000000000000000000).divBy 4,
                usdValue 250000000000 (.fin 1),
                randomArrayLength (usdValue 250000000000 (.fin 1))⟩]
    ∧ (onTransfer (sampleSurroundings false) sampleTransfer).filter Effect.isPayout = []
    ∧ payouts (onTransfer (sampleSurroundings false) sampleTransfer) = []
    ∧ onTransfer (surroundingsWithBalance 1000000000000001) sampleTransfer
        = [Effect.generating,
            Effect.sendAnimation .gifWinner
              ⟨true, (ofBigInt 1000000000000001).divBy 2,
                (ofBigInt 1000000000000001).divBy 4,
                usdValue 250000000000 (.fin 1),
                randomArrayLength (usdValue 250000000000 (.fin 1))⟩,
            Effect.sendTransaction "0x3333333333333333333333333333333333333333"
              (numberToString ((ofBigInt 1000000000000001).divBy 2))]
    ∧ (ofBigInt 1000000000000001).divBy 2 = .fin (1000000000000001 / 2)
    ∧ transactionValue? (numberToString ((ofBigInt 1000000000000001).divBy 2)) = none
    ∧ payouts (onTransfer (surroundingsWithBalance 1000000000000001) sampleTransfer) = []
    ∧ onTransfer (surroundingsWithBalance 123456789012345683968) sampleTransfer
        = [Effect.generating,
            Effect.sendAnimation .gifWinner
              ⟨true, (ofBigInt 123456789012345683968).divBy 2,
                (ofBigInt 123456789012345683968).divBy 4,
                usdValue 250000000000 (.fin 1),
                randomArrayLength (usdValue 250000000000 (.fin 1))⟩,
            Effect.sendTransaction "0x3333333333333333333333333333333333333333"
              (numberToString ((ofBigInt 123456789012345683968).divBy 2))]
    ∧ (ofBigInt 123456789012345683968).divBy 2 = .fin 61728394506172841984
    ∧ 2 * 61728394506172841984 = 123456789012345683968
    ∧ ("0x3333333333333333333333333333333333333333", 61728394506172841984)
        ∉ payouts (onTransfer (surroundingsWithBalance 123456789012345683968)
            sampleTransfer) := by
  obtain ⟨hthr, hdraw, hmem⟩ := sample_run_facts
  have hrun := onTransfer_qualifying (sampleSurroundings false) sampleTransfer
    1000000000000000000 [.fin 1, .fin 51] rfl (by decide) rfl hthr hdraw
  have hwin := (announce_cases [.fin 1, .fin 51] (randomInt 0) 1000000000000000000
    sampleTransfer.recipient (usdValue 250000000000 (.fin 1))
    (randomArrayLength (usdValue 250000000000 (.fin 1))) false).1 hmem
  have heff : onTransfer (sampleSurroundings false) sampleTransfer
      = [Effect.generating,
          Effect.sendAnimation .gifWinner
            ⟨true, (ofBigInt 1000000000000000000).divBy 2,
              (ofBigInt 1000000000000000000).divBy 4,
              usdValue 250000000000 (.fin 1),
              randomArrayLength (usdValue 250000000000 (.fin 1))⟩] := by
    rw [hrun]
    exact congrArg (List.cons Effect.generating) hwin
  have hrun2 := onTransfer_qualifying (surroundingsWithBalance 1000000000000001)
    sampleTransfer 1000000000000001 [.fin 1, .fin 51] rfl (by decide) rfl hthr hdraw
  have hwin2 := (announce_cases [.fin 1, .fin 51] (randomInt 0) 1000000000000001
    sampleTransfer.recipient (usdValue 250000000000 (.fin 1))
    (randomArrayLength (usdValue 250000000000 (.fin 1))) true).1 hmem
  have heff2 : onTransfer (surroundingsWithBalance 1000000000000001) sampleTransfer
      = [Effect.generating,
          Effect.sendAnimation .gifWinner
            ⟨true, (ofBigInt 1000000000000001).divBy 2,
              (ofBigInt 1000000000000001).divBy 4,
              usdValue 250000000000 (.fin 1),
              randomArrayLength (usdValue 250000000000 (.fin 1))⟩,
          Effect.sendTransaction "0x3333333333333333333333333333333333333333"
            (numberToString ((ofBigInt 1000000000000001).divBy 2))] := by
    rw [hrun2]
    exact congrArg (List.cons Effect.generating) hwin2
  have hrun3 := onTransfer_qualifying (surroundingsWithBalance 123456789012345683968)
    sampleTransfer 123456789012345683968 [.fin 1, .fin 51] rfl (by decide) rfl hthr hdraw
  have hwin3 := (announce_cases [.fin 1, .fin 51] (randomInt 0) 123456789012345683968
    sampleTransfer.recipient (usdValue 250000000000 (.fin 1))
    (randomArrayLength (usdValue 250000000000 (.fin 1))) true).1 hmem
  have heff3 : onTransfer (surroundingsWithBalance 123456789012345683968) sampleTransfer
      = [Effect.generating,
          Effect.sendAnimation .gifWinner
            ⟨true, (ofBigInt 123456789012345683968).divBy 2,
              (ofBigInt 123456789012345683968).divBy 4,
              usdValue 250000000000 (.fin 1),
              randomArrayLength (usdValue 250000000000 (.fin 1))⟩,
          Effect.sendTransaction "0x3333333333333333333333333333333333333333"
            (numberToString ((ofBigInt 123456789012345683968).divBy 2))] := by
    rw [hrun3]
    exact congrArg (List.cons Effect.generating) hwin3
  have hrefused := (transactionValue_half 1000000000000001 (by norm_num)).2 (by norm_num)
  have hpot := actualPot_exact 1000000000000001 (isBinary64_natCast _ (by norm_num))
  refine ⟨hdraw, hmem, heff, ?_, ?_, heff2, ?_, hrefused, ?_, heff3,
    transactionValue_large_sample.1, by norm_num, ?_⟩
  · rw [heff]
    rfl
  · rw [heff]
    rfl
  · rw [hpot]
    norm_num
  · rw [heff2]
    exact payouts_refused _ _ _ hrefused
  · rw [heff3]
    intro h
    exact transactionValue_large_sample.2 (transactionValue_of_mem_payouts _ _ _ _ _ h)

/-- C9 amended: a qualifying event whose draw loop returns the set D issues exactly one
notification: the winner notification when the reference integer is in D, the loser
notification when it is not. A payout request, naming the recipient of the transfer
and the text `String(Number(hotWalletBalance) / 2)` as value, follows the winner
notification exactly when its send resolves, and is made in no other case. A payout is
submitted exactly when the request is made and ethers reads the text as an amount,
which it does exactly when the pot `Number(hotWalletBalance) / 2` is a whole number
below `10^21`; the amount read is then an integer that rounds to the pot. For a balance
below `2^53` the text is read as exactly half the balance when the balance is even and
is refused when it is odd. -/
theorem reward_notify_variant (env : Surroundings) (ev : TransferEvent)
    (hotWalletBalance : Nat) (randomNumbers : List JSNumber)
    (hfrom : ev.sender = "0x628d9A2175B66A11fcE8208106Fbb95Ed33503E0")
    (hto : ev.recipient ≠ "0xC39b0D3c3DA68cdaefe24a07373b9894496eCA97")
    (hbal : env.hotWalletBalance = some hotWalletBalance)
    (hthr : (effectiveValue (usdValue ev.value env.tokenPriceInUSD)).ge (.fin 100) = true)
    (hdraw : generateUniqueRandomNumbers
        (randomArrayLength (usdValue ev.value env.tokenPriceInUSD)) env.loopDraws
      = some randomNumbers) :
    ((onTransfer env ev).filter Effect.isNotification).length = 1
    ∧ (randomInt env.referenceDraw ∈ randomNumbers →
        ∃ caption : Caption, caption.winner = true ∧
          onTransfer env ev
            = Effect.generating :: Effect.sendAnimation .gifWinner caption ::
                (if env.sendOk then
                  [Effect.sendTransaction ev.recipient
                    (numberToString ((ofBigInt hotWalletBalance).divBy 2))]
                else []))
    ∧ (randomInt env.referenceDraw ∉ randomNumbers →
        ∃ caption : Caption, caption.winner = false ∧
          onTransfer env ev = [Effect.generating, Effect.sendAnimation .gifLoser caption])
    ∧ ((∃ a value, Effect.sendTransaction a value ∈ onTransfer env ev)
        ↔ (randomInt env.referenceDraw ∈ randomNumbers ∧ env.sendOk = true))
    ∧ (∀ (a : Address) (amount : Nat), (a, amount) ∈ payouts (onTransfer env ev) ↔
        (a = ev.recipient ∧ randomInt env.referenceDraw ∈ randomNumbers ∧ env.sendOk = true
          ∧ transactionValue? (numberToString ((ofBigInt hotWalletBalance).divBy 2))
              = some amount))
    ∧ ((∃ amount : Nat,
          transactionValue? (numberToString ((ofBigInt hotWalletBalance).divBy 2))
            = some amount)
        ↔ ∃ x : Nat, (ofBigInt hotWalletBalance).divBy 2 = .fin (x : ℚ) ∧ x < 10 ^ 21)
    ∧ (∀ amount : Nat,
        transactionValue? (numberToString ((ofBigInt hotWalletBalance).divBy 2)) = some amount →
          roundToDouble (amount : ℚ) = (ofBigInt hotWalletBalance).divBy 2)
    ∧ (hotWalletBalance < 2 ^ 53 →
        (hotWalletBalance % 2 = 0 →
          transactionValue? (numberToString ((ofBigInt hotWalletBalance).divBy 2))
            = some (hotWalletBalance / 2))
        ∧ (hotWalletBalance % 2 = 1 →
          transactionValue? (numberToString ((ofBigInt hotWalletBalance).divBy 2)) = none)) := by
  have hrun := onTransfer_qualifying env ev hotWalletBalance randomNumbers hfrom hto hbal
    hthr hdraw
  obtain ⟨hwin, hlose⟩ := announce_cases randomNumbers (randomInt env.referenceDraw)
    hotWalletBalance ev.recipient (usdValue ev.value env.tokenPriceInUSD)
    (randomArrayLength (usdValue ev.value env.tokenPriceInUSD)) env.sendOk
  refine ⟨?_, ?_, ?_, ?_, ?_, transactionValue_isSome_iff _ (divBy_isValue _ _),
    fun amount h => transactionValue_numberToString _ amount h,
    transactionValue_half hotWalletBalance⟩
  · rw [hrun]
    by_cases h : randomInt env.referenceDraw ∈ randomNumbers
    · rw [hwin h]
      cases env.sendOk <;> simp [Effect.isNotification]
    · rw [hlose h]
      simp [Effect.isNotification]
  · intro h
    exact ⟨_, rfl, by rw [hrun, hwin h]⟩
  · intro h
    exact ⟨_, rfl, by rw [hrun, hlose h]⟩
  · rw [hrun]
    by_cases h : randomInt env.referenceDraw ∈ randomNumbers
    · rw [hwin h]
      cases env.sendOk <;> simp [h]
    · rw [hlose h]
      simp [h]
  · intro a amount
    rw [hrun]
    by_cases h : randomInt env.referenceDraw ∈ randomNumbers
    · rw [hwin h, payouts_winner]
      simp [h]
    · rw [hlose h]
      simp [payouts, h]

/-- C9 amended, at the sample buy with the notification delivered. With 2000000000000000
wei in the hot wallet the winner notification is followed by the payout request, and
the payout of 1000000000000000 wei to the recipient is submitted; with one ether in the
hot wallet the payout of half an ether is submitted. -/
theorem reward_notify_variant_witness :
    (∃ caption : Caption, caption.winner = true ∧
      onTransfer (surroundingsWithBalance 2000000000000000) sampleTransfer
        = Effect.generating :: Effect.sendAnimation .gifWinner caption ::
            (if (surroundingsWithBalance 2000000000000000).sendOk then
              [Effect.sendTransaction sampleTransfer.recipient
                (numberToString ((ofBigInt 2000000000000000).divBy 2))]
            else []))
    ∧ (sampleTransfer.recipient, 1000000000000000)
        ∈ payouts (onTransfer (surroundingsWithBalance 2000000000000000) sampleTransfer)
    ∧ (sampleTransfer.recipient, 500000000000000000)
        ∈ payouts (onTransfer (sampleSurroundings true) sampleTransfer) :=
  have small := reward_notify_variant (surroundingsWithBalance 2000000000000000)
    sampleTransfer 2000000000000000 [.fin 1, .fin 51] rfl (by decide) rfl
    sample_run_facts.1 sample_run_facts.2.1
  have ether := reward_notify_variant (sampleSurroundings true)
    sampleTransfer 1000000000000000000 [.fin 1, .fin 51] rfl (by decide) rfl
    sample_run_facts.1 sample_run_facts.2.1
  ⟨small.2.1 sample_run_facts.2.2,
    (small.2.2.2.2.1 _ _).mpr ⟨rfl, sample_run_facts.2.2, rfl,
      (small.2.2.2.2.2.2.2 (by norm_num)).1 (by norm_num)⟩,
    (ether.2.2.2.2.1 _ _).mpr ⟨rfl, sample_run_facts.2.2, rfl, transactionValue_sample⟩⟩

end TelegramBot

/-! ## Theorems: the interrupted store write of `src/FriendTech_Bot.js` -/

namespace FriendTechBot

/-- An interrupted put leaves `subjects.json` as it was. -/
theorem interruptedWrite_subjects (fs fs1 : Files) (subject : Address)
    (record : JsonValue) (h : interruptedWrite fs subject record = some fs1) :
    fs1.subjects = fs.subjects := by
  unfold interruptedWrite at h
  simp only [] at h
  split at h
  · exact absurd h (by simp)
  · simp only [Option.some.injEq] at h
    rw [← h]

/-- An interrupted put leaves the disk as a put whose rename fails does. -/
theorem interruptedWrite_eq_failed_rename (fs : Files) (subject : Address)
    (record : JsonValue) :
    interruptedWrite fs subject record = writeSubjectsToFile ⟨true, false⟩ fs subject record := by
  unfold interruptedWrite writeSubjectsToFile
  simp only []
  split <;> simp

/-- C12 fails on the code: after one completed put of a subject the lookup for it
answers `false`; a put of another subject, interrupted between the temporary write and
the rename, leaves `subjects.json` as it was, and the lookup for the first subject now
answers `true`. -/
theorem interrupted_put_changes_lookup :
    writeSubjectsToFile healthyDisk freshFiles sampleTrade.subject
        (characteristics 8318750000000000 11) = some storeAfterOnePut
    ∧ (interruptedWrite storeAfterOnePut otherSubject
          (characteristics 9900000000000000 12)).map (fun fs => fs.subjects)
        = some storeAfterOnePut.subjects
    ∧ subjectExistsInFile storeAfterOnePut sampleTrade.subject = false
    ∧ (interruptedWrite storeAfterOnePut otherSubject
          (characteristics 9900000000000000 12)).map
        (fun fs => subjectExistsInFile fs sampleTrade.subject) = some true := by
  exact ⟨rfl, rfl, rfl, rfl⟩

end FriendTechBot

/-! ## Theorems: `src/PairSniper.js` -/

namespace PairSniper
open JS

/-- The literal `16000000000000000000` is a binary64 value. -/
theorem MIN_BNB_eq : MIN_BNB = .fin 16000000000000000000 :=
  roundToDouble_of_isBinary64 _
    ⟨7812500000000000, 11, by norm_num, by norm_num, by norm_num, by norm_num⟩

/-- The literal `116000000000000000000` is a binary64 value. -/
theorem MAX_BNB_eq : MAX_BNB = .fin 116000000000000000000 :=
  roundToDouble_of_isBinary64 _
    ⟨7080078125000000, 14, by norm_num, by norm_num, by norm_num, by norm_num⟩

/-- The literal `5000000000000000000000` is a binary64 value. -/
theorem MIN_BUSD_eq : MIN_BUSD = .fin 5000000000000000000000 :=
  roundToDouble_of_isBinary64 _
    ⟨2384185791015625, 21, by norm_num, by norm_num, by norm_num, by norm_num⟩

/-- The literal `35000000000000000000` is a binary64 value. -/
theorem MAX_BUSD_eq : MAX_BUSD = .fin 35000000000000000000 :=
  roundToDouble_of_isBinary64 _
    ⟨133514404296875, 18, by norm_num, by norm_num, by norm_num, by norm_num⟩

/-- A balance that passes `>= MIN_BNB` is at most 1024 wei below the bound. -/
theorem le_of_ge_MIN_BNB (n : ℕ) (h : (toNumber n).ge MIN_BNB = true) :
    15999999999999998976 ≤ n := by
  by_contra hlt
  have hlt' : n ≤ 15999999999999998975 := by omega
  rw [MIN_BNB_eq] at h
  by_cases h0 : n = 0
  · subst h0
    have hz : toNumber 0 = .fin 0 := by
      simpa [toNumber] using roundToDouble_intCast 0 (by norm_num)
    rw [hz] at h
    simp [JSNumber.ge] at h
    norm_num at h
  · have hq : ((n : ℕ) : ℚ) ≤ ((15999999999999998975 : ℕ) : ℚ) := by exact_mod_cast hlt'
    obtain ⟨r, hr, -, hrlt⟩ := roundToDouble_natCast_lt n 7812500000000000
      (Nat.pos_of_ne_zero h0) (by omega) (by push_cast at hq ⊢; linarith)
    rw [toNumber, hr] at h
    simp only [JSNumber.ge, decide_eq_true_eq] at h
    push_cast at hrlt
    linarith

/-- A balance that passes `<= MAX_BNB` is at most 8192 wei above the bound. -/
theorem le_of_le_MAX_BNB (n : ℕ) (h : (toNumber n).le MAX_BNB = true) :
    n ≤ 116000000000000008192 := by
  by_contra hgt
  have hgt' : 116000000000000008193 ≤ n := by omega
  rw [MAX_BNB_eq] at h
  have hq : ((116000000000000008193 : ℕ) : ℚ) ≤ ((n : ℕ) : ℚ) := by exact_mod_cast hgt'
  rcases roundToDouble_natCast_gt n 7080078125000000 (by
      have : (2 : ℕ) ^ 66 ≤ 116000000000000008193 := by norm_num
      omega) (by norm_num) (by push_cast at hq ⊢; linarith) with hinf | ⟨r, hr, hrgt⟩
  · rw [JSNumber.le, toNumber, hinf] at h
    simp [JSNumber.ge] at h
  · rw [JSNumber.le, toNumber, hr] at h
    simp only [JSNumber.ge, decide_eq_true_eq] at h
    push_cast at hrgt
    linarith


/-- A balance one wei below `MIN_BNB` is read as `MIN_BNB`. -/
theorem toNumber_below_MIN_BNB :
    toNumber 15999999999999999999 = .fin 16000000000000000000 := by
  have hc : ((15999999999999999999 : ℕ) : ℚ) = 15999999999999999999 := by norm_num
  have hqpos : (0 : ℚ) < 15999999999999999999 := by norm_num
  have hlog : Int.log 2 (15999999999999999999 : ℚ) = 63 := by
    have h1 := le_log_of_zpow_le (15999999999999999999 : ℚ) hqpos 63 (by norm_num)
    have h2 := log_lt_of_lt_zpow (15999999999999999999 : ℚ) hqpos 64 (by norm_num)
    omega
  have hulp : ulpExponent (15999999999999999999 : ℚ) = 11 := by
    rw [ulpExponent_of_pos _ hqpos (by rw [hlog]; norm_num), hlog]
    norm_num
  have he : (2 : ℚ) ^ (11 : ℤ) = 2048 := by norm_num
  have hlo := scaled_round_gt (15999999999999999999 : ℚ) 11 7812499999999999 (by
    rw [he]; norm_num)
  have hhi := scaled_round_le (15999999999999999999 : ℚ) 11 7812500000000000 (by
    rw [he]; norm_num)
  rw [he] at hlo hhi
  have hval : (roundHalfEven ((15999999999999999999 : ℚ) / 2048) : ℚ) * 2048
      = 16000000000000000000 := by
    apply le_antisymm
    · calc (roundHalfEven ((15999999999999999999 : ℚ) / 2048) : ℚ) * 2048
          ≤ ((7812500000000000 : ℤ) : ℚ) * 2048 := hhi
        _ = 16000000000000000000 := by norm_num
    · calc (16000000000000000000 : ℚ)
          = ((7812499999999999 : ℤ) : ℚ) * 2048 + 2048 := by norm_num
        _ ≤ (roundHalfEven ((15999999999999999999 : ℚ) / 2048) : ℚ) * 2048 := hlo
  have hbig : (16000000000000000000 : ℚ) < (2 : ℚ) ^ (1024 : ℤ) :=
    lt_of_lt_of_le (by norm_num : (16000000000000000000 : ℚ) < (2 : ℚ) ^ (65 : ℤ))
      (zpow_le_zpow_right₀ (by norm_num) (by norm_num))
  have hfin := roundToDouble_eq_fin (15999999999999999999 : ℚ)
    (by rw [hulp, he, hval]; exact hbig)
    (by rw [hulp, he, hval]; linarith [two_zpow_pos 1024])
  rw [hulp, he, hval] at hfin
  unfold toNumber
  rw [hc, hfin]

/-- A balance of 20 ether is read exactly. -/
theorem toNumber_twenty_ether :
    toNumber 20000000000000000000 = .fin 20000000000000000000 := by
  have hc : ((20000000000000000000 : ℕ) : ℚ) = 20000000000000000000 := by norm_num
  unfold toNumber
  rw [hc]
  exact roundToDouble_of_isBinary64 _
    ⟨4882812500000000, 12, by norm_num, by norm_num, by norm_num, by norm_num⟩

/-- No number is at least 5000·10^18 and at most 35·10^18. -/
theorem busd_window_empty (x : JSNumber) :
    ¬ (x.ge MIN_BUSD = true ∧ x.le MAX_BUSD = true) := by
  rw [MIN_BUSD_eq, MAX_BUSD_eq]
  rintro ⟨h1, h2⟩
  cases x with
  | nan => simp [JSNumber.ge] at h1
  | posInf => simp [JSNumber.le, JSNumber.ge] at h2
  | negInf => simp [JSNumber.ge] at h1
  | fin r =>
    simp only [JSNumber.le, JSNumber.ge, decide_eq_true_eq] at h1 h2
    linarith

/-- What `scan` appends, by cases. -/
theorem scan_cases (address token0 token1 : Address) (wbnbBalance busdBalance : Nat)
    (row : Row) (h : row ∈ scan address wbnbBalance busdBalance token0 token1) :
    scan address wbnbBalance busdBalance token0 token1 = [row]
    ∧ row.pairAddress = address
    ∧ row.chart = "https://poocoin.app/tokens/" ++ row.tokenAddress
    ∧ ((row.kind = "wBNB"
          ∧ (toNumber wbnbBalance).ge MIN_BNB = true
          ∧ (toNumber wbnbBalance).le MAX_BNB = true
          ∧ row.liquidity = toString wbnbBalance
          ∧ ((token0 = wbnb ∧ row.tokenAddress = token1)
            ∨ (token0 ≠ wbnb ∧ token1 = wbnb ∧ row.tokenAddress = token0)))
        ∨ (row.kind = "BUSD"
          ∧ (toNumber busdBalance).ge MIN_BUSD = true
          ∧ (toNumber busdBalance).le MAX_BUSD = true
          ∧ row.liquidity = toString busdBalance
          ∧ ((token0 = busd ∧ row.tokenAddress = token1)
            ∨ (token0 ≠ busd ∧ token1 = busd ∧ row.tokenAddress = token0)))) := by
  unfold scan at h ⊢
  split_ifs at h ⊢ with h1 h2 h3 h4 h5 h6
  · rw [List.mem_singleton] at h
    subst h
    simp only [Bool.and_eq_true, decide_eq_true_eq] at h2
    exact ⟨rfl, rfl, rfl, Or.inl ⟨rfl, h2.1.2, h2.2, rfl, Or.inl ⟨h2.1.1, rfl⟩⟩⟩
  · rw [List.mem_singleton] at h
    subst h
    simp only [Bool.and_eq_true, decide_eq_true_eq] at h3
    have hne : token0 ≠ wbnb := by
      intro heq
      apply h2
      simp [heq, h3.1.2, h3.2]
    exact ⟨rfl, rfl, rfl, Or.inl ⟨rfl, h3.1.2, h3.2, rfl, Or.inr ⟨hne, h3.1.1, rfl⟩⟩⟩
  · simp at h
  · rw [List.mem_singleton] at h
    subst h
    simp only [Bool.and_eq_true, decide_eq_true_eq] at h4 h5
    exact ⟨rfl, rfl, rfl, Or.inr ⟨rfl, h4.1.2, h4.2, rfl, Or.inl ⟨h5, rfl⟩⟩⟩
  · rw [List.mem_singleton] at h
    subst h
    simp only [Bool.and_eq_true, decide_eq_true_eq] at h4 h5 h6
    exact ⟨rfl, rfl, rfl, Or.inr ⟨rfl, h4.1.2, h4.2, rfl, Or.inr ⟨h5, h6, rfl⟩⟩⟩
  · simp at h
  · simp at h


/-- With all four reads answering, `getReserves` appends what `scan` appends. -/
theorem getReserves_answered (address token0 token1 : Address)
    (wbnbBalance busdBalance : Nat) :
    getReserves (answered wbnbBalance busdBalance token0 token1) address
      = scan address wbnbBalance busdBalance token0 token1 := rfl

/-- The sample row: the sample token paired with 20 wBNB. -/
theorem getReserves_sample :
    getReserves (answered 20000000000000000000 0 wbnb sampleToken) samplePair
      = [⟨samplePair, sampleToken, "wBNB", "20000000000000000000",
          chartLink sampleToken⟩] := by
  rw [getReserves_answered]
  unfold scan
  rw [toNumber_twenty_ether, MIN_BNB_eq, MAX_BNB_eq]
  have h1 : neZero (.fin 20000000000000000000) = true := by
    simp [neZero]
  have h2 : (JSNumber.fin 20000000000000000000).ge (.fin 16000000000000000000) = true := by
    simp [JSNumber.ge]; norm_num
  have h3 : (JSNumber.fin 20000000000000000000).le (.fin 116000000000000000000) = true := by
    simp [JSNumber.le, JSNumber.ge]; norm_num
  rw [h1, h2, h3]
  simp
  rfl

/-- C11 fails as stated, twice: a pair whose two tokens both equal `wbnb` gets a row,
naming `wbnb` as the discovered token; and a balance of 15999999999999999999 wei, one
wei below `MIN_BNB`, gets a row, because the comparison reads it as the double
16000000000000000000. -/
theorem row_for_both_tokens_and_short_balance :
    getReserves (answered 20000000000000000000 0 wbnb wbnb) samplePair
      = [⟨samplePair, wbnb, "wBNB", "20000000000000000000", chartLink wbnb⟩]
    ∧ getReserves (answered 15999999999999999999 0 wbnb sampleToken) samplePair
      = [⟨samplePair, sampleToken, "wBNB", "15999999999999999999",
          chartLink sampleToken⟩]
    ∧ MIN_BNB = .fin 16000000000000000000
    ∧ (15999999999999999999 : Nat) < 16000000000000000000 := by
  have h1 : neZero (.fin 20000000000000000000) = true := by
    simp [neZero]
  have h2 : (JSNumber.fin 20000000000000000000).ge (.fin 16000000000000000000) = true := by
    simp [JSNumber.ge]; norm_num
  have h3 : (JSNumber.fin 20000000000000000000).le (.fin 116000000000000000000) = true := by
    simp [JSNumber.le, JSNumber.ge]; norm_num
  have h4 : neZero (.fin 16000000000000000000) = true := by
    simp [neZero]
  have h5 : (JSNumber.fin 16000000000000000000).ge (.fin 16000000000000000000) = true := by
    simp [JSNumber.ge]
  have h6 : (JSNumber.fin 16000000000000000000).le (.fin 116000000000000000000) = true := by
    simp [JSNumber.le, JSNumber.ge]; norm_num
  refine ⟨?_, ?_, MIN_BNB_eq, by norm_num⟩
  · rw [getReserves_answered]
    unfold scan
    rw [toNumber_twenty_ether, MIN_BNB_eq, MAX_BNB_eq, h1, h2, h3]
    simp
    rfl
  · rw [getReserves_answered]
    unfold scan
    rw [toNumber_below_MIN_BNB, MIN_BNB_eq, MAX_BNB_eq, h4, h5, h6]
    simp
    rfl

/-- C11 amended: a row is appended only if token0 or token1 equals the reference token
of the row's kind (token0 is tested first), and the reference balance, read as a double
by the comparison, lies between MIN and MAX of that kind; for a wBNB row this means
MIN_BNB - 1024 ≤ wbnbBalance ≤ MAX_BNB + 8192. At most one row is appended; it carries
the pair address and the balance in decimal; its token address is token1 when token0
equals the reference token and token0 otherwise, so it is the non-reference token
unless both tokens equal the reference token; the chart link is built from that
token address. Hence no row is appended when neither token equals a reference token. -/
theorem getReserves_row (address token0 token1 : Address) (wbnbBalance busdBalance : Nat)
    (row : Row)
    (h : row ∈ getReserves (answered wbnbBalance busdBalance token0 token1) address) :
    getReserves (answered wbnbBalance busdBalance token0 token1) address = [row]
    ∧ row.pairAddress = address
    ∧ row.chart = "https://poocoin.app/tokens/" ++ row.tokenAddress
    ∧ ((row.kind = "wBNB"
          ∧ (toNumber wbnbBalance).ge MIN_BNB = true
          ∧ (toNumber wbnbBalance).le MAX_BNB = true
          ∧ 15999999999999998976 ≤ wbnbBalance
          ∧ wbnbBalance ≤ 116000000000000008192
          ∧ row.liquidity = toString wbnbBalance
          ∧ ((token0 = wbnb ∧ row.tokenAddress = token1)
            ∨ (token0 ≠ wbnb ∧ token1 = wbnb ∧ row.tokenAddress = token0))
          ∧ (row.tokenAddress = wbnb ↔ token0 = wbnb ∧ token1 = wbnb))
        ∨ (row.kind = "BUSD"
          ∧ (toNumber busdBalance).ge MIN_BUSD = true
          ∧ (toNumber busdBalance).le MAX_BUSD = true
          ∧ row.liquidity = toString busdBalance
          ∧ ((token0 = busd ∧ row.tokenAddress = token1)
            ∨ (token0 ≠ busd ∧ token1 = busd ∧ row.tokenAddress = token0))
          ∧ (row.tokenAddress = busd ↔ token0 = busd ∧ token1 = busd))) := by
  rw [getReserves_answered] at h ⊢
  obtain ⟨hone, hpair, hchart, hkind⟩ :=
    scan_cases address token0 token1 wbnbBalance busdBalance row h
  refine ⟨hone, hpair, hchart, ?_⟩
  rcases hkind with ⟨hk, hge, hle, hliq, htok⟩ | ⟨hk, hge, hle, hliq, htok⟩
  · refine Or.inl ⟨hk, hge, hle, le_of_ge_MIN_BNB _ hge, le_of_le_MAX_BNB _ hle, hliq, htok, ?_⟩
    rcases htok with ⟨h0, ht⟩ | ⟨h0, h1, ht⟩
    · rw [ht]
      exact ⟨fun h1 => ⟨h0, h1⟩, fun h1 => h1.2⟩
    · rw [ht]
      exact ⟨fun h2 => absurd h2 h0, fun h2 => absurd h2.1 h0⟩
  · refine Or.inr ⟨hk, hge, hle, hliq, htok, ?_⟩
    rcases htok with ⟨h0, ht⟩ | ⟨h0, h1, ht⟩
    · rw [ht]
      exact ⟨fun h1 => ⟨h0, h1⟩, fun h1 => h1.2⟩
    · rw [ht]
      exact ⟨fun h2 => absurd h2 h0, fun h2 => absurd h2.1 h0⟩

/-- C11 amended, at the sample pair: one wBNB row naming the sample token. -/
theorem getReserves_row_witness :
    getReserves (answered 20000000000000000000 0 wbnb sampleToken) samplePair
      = [⟨samplePair, sampleToken, "wBNB", "20000000000000000000",
          chartLink sampleToken⟩]
    ∧ (⟨samplePair, sampleToken, "wBNB", "20000000000000000000",
          chartLink sampleToken⟩ : Row).pairAddress = samplePair :=
  ⟨(getReserves_row samplePair wbnb sampleToken 20000000000000000000 0
      ⟨samplePair, sampleToken, "wBNB", "20000000000000000000",
        chartLink sampleToken⟩
      (by rw [getReserves_sample]; exact List.mem_singleton.mpr rfl)).1,
    (getReserves_row samplePair wbnb sampleToken 20000000000000000000 0
      ⟨samplePair, sampleToken, "wBNB", "20000000000000000000",
        chartLink sampleToken⟩
      (by rw [getReserves_sample]; exact List.mem_singleton.mpr rfl)).2.1⟩

/-- No row of `getReserves` has the type "BUSD". -/
theorem kind_ne_busd (reads : PairReads) (address : Address) (row : Row)
    (h : row ∈ getReserves reads address) : row.kind ≠ "BUSD" := by
  rcases reads with ⟨_ | wbnbBalance, _ | busdBalance, _ | token0, _ | token1⟩ <;>
    simp only [getReserves] at h <;>
    first
    | exact absurd h (List.not_mem_nil _)
    | skip
  obtain ⟨-, -, -, hkind⟩ := scan_cases address token0 token1 wbnbBalance busdBalance row h
  rcases hkind with ⟨hk, -⟩ | ⟨-, hge, hle, -⟩
  · rw [hk]; decide
  · exact absurd ⟨hge, hle⟩ (busd_window_empty _)

/-- C13: `MIN_BUSD` is 5000·10^18 and `MAX_BUSD` is 35·10^18, the smaller of the two; no
balance passes both `>= MIN_BUSD` and `<= MAX_BUSD`, as read by the comparison or in
exact arithmetic; and for every pair, whatever the reads answer, no row of type "BUSD"
is appended. -/
theorem busd_row_never_appended :
    MIN_BUSD = .fin 5000000000000000000000
    ∧ MAX_BUSD = .fin 35000000000000000000
    ∧ MAX_BUSD.lt MIN_BUSD = true
    ∧ (∀ busdBalance : Nat,
        ¬ ((toNumber busdBalance).ge MIN_BUSD = true
            ∧ (toNumber busdBalance).le MAX_BUSD = true))
    ∧ (∀ busdBalance : Nat,
        ¬ (5000 * 10 ^ 18 ≤ busdBalance ∧ busdBalance ≤ 35 * 10 ^ 18))
    ∧ (∀ (reads : PairReads) (address : Address) (row : Row),
        row ∈ getReserves reads address → row.kind ≠ "BUSD") := by
  refine ⟨MIN_BUSD_eq, MAX_BUSD_eq, ?_, fun n => busd_window_empty _, ?_, kind_ne_busd⟩
  · rw [MIN_BUSD_eq, MAX_BUSD_eq]
    simp [JSNumber.lt]
    norm_num
  · intro n h
    omega

/-- C13 at the sample pair: the one row appended is not of type "BUSD". -/
theorem busd_row_never_appended_witness :
    (⟨samplePair, sampleToken, "wBNB", "20000000000000000000",
        chartLink sampleToken⟩ : Row).kind ≠ "BUSD" :=
  busd_row_never_appended.2.2.2.2.2
    (answered 20000000000000000000 0 wbnb sampleToken) samplePair _
    (by rw [getReserves_sample]; exact List.mem_singleton.mpr rfl)

end PairSniper
